import Mathlib

/-!
# logviewer: decoding, classification, thread colouring, validation and search

A shallow embedding of the algorithmic core of the log viewer
(`src/mainwindow.cpp`, `src/tcoloring.cpp`), of its configuration file and
profiles (`src/tconfig.cpp`) and of two slots of the settings dialog
(`src/tqtsettings.cpp`), together with theorems about it.

Modelling conventions.

* A `QString` is a list of characters; positions and lengths are `Nat`, and
  quantities that the source computes as a possibly negative `qsizetype`
  (`str.length() - pos1 - deli.length()`) are `Int`.
* Qt counts positions and lengths in UTF-16 code units. A character below
  `0x10000` is one code unit, and searching, comparing and cutting at a
  position that was found by a search do not depend on the way of counting.
  The two cuts by a fixed count (the one unit dropped behind the entry marker
  in the validator, the `deli.length()` units dropped from the remainder in
  `split`) are taken in characters: they are the cuts of the code when the
  characters dropped are below `0x10000`. A cut inside a character of two
  code units leaves half of it, which no list of characters holds; the
  theorems about the label of an entry line are stated for a label that is
  cut behind a single code unit (`EntryLabelUnit`).
* `QString::indexOf` returning `-1` is `none`.
* Accessors that the Qt documentation leaves undefined out of range
  (`QString::last`, dereferencing a missing table item) return `none`.
* The `while` loop of `MainWindow::split` runs on fuel; `none` from the loop
  means the fuel ran out. A result does not depend on the fuel
  (`split_fuel_mono`).
* The answers of `progress.wasCanceled()` are a parameter
  `wasCanceled : Nat → Bool`, asked once per record.
* The Qt JSON reader is a parameter (`JsonReader`).
* A table row is the list of its cell texts; colours and alignment of the
  items are left out of the rows.
* `MainWindow::parseFile` is embedded from the check of the JSON values on
  (source line 208), for a file that could be opened, as a list of lines.
* The configuration file is a text; `readConfig` and `saveConfig` are
  embedded for a file that exists, as functions of the static fields and the
  text. A result `none` of `readConfig` stands for a file whose numbers the
  types of the model cannot hold. `readProfile` is embedded the same way.
* A signal that a slot of the settings dialog raises by `setValue` runs the
  connected slot at once; the recursion runs on fuel.
-/

namespace LogViewer

/-! ## Qt string primitives -/

/-- A Qt string, as the list of its characters. -/
abbrev QString := List Char

namespace QString

/-- Scan used by `indexOf`: the first position, counted from `pos` at the
head of the remaining text, where `needle` starts. -/
def findFrom (needle : QString) : QString → Nat → Option Nat
  | [], pos => if needle.isEmpty then some pos else none
  | c :: cs, pos =>
    if needle.isPrefixOf (c :: cs) then some pos else findFrom needle cs (pos + 1)

/-- `QString::indexOf(needle, start)`: the first position `≥ start` where
`needle` occurs, `none` for `-1`. An empty needle is found at `start`. -/
def indexOf (s needle : QString) (start : Nat) : Option Nat :=
  if s.length < start then none else findFrom needle (s.drop start) start

/-- `QString::contains(needle)`, case sensitive. -/
def contains (s needle : QString) : Bool :=
  (indexOf s needle 0).isSome

/-- `QString::startsWith(pre)`. -/
def startsWith (s pre : QString) : Bool :=
  pre.isPrefixOf s

/-- `QString::mid(pos, n)` for `0 ≤ pos` and `0 ≤ n`. -/
def mid (s : QString) (pos n : Nat) : QString :=
  (s.drop pos).take n

/-- `QString::left(n)` for `0 ≤ n`. -/
def left (s : QString) (n : Nat) : QString :=
  s.take n

/-- `QString::right(n)`: the `n` rightmost characters; the entire string when
`n` is negative or at least the size. -/
def right (s : QString) (n : Int) : QString :=
  if n < 0 ∨ (s.length : Int) ≤ n then s else s.drop (s.length - n.toNat)

/-- `QString::last(n)`: the `n` rightmost characters; undefined (here `none`)
unless `0 ≤ n ≤ size`. -/
def last (s : QString) (n : Int) : Option QString :=
  if 0 ≤ n ∧ n ≤ (s.length : Int) then some (s.drop (s.length - n.toNat)) else none

/-- `QChar::isSpace`: the ASCII blanks, NEL, NBSP and the Unicode separator
categories Zs, Zl, Zp. -/
def isSpace (c : Char) : Bool :=
  let n := c.toNat
  n == 0x20 || (0x09 ≤ n && n ≤ 0x0d) || n == 0x85 || n == 0xa0 || n == 0x1680 ||
  (0x2000 ≤ n && n ≤ 0x200a) || n == 0x2028 || n == 0x2029 || n == 0x202f ||
  n == 0x205f || n == 0x3000

/-- `QString::trimmed()`: whitespace removed from both ends. -/
def trimmed (s : QString) : QString :=
  ((s.dropWhile isSpace).reverse.dropWhile isSpace).reverse

/-- `QString::replace(a, b)` for single characters. -/
def replaceChar (s : QString) (a b : Char) : QString :=
  s.map fun c => if c = a then b else c

/-- `QString::split(sep)` for a single-character separator, keeping empty
parts. -/
def splitChar (sep : Char) : QString → List QString
  | [] => [[]]
  | c :: cs =>
    if c = sep then [] :: splitChar sep cs
    else match splitChar sep cs with
      | [] => [[c]]
      | p :: ps => (c :: p) :: ps

end QString

/-! ## `MainWindow::split` -/

/-- The `while` loop of `MainWindow::split`. The state is `(pos1, column,
parts)`; the result is the final `pos1` and `parts`. `none`: out of fuel. -/
def splitLoop (str deli : QString) (cols : Int) :
    Nat → Nat → Nat → List QString → Option (Nat × List QString)
  | 0, _, _, _ => none
  | fuel + 1, pos1, column, parts =>
    if pos1 < str.length then
      match QString.indexOf str deli pos1 with
      | none => some (pos1, parts)
      | some pos2 =>
        if 0 < cols ∧ cols ≤ (column : Int) then
          some (pos1, parts ++
            [QString.right str ((str.length : Int) - pos1 - deli.length)])
        else
          splitLoop str deli cols fuel (pos2 + deli.length) (column + 1)
            (parts ++ [QString.mid str pos1 (pos2 - pos1)])
    else some (pos1, parts)

/-- `MainWindow::split(str, deli, cols)`: the loop, then the remainder is
appended when `pos1` is non-zero and inside the string. The remainder is cut
in characters, which is the cut of the code when the characters dropped are
below `0x10000`. -/
def split (fuel : Nat) (str deli : QString) (cols : Int) : Option (List QString) :=
  match splitLoop str deli cols fuel 0 0 [] with
  | none => none
  | some (pos1, parts) =>
    if pos1 ≠ 0 ∧ pos1 < str.length then
      some (parts ++ [QString.right str ((str.length : Int) - pos1 - deli.length)])
    else some parts

/-! ## Configuration (`TConfig`) -/

/-- A `QColor` built by `qRgb(r, g, b)`. -/
structure QColor where
  r : Nat
  g : Nat
  b : Nat
  deriving DecidableEq, Repr

/-- The colour `Qt::white`. -/
def QColor.white : QColor := ⟨255, 255, 255⟩

/-- `TValueSelect::VALTYPES_t`. -/
inductive VALTYPES_t where
  | VTYPE_STRING
  | VTYPE_INT
  | VTYPE_LONG
  | VTYPE_FLOAT
  | VTYPE_DOUBLE
  | VTYPE_BOOL
  deriving DecidableEq, Repr

/-- `TValueSelect::VALUES_t`. -/
structure VALUES_t where
  type : VALTYPES_t
  name : QString
  deriving DecidableEq, Repr

/-- The static fields of `TConfig` read by the decoder, the classifier, the
validator and the search. -/
structure TConfig where
  blockEntry : QString
  blockExit : QString
  tagInfo : QString
  colorInfo : QColor
  tagWarning : QString
  colorWarning : QColor
  tagError : QString
  colorError : QColor
  tagDebug : QString
  colorDebug : QColor
  tagTrace : QString
  colorTrace : QColor
  delimeter : QString
  columns : Nat
  columnThreadID : Int
  values : List VALUES_t
  deriving Repr

/-- The fields above as `TConfig::initialize` sets them. The last `VALUES_t`
(`message`) is prepared there but never appended. -/
def TConfig.initialize : TConfig where
  blockEntry := "\x7bentry:".toList
  blockExit := "\x7dexit:".toList
  tagInfo := "INF".toList
  colorInfo := ⟨176, 255, 181⟩
  tagWarning := "WRN".toList
  colorWarning := ⟨248, 255, 185⟩
  tagError := "ERR".toList
  colorError := ⟨255, 179, 179⟩
  tagDebug := "DBG".toList
  colorDebug := ⟨227, 227, 227⟩
  tagTrace := "TRC".toList
  colorTrace := ⟨252, 239, 173⟩
  delimeter := ",".toList
  columns := 8
  columnThreadID := 8
  values :=
    [⟨.VTYPE_STRING, "header.timestamp".toList⟩, ⟨.VTYPE_INT, "header.pid".toList⟩,
     ⟨.VTYPE_STRING, "header.username".toList⟩, ⟨.VTYPE_STRING, "header.loglevel".toList⟩,
     ⟨.VTYPE_STRING, "header.logpackage".toList⟩, ⟨.VTYPE_STRING, "header.file".toList⟩,
     ⟨.VTYPE_INT, "header.line".toList⟩]

/-! ## Decoding a line (`MainWindow::parseFile`) -/

/-- The Qt JSON reader as `parseFile` uses it, taken as a parameter: `Obj` is
`QJsonObject`, `fromJson line` is `QJsonDocument::fromJson(line).object()`,
and the other fields are `obj[key]` followed by the named conversion. The two
text fields are the rendering `QString("%1").arg(...)` of an integer and of
a double. -/
structure JsonReader (Obj : Type) where
  fromJson : QString → Obj
  toObject : Obj → QString → Obj
  toStringOr : Obj → QString → QString → QString
  toInt : Obj → QString → Int
  toInteger : Obj → QString → Int
  doubleText : Obj → QString → QString
  toBool : Obj → QString → Bool

/-- The text `QString("%1").arg(n)` of an integer. -/
def intText (n : Int) : QString := (toString n).toList

/-- The text appended for one configured value (the `switch` over
`iter->type`), after the dotted name has been resolved one level deep. -/
def jsonValueText {Obj : Type} (api : JsonReader Obj) (jline : Obj) (v : VALUES_t) : QString :=
  let pa := QString.splitChar '.' v.name
  let sIndex := if QString.contains v.name ".".toList then pa.getD 1 [] else v.name
  let content :=
    if QString.contains v.name ".".toList then api.toObject jline (pa.getD 0 []) else jline
  match v.type with
  | .VTYPE_STRING =>
    QString.replaceChar (api.toStringOr content sIndex " ".toList) ',' ' '
  | .VTYPE_INT => intText (api.toInt content sIndex)
  | .VTYPE_LONG => intText (api.toInteger content sIndex)
  | .VTYPE_FLOAT => api.doubleText content sIndex
  | .VTYPE_DOUBLE => api.doubleText content sIndex
  | .VTYPE_BOOL => intText (if api.toBool content sIndex then 1 else 0)

/-- The loop over `TConfig::values()` that rebuilds `qLine` from a JSON line.
The state is `(qLine, first)`. -/
def jsonLineLoop {Obj : Type} (api : JsonReader Obj) (cfg : TConfig) (jline : Obj)
    (lastName : QString) : List VALUES_t → QString × Bool → QString × Bool
  | [], acc => acc
  | v :: vs, (qLine, first) =>
    let q1 := if first then qLine else qLine ++ cfg.delimeter
    let q2 := if v.name = lastName then q1 ++ " ".toList else q1
    jsonLineLoop api cfg jline lastName vs (q2 ++ jsonValueText api jline v, false)

/-- The line that is split and classified: the raw line, or in JSON mode, for
a line that starts with `{`, the line rebuilt from the configured values. -/
def effectiveLine {Obj : Type} (api : JsonReader Obj) (cfg : TConfig) (jsonMode : Bool)
    (line : QString) : QString :=
  if jsonMode && QString.startsWith line "\x7b".toList then
    (jsonLineLoop api cfg (api.fromJson line)
      ((cfg.values.getLast?.map VALUES_t.name).getD []) cfg.values ([], true)).1
  else line

/-- The list of `columns` empty strings whose last entry is then set to
`qLine`. -/
def wholeLineParts (cfg : TConfig) (qLine : QString) : List QString :=
  (List.replicate cfg.columns ([] : QString)).set (cfg.columns - 1) qLine

/-- The `parts` of a line (source lines 324-343). `isJson` says whether the raw
line starts with `{`. -/
def lineParts (fuel : Nat) (cfg : TConfig) (jsonMode isJson : Bool) (qLine : QString) :
    Option (List QString) :=
  if jsonMode && !isJson then some (wholeLineParts cfg qLine)
  else if QString.contains qLine cfg.delimeter then
    split fuel qLine cfg.delimeter ((cfg.columns : Int) - 1)
  else some (wholeLineParts cfg qLine)

/-- The text of cell `i` set by the per-column loop (source lines 419-470). -/
def cellText (cfg : TConfig) (parts : List QString) (i : Nat) : QString :=
  if i < parts.length ∧ (i : Int) < (cfg.columns : Int) - 1 then
    QString.trimmed (parts.getD i [])
  else if i < parts.length ∧ (i : Int) = (cfg.columns : Int) - 1 then
    parts.getD i []
  else if i < parts.length then parts.getD i []
  else if ¬ parts.isEmpty ∧ (i : Int) = (cfg.columns : Int) - 1 then
    (parts.getLast?).getD []
  else []

/-- The cells of one table row: the per-column loop for `i = 0 .. columns-1`. -/
def rowCells (cfg : TConfig) (parts : List QString) : List QString :=
  (List.range cfg.columns).map (cellText cfg parts)

/-- The decode step of `parseFile` for one input line: the parts, then the
per-column loop. `none`: the split loop ran out of fuel. -/
def decode {Obj : Type} (fuel : Nat) (api : JsonReader Obj) (cfg : TConfig) (jsonMode : Bool)
    (line : QString) : Option (List QString) :=
  (lineParts fuel cfg jsonMode (QString.startsWith line "\x7b".toList)
    (effectiveLine api cfg jsonMode line)).map (rowCells cfg)

/-! ## Severity (`MainWindow::parseFile`, source lines 349-378) -/

/-- The category whose counter `parseFile` increases for a line. -/
inductive Severity where
  | info
  | warning
  | error
  | trace
  | debug
  | other
  deriving DecidableEq, Repr

/-- The chain of `contains` tests on `qLine`. -/
def classify (cfg : TConfig) (qLine : QString) : Severity :=
  if QString.contains qLine cfg.tagInfo then .info
  else if QString.contains qLine cfg.tagWarning then .warning
  else if QString.contains qLine cfg.tagError then .error
  else if QString.contains qLine cfg.tagTrace then .trace
  else if QString.contains qLine cfg.tagDebug then .debug
  else .other

/-- The background colour `bgColor` chosen together with the counter. -/
def rowColor (cfg : TConfig) : Severity → QColor
  | .info => cfg.colorInfo
  | .warning => cfg.colorWarning
  | .error => cfg.colorError
  | .trace => cfg.colorTrace
  | .debug => cfg.colorDebug
  | .other => QColor.white

/-! ## Thread colours (`TColoring`) -/

/-- The values of one colour channel loop `for (v = start; v > 127; v -= 16)`,
on fuel. -/
def channelLoop : Nat → Nat → List Nat
  | 0, _ => []
  | fuel + 1, v => if 127 < v then v :: channelLoop fuel (v - 16) else []

/-- The channel values `255, 239, ..., 143`. -/
def channelValues : List Nat := channelLoop 256 255

/-- `TColoring::COLID_t`. -/
structure COLID_t where
  color : QColor
  ID : QString
  deriving DecidableEq, Repr

/-- The fields of a `TColoring` object. -/
structure TColoring where
  mIDs : List COLID_t
  mColors : List QColor
  deriving Repr

/-- The constructor `TColoring::TColoring()`: no ids, and the colours of the
three nested loops, `r` outermost. -/
def TColoring.new : TColoring where
  mIDs := []
  mColors :=
    channelValues.flatMap fun r =>
      channelValues.flatMap fun g =>
        channelValues.map fun b => (⟨r, g, b⟩ : QColor)

/-- `TColoring::getColor(id)`: the returned colour and the object afterwards. -/
def TColoring.getColor (t : TColoring) (id : QString) : QColor × TColoring :=
  match t.mIDs.find? (fun e => e.ID = id) with
  | some e => (e.color, t)
  | none =>
    match t.mColors[t.mIDs.length]? with
    | some c => (c, { t with mIDs := t.mIDs ++ [⟨c, id⟩] })
    | none => (QColor.white, t)

/-- The colours returned by a sequence of `getColor` calls on one object, and
the object after the last call. -/
def TColoring.getColors (t : TColoring) : List QString → List QColor × TColoring
  | [] => ([], t)
  | id :: ids =>
    let r := t.getColor id
    let rs := TColoring.getColors r.2 ids
    (r.1 :: rs.1, rs.2)

/-! ## The table model -/

/-- The rows of the `QStandardItemModel`; a row is the list of its cell
texts. -/
abbrev Table := List (List QString)

/-- `model->item(line, column)->text()`; `none` when there is no such item. -/
def itemText (table : Table) (line : Nat) (column : Int) : Option QString :=
  if column < 0 then none
  else table[line]?.bind fun row => row[column.toNat]?

/-! ## Validation (`MainWindow::on_actionValidate_consistnace_triggered`) -/

/-- The local type `CLASS_STACK_t`. -/
structure CLASS_STACK_t where
  line : Nat
  threadId : QString
  method : QString
  deriving DecidableEq, Repr

/-- The three containers the validation loop updates. -/
structure VState where
  stack : List QString
  classStack : List CLASS_STACK_t
  errorLines : List Nat
  deriving DecidableEq, Repr

/-- The state before the first record. -/
def VState.init : VState := ⟨[], [], []⟩

/-- The reverse scan of the class stack on an exit line: the `line` of the
most recently pushed entry whose `::~method` (and, with a thread column, whose
thread id) occurs in `qLine`; `0` when there is none (`int l = 0`). -/
def findClassLine (colThread : Int) (qLine : QString) (classStack : List CLASS_STACK_t) : Nat :=
  match classStack.reverse.find? (fun e =>
      if colThread ≤ 0 then QString.contains qLine ("::~".toList ++ e.method)
      else QString.contains qLine e.threadId &&
        QString.contains qLine ("::~".toList ++ e.method)) with
  | some e => e.line
  | none => 0

/-- The forward loop that erases the first entry whose `line` is `l`. -/
def eraseLine (l : Nat) : List CLASS_STACK_t → List CLASS_STACK_t
  | [] => []
  | e :: es => if e.line = l then es else e :: eraseLine l es

/-- The class stack after an exit line (source lines 937-977). -/
def classStackOnExit (colThread : Int) (qLine : QString)
    (classStack : List CLASS_STACK_t) : List CLASS_STACK_t :=
  if classStack.isEmpty then classStack
  else
    let l := findClassLine colThread qLine classStack
    if l ≠ 0 then eraseLine l classStack else classStack

/-- The body of the validation loop for the record `line`. `none`: an access
out of range (`QString::last` or a missing item). The label is cut in
characters: the one character dropped behind the marker is the one code unit
the code drops when that character is below `0x10000`. -/
def validateLine (cfg : TConfig) (table : Table) (st : VState) (line : Nat) : Option VState :=
  match itemText table line ((cfg.columns : Int) - 1) with
  | none => none
  | some qLine =>
    if QString.contains qLine cfg.blockEntry then
      match QString.indexOf qLine cfg.blockEntry 0 with
      | none => none
      | some pos =>
        match QString.last qLine ((qLine.length : Int) - pos - cfg.blockEntry.length - 1) with
        | none => none
        | some method =>
          let stack := if cfg.columnThreadID ≤ 0 then st.stack ++ [method] else st.stack
          match QString.indexOf method "::".toList 0 with
          | none => some { st with stack := stack }
          | some pos =>
            let left := QString.left method pos
            match QString.last method ((method.length : Int) - pos - 2) with
            | none => none
            | some right =>
              if QString.contains right left && !QString.startsWith right "~".toList then
                if 0 < cfg.columnThreadID ∧ cfg.columnThreadID < (cfg.columns : Int) then
                  match itemText table line (cfg.columnThreadID - 1) with
                  | none => none
                  | some tid =>
                    some { st with stack := stack,
                                   classStack := st.classStack ++ [⟨line, tid, left⟩] }
                else
                  some { st with stack := stack,
                                 classStack := st.classStack ++ [⟨line, [], left⟩] }
              else some { st with stack := stack }
    else if QString.contains qLine cfg.blockExit then
      let st1 : VState :=
        if cfg.columnThreadID ≤ 0 then
          if 0 < st.stack.length ∧
              QString.contains qLine ((st.stack.getLast?).getD []) then
            { st with stack := st.stack.dropLast }
          else { st with errorLines := st.errorLines ++ [line] }
        else st
      some { st1 with
        classStack := classStackOnExit cfg.columnThreadID qLine st1.classStack }
    else some st

/-- How the validation ends. -/
inductive Outcome where
  | done (st : VState)
  | canceled
  | fault
  deriving DecidableEq, Repr

/-- The validation loop over `remaining` records starting at `line`;
`wasCanceled line` is the answer of `progress.wasCanceled()` at that record. -/
def validateFrom (cfg : TConfig) (wasCanceled : Nat → Bool) (table : Table) :
    Nat → Nat → VState → Outcome
  | 0, _, st => .done st
  | remaining + 1, line, st =>
    if wasCanceled line then .canceled
    else match validateLine cfg table st line with
      | none => .fault
      | some st1 => validateFrom cfg wasCanceled table remaining (line + 1) st1

/-- The whole validation pass over the table. -/
def validate (cfg : TConfig) (wasCanceled : Nat → Bool) (table : Table) : Outcome :=
  validateFrom cfg wasCanceled table table.length 0 VState.init

/-- The lines listed under "Result of block validation" (`errorLines`, as
stored: 0-based record indices; the report prints each plus one). -/
def inconsistentExitLines (st : VState) : List Nat := st.errorLines

/-- The entries listed under "Result of method match": the class stack left
after the loop, first to last (0-based record index and class name). -/
def unmatchedConstructs (st : VState) : List (Nat × QString) :=
  st.classStack.map fun e => (e.line, e.method)

/-! ## Search (`MainWindow::search`) -/

/-- The scan loop of `search` over `remaining` records starting at `line`. -/
def searchFrom (wasCanceled : Nat → Bool) (table : Table) (text : QString) (column : Int) :
    Nat → Nat → Int
  | 0, _ => -1
  | remaining + 1, line =>
    if wasCanceled line then -1
    else match itemText table line column with
      | some t =>
        if QString.contains t text then (line : Int) + 1
        else searchFrom wasCanceled table text column remaining (line + 1)
      | none => searchFrom wasCanceled table text column remaining (line + 1)

/-- The column `search` looks at: `col` when in range, else the last one. -/
def searchColumn (cfg : TConfig) (col : Int) : Int :=
  if 0 ≤ col ∧ col < (cfg.columns : Int) then col else (cfg.columns : Int) - 1

/-- `MainWindow::search(text, offset, col)` for `offset ≥ 0`. -/
def search (cfg : TConfig) (wasCanceled : Nat → Bool) (table : Table) (text : QString)
    (offset : Nat) (col : Int) : Int :=
  searchFrom wasCanceled table text (searchColumn cfg col) (table.length - offset) offset

/-! ## The line loop of `parseFile` -/


/-- `TThreadSelect::THREAD_LIST_t`. -/
structure THREAD_LIST_t where
  threadID : QString
  threadColor : QColor
  deriving DecidableEq, Repr

/-- One row of the table as `parseFile` builds it: the cell texts, the
category whose counter was increased, the background colour `bgColor` of the
row and the background colour `bgThread` of the thread cell. -/
structure Record where
  cells : List QString
  severity : Severity
  rowColor : QColor
  threadColor : QColor
  deriving DecidableEq, Repr

/-- The objects `parseFile` updates from line to line: the `TColoring` of the
pass, the list `mThreads` and the rows appended so far. -/
structure ParseState where
  coloring : TColoring
  mThreads : List THREAD_LIST_t
  records : List Record
  deriving Repr

/-- The state at the start of a pass. -/
def ParseState.init : ParseState := ⟨TColoring.new, [], []⟩

/-- The thread-column block of the per-column loop (source lines 392-417): it
runs for the column `columnThreadID - 1` when that column exists and `parts`
has an entry for it. The result is `bgThread` and the updated objects. -/
def threadStep (cfg : TConfig) (parts : List QString) (coloring : TColoring)
    (mThreads : List THREAD_LIST_t) : QColor × TColoring × List THREAD_LIST_t :=
  if 0 < cfg.columnThreadID ∧ cfg.columnThreadID - 1 < (cfg.columns : Int) ∧
      (cfg.columnThreadID - 1).toNat < parts.length then
    let sthread := QString.trimmed (parts.getD (cfg.columnThreadID - 1).toNat [])
    let r := coloring.getColor sthread
    let found := mThreads.any fun tl => tl.threadID = sthread
    if !found && !sthread.isEmpty then (r.1, r.2, mThreads ++ [⟨sthread, r.1⟩])
    else (r.1, r.2, mThreads)
  else (QColor.white, coloring, mThreads)

/-- The body of the line loop of `parseFile` for a line that is not skipped:
the row for the line is appended. `none`: the split loop ran out of fuel. -/
def parseLine {Obj : Type} (fuel : Nat) (api : JsonReader Obj) (cfg : TConfig)
    (jsonMode : Bool) (line : QString) (st : ParseState) : Option ParseState :=
  let qLine := effectiveLine api cfg jsonMode line
  match lineParts fuel cfg jsonMode (QString.startsWith line "\x7b".toList) qLine with
  | none => none
  | some parts =>
    let sev := classify cfg qLine
    let th := threadStep cfg parts st.coloring st.mThreads
    some { coloring := th.2.1, mThreads := th.2.2,
           records := st.records ++ [⟨rowCells cfg parts, sev, rowColor cfg sev, th.1⟩] }

/-- The line loop of `parseFile`. `k` counts the lines read; with a progress
dialog (`progress`) the cancel button is asked before each line. A line is
skipped when the thread filter is active (`filterCheck`, a non-empty
`threadFilter` and a thread column) and the line does not contain the filter
text. The result says whether the pass was canceled. -/
def parseLoop {Obj : Type} (fuel : Nat) (api : JsonReader Obj) (cfg : TConfig)
    (jsonMode progress : Bool) (wasCanceled : Nat → Bool) (filterCheck : Bool)
    (threadFilter : QString) : List QString → Nat → ParseState → Option (Bool × ParseState)
  | [], _, st => some (false, st)
  | line :: rest, k, st =>
    if progress && wasCanceled k then some (true, st)
    else if (filterCheck && !threadFilter.isEmpty && decide (0 < cfg.columnThreadID)) &&
        !QString.contains line threadFilter then
      parseLoop fuel api cfg jsonMode progress wasCanceled filterCheck threadFilter rest (k + 1) st
    else
      match parseLine fuel api cfg jsonMode line st with
      | none => none
      | some st1 =>
        parseLoop fuel api cfg jsonMode progress wasCanceled filterCheck threadFilter rest
          (k + 1) st1

/-- How `parseFile` ends once the file is at hand. -/
inductive ParseOutcome where
  | notConfigured
  | canceled
  | loaded (st : ParseState)
  deriving Repr

/-- `MainWindow::parseFile` from source line 208 on, for a file that could be
opened and holds `lines`: in JSON mode the pass is refused (`return false`
behind the message box) when the number of configured values differs from the
number of columns; otherwise the lines are read; a canceled pass clears the
model and returns `false`; else the table is set and `true` is returned.
`none`: out of fuel. The statements in front of line 208 (emptying the old
table, unpacking a `.gz` file, setting up the header items) and the status
texts are not part of the model. -/
def parseFile {Obj : Type} (fuel : Nat) (api : JsonReader Obj) (cfg : TConfig)
    (jsonMode progress : Bool) (wasCanceled : Nat → Bool) (filterCheck : Bool)
    (threadFilter : QString) (lines : List QString) : Option ParseOutcome :=
  if jsonMode = true ∧ cfg.values.length ≠ cfg.columns then some .notConfigured
  else
    match parseLoop fuel api cfg jsonMode progress wasCanceled filterCheck threadFilter lines 0
        ParseState.init with
    | none => none
    | some (true, _) => some .canceled
    | some (false, st) => some (.loaded st)

/-- The value `parseFile` returns. -/
def ParseOutcome.returns : ParseOutcome → Bool
  | .notConfigured => false
  | .canceled => false
  | .loaded _ => true

/-- The rows of the table after `parseFile`. -/
def ParseOutcome.rows : ParseOutcome → List Record
  | .notConfigured => []
  | .canceled => []
  | .loaded st => st.records


/-- The JSON reader on a text that is not a JSON object, as Qt documents it:
`QJsonDocument::fromJson` gives a null document, whose `object()` is empty;
a key of an empty object gives an undefined value, and every conversion of
an undefined value gives its default. -/
def unparsedReader : JsonReader Unit where
  fromJson := fun _ => ()
  toObject := fun _ _ => ()
  toStringOr := fun _ _ d => d
  toInt := fun _ _ => 0
  toInteger := fun _ _ => 0
  doubleText := fun _ _ => "0".toList
  toBool := fun _ _ => false

/-! ## The configuration file (`TConfig::saveConfig`, `TConfig::readConfig`)

The file is a text; `QString::toStdString` and `QString::fromStdString` (UTF-8
coding and decoding) are the identity on lists of characters, and the byte
operations of `readConfig` (`find("=")`, `isspace`, the separators) only look
at ASCII characters, so the text is handled character by character. The bytes
of a line are counted where the buffer of `getline` matters. -/

/-- A `QRect` as `QRect(x, y, width, height)`. -/
structure QRect where
  x : Int
  y : Int
  width : Int
  height : Int
  deriving DecidableEq, Repr

/-- All static fields of `TConfig` that the configuration file holds: the
fields of `TConfig` above and the remaining ones. -/
structure TConfigStatics extends TConfig where
  headers : List QString
  colAligns : QString
  logfile : QString
  sourcePath : QString
  resultPath : QString
  logLevel : Int
  lastGeometry : QRect
  lastOpenPath : QString
  lastSavePath : QString
  deriving Repr

/-- `TConfig::initialize()` on the static fields `s`: the listed fields are
set; the headers and the values are appended to what is there (eight headers,
seven values: the value `message` is prepared but not appended); the other
fields are kept. -/
def TConfigStatics.initialize (s : TConfigStatics) : TConfigStatics :=
  { s with
    blockEntry := "\x7bentry:".toList
    blockExit := "\x7dexit:".toList
    tagInfo := "INF".toList
    colorInfo := ⟨176, 255, 181⟩
    tagWarning := "WRN".toList
    colorWarning := ⟨248, 255, 185⟩
    tagError := "ERR".toList
    colorError := ⟨255, 179, 179⟩
    tagDebug := "DBG".toList
    colorDebug := ⟨227, 227, 227⟩
    tagTrace := "TRC".toList
    colorTrace := ⟨252, 239, 173⟩
    columns := 8
    colAligns := "l,r,l,l,l,l,r,l".toList
    headers := s.headers ++
      ["Timestamp".toList, "PID".toList, "User".toList, "Type".toList, "SType".toList,
       "File".toList, "Line".toList, "Content".toList]
    values := s.values ++
      [⟨.VTYPE_STRING, "header.timestamp".toList⟩, ⟨.VTYPE_INT, "header.pid".toList⟩,
       ⟨.VTYPE_STRING, "header.username".toList⟩, ⟨.VTYPE_STRING, "header.loglevel".toList⟩,
       ⟨.VTYPE_STRING, "header.logpackage".toList⟩, ⟨.VTYPE_STRING, "header.file".toList⟩,
       ⟨.VTYPE_INT, "header.line".toList⟩]
    delimeter := ",".toList
    columnThreadID := 8
    logLevel := 1 }

/-- The cast `static_cast<VALTYPES_t>(n)`; `none` for a number that is no
enumerator, which the type `VALTYPES_t` of the model cannot hold. -/
def valtypeOfInt (n : Int) : Option VALTYPES_t :=
  if n = 0 then some .VTYPE_STRING
  else if n = 1 then some .VTYPE_INT
  else if n = 2 then some .VTYPE_LONG
  else if n = 3 then some .VTYPE_FLOAT
  else if n = 4 then some .VTYPE_DOUBLE
  else if n = 5 then some .VTYPE_BOOL
  else none

/-- The number of bytes of a text in the file. -/
def byteLength (s : QString) : Nat := (s.map Char.utf8Size).sum

/-- The lines `in.getline(line, 1024)` delivers while the loop of `readConfig`
runs: the file is cut at the newlines, a last line without characters is no
line, and the loop ends at the first line that does not fit the buffer (1023
bytes and the final zero). -/
def getlines (content : QString) : List QString :=
  let pieces := QString.splitChar '\n' content
  let lines := if pieces.getLast? = some [] then pieces.dropLast else pieces
  lines.takeWhile fun l => decide (byteLength l < 1024)

/-- The string `l` built from the buffer: it ends at the first zero byte
(`strlen`). -/
def cString (line : QString) : QString := line.takeWhile fun c => c.toNat != 0

/-- `std::isspace` in the C locale. -/
def stdIsSpace (c : Char) : Bool :=
  c.toNat == 0x20 || (0x09 ≤ c.toNat && c.toNat ≤ 0x0d)

/-- `TConfig::ltrim`. -/
def ltrim (s : QString) : QString := s.dropWhile stdIsSpace

/-- `TConfig::rtrim`. -/
def rtrim (s : QString) : QString := (s.reverse.dropWhile stdIsSpace).reverse

/-- `TConfig::trim`: `ltrim(rtrim(s))`. -/
def trim (s : QString) : QString := ltrim (rtrim s)

/-- `TConfig::isRemark`. -/
def isRemark : QString → Bool
  | [] => false
  | c :: cs =>
    if c ≠ ' ' ∧ c ≠ '#' then false
    else if c = '#' then true
    else isRemark cs

/-- `TConfig::caseCompare`: `0` when the texts are equal up to the case of
the ASCII letters (the callers only compare the result with `0`). -/
def caseCompare : QString → QString → Int
  | [], [] => 0
  | [], _ :: _ => 1
  | _ :: _, [] => -1
  | a :: as, b :: bs =>
    if a.toLower ≠ b.toLower then (a.toNat : Int) - (b.toNat : Int)
    else caseCompare as bs

/-- The value of a text of decimal digits. -/
def digitsValue (ds : List Char) : Nat :=
  ds.foldl (fun acc c => 10 * acc + (c.toNat - 48)) 0

/-- `atoi`: leading whitespace, an optional sign and the decimal digits that
follow; `0` without digits. The numbers are not cut to the range of `int`
(`atoi` is undefined out of range). -/
def atoi (s : QString) : Int :=
  match s.dropWhile stdIsSpace with
  | '-' :: r => -(digitsValue (r.takeWhile Char.isDigit) : Int)
  | '+' :: r => (digitsValue (r.takeWhile Char.isDigit) : Int)
  | r => (digitsValue (r.takeWhile Char.isDigit) : Int)

/-- The signed number of `QString::toInt` from its sign and digits: `0` when
there is no digit, a character is no digit or the number is no `int`. -/
def intOfDigits (neg : Bool) (ds : List Char) : Int :=
  if ds ≠ [] ∧ ds.all Char.isDigit then
    let n : Int := if neg then -(digitsValue ds : Int) else (digitsValue ds : Int)
    if -2147483648 ≤ n ∧ n ≤ 2147483647 then n else 0
  else 0

/-- `QString::toInt()`: surrounding whitespace is skipped; `0` when the text
is no decimal number of the range of `int`. -/
def QString.toInt (s : QString) : Int :=
  match QString.trimmed s with
  | '-' :: r => intOfDigits true r
  | '+' :: r => intOfDigits false r
  | r => intOfDigits false r

/-- `qRgb(r, g, b)` as a `QColor`: every channel is cut to eight bits. -/
def qRgb (r g b : Int) : QColor := ⟨(r % 256).toNat, (g % 256).toNat, (b % 256).toNat⟩

/-- The colour branches of `readConfig`: the colour is replaced when the text
contains a comma and has at least three parts. -/
def readColor (old : QColor) (color : QString) : QColor :=
  if QString.contains color ",".toList then
    let parts := QString.splitChar ',' color
    if 3 ≤ parts.length then
      qRgb (QString.toInt (parts.getD 0 [])) (QString.toInt (parts.getD 1 []))
        (QString.toInt (parts.getD 2 []))
    else old
  else old

/-- The `Headers` branch: the list is replaced when the text contains `|`. -/
def readHeaders (old : List QString) (heads : QString) : List QString :=
  if QString.contains heads "|".toList then QString.splitChar '|' heads else old

/-- One entry of the `Values` line: `name,type`, or a name alone with the type
`VTYPE_STRING`. -/
def readValue (part : QString) : Option VALUES_t :=
  let c := QString.splitChar ',' part
  if 2 ≤ c.length then
    (valtypeOfInt (QString.toInt (c.getD 1 []))).map fun t => ⟨t, c.getD 0 []⟩
  else some ⟨.VTYPE_STRING, part⟩

/-- The loop over the entries of the `Values` line. -/
def readValueList : List QString → Option (List VALUES_t)
  | [] => some []
  | p :: ps =>
    match readValue p, readValueList ps with
    | some v, some vs => some (v :: vs)
    | _, _ => none

/-- The `Values` branch: the list is replaced when the text contains `|`. -/
def readValues (old : List VALUES_t) (heads : QString) : Option (List VALUES_t) :=
  if QString.contains heads "|".toList then readValueList (QString.splitChar '|' heads)
  else some old

/-- The `LogLevel` branch: the number is kept within `0..6`. -/
def readLogLevel (right : QString) : Int :=
  if atoi right < 0 then 0 else if 6 < atoi right then 6 else atoi right

/-- The `Geometry` branch: replaced when the text has at least four parts. -/
def readGeometry (old : QRect) (r : QString) : QRect :=
  let parts := QString.splitChar ',' r
  if 4 ≤ parts.length then
    ⟨QString.toInt (parts.getD 0 []), QString.toInt (parts.getD 1 []),
     QString.toInt (parts.getD 2 []), QString.toInt (parts.getD 3 [])⟩
  else old

/-- The chain of key comparisons of `readConfig` for the trimmed texts `left`
and `right` of a line. `none`: the line gives a negative column count or a
value type that is no enumerator, which the types of the model cannot hold. -/
def assign (c : TConfigStatics) (left right : QString) : Option TConfigStatics :=
  if caseCompare left "BlockStart".toList = 0 then some { c with blockEntry := right }
  else if caseCompare left "BlockEnd".toList = 0 then some { c with blockExit := right }
  else if caseCompare left "TagInfo".toList = 0 then some { c with tagInfo := right }
  else if caseCompare left "ColorInfo".toList = 0 then
    some { c with colorInfo := readColor c.colorInfo right }
  else if caseCompare left "TagError".toList = 0 then some { c with tagError := right }
  else if caseCompare left "ColorError".toList = 0 then
    some { c with colorError := readColor c.colorError right }
  else if caseCompare left "TagWarning".toList = 0 then some { c with tagWarning := right }
  else if caseCompare left "ColorWarning".toList = 0 then
    some { c with colorWarning := readColor c.colorWarning right }
  else if caseCompare left "TagDebug".toList = 0 then some { c with tagDebug := right }
  else if caseCompare left "ColorDebug".toList = 0 then
    some { c with colorDebug := readColor c.colorDebug right }
  else if caseCompare left "TagTrace".toList = 0 then some { c with tagTrace := right }
  else if caseCompare left "ColorTrace".toList = 0 then
    some { c with colorTrace := readColor c.colorTrace right }
  else if caseCompare left "Delimeter".toList = 0 then some { c with delimeter := right }
  else if caseCompare left "Columns".toList = 0 then
    if atoi right < 0 then none else some { c with columns := (atoi right).toNat }
  else if caseCompare left "ColumnThreadID".toList = 0 then
    some { c with columnThreadID := atoi right }
  else if caseCompare left "Headers".toList = 0 then
    some { c with headers := readHeaders c.headers right }
  else if caseCompare left "Values".toList = 0 then
    (readValues c.values right).map fun vs => { c with values := vs }
  else if caseCompare left "ColAligns".toList = 0 then some { c with colAligns := right }
  else if caseCompare left "LogFile".toList = 0 then some { c with logfile := right }
  else if caseCompare left "SourcePath".toList = 0 then some { c with sourcePath := right }
  else if caseCompare left "ResultPath".toList = 0 then some { c with resultPath := right }
  else if caseCompare left "LogLevel".toList = 0 then
    some { c with logLevel := readLogLevel right }
  else if caseCompare left "Geometry".toList = 0 then
    some { c with lastGeometry := readGeometry c.lastGeometry right }
  else if caseCompare left "LastOpenPath".toList = 0 then some { c with lastOpenPath := right }
  else if caseCompare left "LastSavePath".toList = 0 then some { c with lastSavePath := right }
  else some c

/-- The body of the line loop of `readConfig`. -/
def processLine (c : TConfigStatics) (line : QString) : Option TConfigStatics :=
  let l := cString line
  if isRemark l then some c
  else
    match QString.indexOf l "=".toList 0 with
    | none => some c
    | some pos => assign c (trim (l.take pos)) (trim (l.drop (pos + 1)))

/-- The static fields before anything is set: empty texts and lists, zero
numbers and black colours. -/
def TConfigStatics.zero : TConfigStatics :=
  { blockEntry := [], blockExit := [], tagInfo := [], colorInfo := ⟨0, 0, 0⟩, tagWarning := []
    colorWarning := ⟨0, 0, 0⟩, tagError := [], colorError := ⟨0, 0, 0⟩, tagDebug := []
    colorDebug := ⟨0, 0, 0⟩, tagTrace := [], colorTrace := ⟨0, 0, 0⟩, delimeter := []
    columns := 0, columnThreadID := 0, values := [], headers := [], colAligns := []
    logfile := [], sourcePath := [], resultPath := [], logLevel := 0
    lastGeometry := ⟨0, 0, 0, 0⟩, lastOpenPath := [], lastSavePath := [] }

/-! ## Profiles (`TConfig::readProfile`) -/

/-- `TConfig::getConfigFile()` as far as it changes the static fields.
`known` says whether `mConfigFile` is set after the search for an existing
configuration file (it is once `readConfig` has run); when it is not, the
defaults are set again and the log file and the two paths are made from the
home directory `p`. The configuration file written in that case does not
change the fields. -/
def getConfigFile (known : Bool) (p : QString) (s : TConfigStatics) : TConfigStatics :=
  if known then s
  else
    { ( TConfigStatics.initialize s) with
      logfile := p ++ "/itpploganalyzer.log".toList
      sourcePath := p
      resultPath := p }

/-- The loop over the entries of the `Values` line in `readProfile`: an entry
with a comma is `name,type`, an entry without one is a name with the type
`VTYPE_STRING`. -/
def readProfileValueList : List QString → Option (List VALUES_t)
  | [] => some []
  | p :: ps =>
    match readProfileValueList ps with
    | none => none
    | some vs =>
      if QString.contains p ",".toList then
        let v := QString.splitChar ',' p
        if 2 ≤ v.length then
          (valtypeOfInt (QString.toInt (v.getD 1 []))).map fun t => ⟨t, v.getD 0 []⟩ :: vs
        else some vs
      else some (⟨.VTYPE_STRING, p⟩ :: vs)

/-- The `Values` branch of `readProfile`. -/
def readProfileValues (old : List VALUES_t) (heads : QString) : Option (List VALUES_t) :=
  if QString.contains heads "|".toList then readProfileValueList (QString.splitChar '|' heads)
  else some old

/-- The chain of key comparisons of `readProfile`: the keys of the schema
only. `none` as in `assign`. -/
def assignProfile (c : TConfigStatics) (left right : QString) : Option TConfigStatics :=
  if caseCompare left "BlockStart".toList = 0 then some { c with blockEntry := right }
  else if caseCompare left "BlockEnd".toList = 0 then some { c with blockExit := right }
  else if caseCompare left "TagInfo".toList = 0 then some { c with tagInfo := right }
  else if caseCompare left "ColorInfo".toList = 0 then
    some { c with colorInfo := readColor c.colorInfo right }
  else if caseCompare left "TagError".toList = 0 then some { c with tagError := right }
  else if caseCompare left "ColorError".toList = 0 then
    some { c with colorError := readColor c.colorError right }
  else if caseCompare left "TagWarning".toList = 0 then some { c with tagWarning := right }
  else if caseCompare left "ColorWarning".toList = 0 then
    some { c with colorWarning := readColor c.colorWarning right }
  else if caseCompare left "TagDebug".toList = 0 then some { c with tagDebug := right }
  else if caseCompare left "ColorDebug".toList = 0 then
    some { c with colorDebug := readColor c.colorDebug right }
  else if caseCompare left "TagTrace".toList = 0 then some { c with tagTrace := right }
  else if caseCompare left "ColorTrace".toList = 0 then
    some { c with colorTrace := readColor c.colorTrace right }
  else if caseCompare left "Delimeter".toList = 0 then some { c with delimeter := right }
  else if caseCompare left "Columns".toList = 0 then
    if atoi right < 0 then none else some { c with columns := (atoi right).toNat }
  else if caseCompare left "ColumnThreadID".toList = 0 then
    some { c with columnThreadID := atoi right }
  else if caseCompare left "Headers".toList = 0 then
    some { c with headers := readHeaders c.headers right }
  else if caseCompare left "Values".toList = 0 then
    (readProfileValues c.values right).map fun vs => { c with values := vs }
  else if caseCompare left "ColAligns".toList = 0 then some { c with colAligns := right }
  else some c

/-- The body of the line loop of `readProfile`. -/
def processProfileLine (c : TConfigStatics) (line : QString) : Option TConfigStatics :=
  let l := cString line
  if isRemark l then some c
  else
    match QString.indexOf l "=".toList 0 with
    | none => some c
    | some pos => assignProfile c (trim (l.take pos)) (trim (l.drop (pos + 1)))

/-- The line loop of `readProfile`. -/
def readProfileLines (c : TConfigStatics) : List QString → Option TConfigStatics
  | [] => some c
  | l :: ls =>
    match processProfileLine c l with
    | none => none
    | some c1 => readProfileLines c1 ls

/-- `TConfig::readProfile(pf)` on the static fields `prior` and a profile
with the text `content`: `initialize()`, `getConfigFile()`, then the line
loop. -/
def readProfile (known : Bool) (p : QString) (prior : TConfigStatics) (content : QString) :
    Option TConfigStatics :=
  readProfileLines (getConfigFile known p ( TConfigStatics.initialize prior)) (getlines content)

/-! ## The settings dialog (`TQtSettings`) -/

/-- A `QSpinBox`: its value and its range. -/
structure QSpinBox where
  value : Int
  minimum : Int
  maximum : Int
  deriving DecidableEq, Repr

/-- The fields of `TQtSettings` that the two spin box slots use, together
with the spin box of the thread column. -/
structure TQtSettings where
  mColumns : Int
  mColumnThreadID : Int
  mHeaders : List QString
  mValues : List VALUES_t
  spinBoxThreadID : QSpinBox
  deriving DecidableEq, Repr

/-- `TQtSettings::on_spinBoxThreadID_valueChanged(arg1)`. In the `else`
branch `ui->spinBoxThreadID->setValue(mColumnThreadID)` bounds the number to
the range of the spin box and, when that changes the value of the spin box,
emits `valueChanged`, which runs the slot again. `none`: out of fuel. -/
def on_spinBoxThreadID_valueChanged : Nat → TQtSettings → Int → Option TQtSettings
  | 0, _, _ => none
  | fuel + 1, s, arg1 =>
    if arg1 ≤ s.mColumns then some { s with mColumnThreadID := arg1 }
    else
      let w := max s.spinBoxThreadID.minimum (min s.spinBoxThreadID.maximum s.mColumnThreadID)
      if w = s.spinBoxThreadID.value then some s
      else
        on_spinBoxThreadID_valueChanged fuel
          { s with spinBoxThreadID := { s.spinBoxThreadID with value := w } } w

/-- `ui->spinBoxThreadID->setValue(v)` with the slot connected to
`valueChanged`. -/
def setValueThreadID (fuel : Nat) (s : TQtSettings) (v : Int) : Option TQtSettings :=
  let w := max s.spinBoxThreadID.minimum (min s.spinBoxThreadID.maximum v)
  if w = s.spinBoxThreadID.value then some s
  else
    on_spinBoxThreadID_valueChanged fuel
      { s with spinBoxThreadID := { s.spinBoxThreadID with value := w } } w

/-- The loop that removes the last header and the last value `k` times.
`none`: `removeLast` on an empty list. -/
def removeLastColumns : Nat → List QString × List VALUES_t → Option (List QString × List VALUES_t)
  | 0, p => some p
  | k + 1, (hs, vs) =>
    if hs = [] ∨ vs = [] then none else removeLastColumns k (hs.dropLast, vs.dropLast)

/-- The loop that appends the header `Col i+1` and the value `Value i+1` for
`k` numbers `i` from `i` on. -/
def appendColumns : Nat → Int → List QString × List VALUES_t → List QString × List VALUES_t
  | 0, _, p => p
  | k + 1, i, (hs, vs) =>
    appendColumns k (i + 1)
      (hs ++ ["Col ".toList ++ intText (i + 1)],
       vs ++ [⟨.VTYPE_STRING, "Value ".toList ++ intText (i + 1)⟩])

/-- `TQtSettings::on_spinBoxColumns_valueChanged(arg1)`. `none`: out of fuel,
or `removeLast` on an empty list. -/
def on_spinBoxColumns_valueChanged (fuel : Nat) (s : TQtSettings) (arg1 : Int) :
    Option TQtSettings :=
  let lists :=
    if arg1 < s.mColumns then
      removeLastColumns (s.mColumns - arg1).toNat (s.mHeaders, s.mValues)
    else some (appendColumns (arg1 - s.mColumns).toNat s.mColumns (s.mHeaders, s.mValues))
  match lists with
  | none => none
  | some (hs, vs) =>
    let s1 : TQtSettings := { s with mHeaders := hs, mValues := vs, mColumns := arg1 }
    if s1.mColumns > s1.mColumnThreadID ∧ s1.mColumnThreadID > 0 then
      setValueThreadID fuel { s1 with mColumnThreadID := s1.mColumns } s1.mColumns
    else some s1

/-! ## Specification-side notions

The definitions below follow the wording of the specification. The theorems
compare them with the embedded code above. -/

/-- Spec-side: the marker table in the fixed priority order info, warning,
error, trace, debug. -/
def markerTable (cfg : TConfig) : List (Severity × QString) :=
  [(.info, cfg.tagInfo), (.warning, cfg.tagWarning), (.error, cfg.tagError),
   (.trace, cfg.tagTrace), (.debug, cfg.tagDebug)]

/-- Spec-side: the first category of the table whose marker is a substring of
`text`, `other` when there is none. -/
def firstContained (cfg : TConfig) (text : QString) : Severity :=
  match (markerTable cfg).find? (fun p => decide (p.2 <:+: text)) with
  | some p => p.1
  | none => .other

/-- The id has an entry in the id table. -/
def TColoring.mapped (t : TColoring) (id : QString) : Prop := ∃ e ∈ t.mIDs, e.ID = id

/-- The id table has used up the palette. -/
def TColoring.full (t : TColoring) : Prop := t.mColors.length ≤ t.mIDs.length

/-- The 512 distinct thread ids ``, `a`, `aa`, ... used as a concrete call
sequence. -/
def manyIds : List QString := (List.range 512).map fun n => List.replicate n 'a'

/-- Spec-side: the cell of record `i` in `column` exists and contains `text`. -/
def cellMatches (table : Table) (column : Int) (text : QString) (i : Nat) : Prop :=
  ∃ t, itemText table i column = some t ∧ text <:+: t

/-- Spec-side: the first occurrence of `needle` in `s` splits it as
`a ++ needle ++ b`. -/
def FirstAt (s needle a b : QString) : Prop :=
  s = a ++ needle ++ b ∧ ∀ a1 b1, s = a1 ++ needle ++ b1 → a.length ≤ a1.length

/-- Spec-side: `qLine` is an entry line and `label` is the text after the
first occurrence of the entry marker and the one character following it. -/
def EntryLabel (cfg : TConfig) (qLine label : QString) : Prop :=
  ∃ pre c, FirstAt qLine cfg.blockEntry pre (c :: label)

/-- Spec-side: the validator can read record `line`: it has a final cell,
the first entry marker (if any) does not end that cell, and the thread cell
exists when a thread column below `columns` is configured. -/
def ReadableRecord (cfg : TConfig) (table : Table) (line : Nat) : Prop :=
  ∃ q, itemText table line ((cfg.columns : Int) - 1) = some q ∧
    (∀ pre, ¬ FirstAt q cfg.blockEntry pre []) ∧
    (0 < cfg.columnThreadID ∧ cfg.columnThreadID < (cfg.columns : Int) →
      ∃ t, itemText table line (cfg.columnThreadID - 1) = some t)

/-- Spec-side: `s` is `p₁ ++ deli ++ p₂ ++ deli ++ ... ++ pₖ ++ deli ++ rest`,
every delimiter being the first occurrence after the previous one: `parts`
are the first `k` delimiter-separated parts and `rest` is the text after the
`k`-th delimiter occurrence. -/
inductive SplitsAs (deli : QString) : QString → List QString → QString → Prop where
  | nil (s : QString) : SplitsAs deli s [] s
  | cons (s p mid : QString) (parts : List QString) (rest : QString) :
      FirstAt s deli p mid → SplitsAs deli mid parts rest →
      SplitsAs deli s (p :: parts) rest

/-- A JSON reader for plain mode, where it is never consulted. -/
def plainReader : JsonReader Unit where
  fromJson := fun _ => ()
  toObject := fun _ _ => ()
  toStringOr := fun _ _ d => d
  toInt := fun _ _ => 0
  toInteger := fun _ _ => 0
  doubleText := fun _ _ => "0".toList
  toBool := fun _ _ => false

/-- A table of seven one-cell records whose only match for `needle` is record 5. -/
def needleTable : Table :=
  [["alpha".toList], ["beta".toList], ["gamma".toList], ["delta".toList], ["epsilon".toList],
   ["the needle here".toList], ["omega".toList]]

/-- Spec-side: `c` has no leading and no trailing whitespace. -/
def NoSurroundingSpace (c : QString) : Prop :=
  (∀ x, c.head? = some x → QString.isSpace x = false) ∧
  (∀ x, c.getLast? = some x → QString.isSpace x = false)


/-- Spec-side: palette entry `i` as the specification gives it. -/
def paletteEntry (i : Nat) : QColor :=
  ⟨255 - 16 * (i / 64), 255 - 16 * ((i / 8) % 8), 255 - 16 * (i % 8)⟩


/-- Spec-side: the ids `seen` so far, followed by the new ids of a call
sequence in the order of their first occurrence. -/
def distinctFrom (seen : List QString) : List QString → List QString
  | [] => seen
  | x :: xs => if x ∈ seen then distinctFrom seen xs else distinctFrom (seen ++ [x]) xs

/-- Spec-side: the distinct ids of a call sequence in first-occurrence order. -/
def firstOccurrences (ids : List QString) : List QString := distinctFrom [] ids

/-- The id table holds the first ids of `seen`, each with the palette entry of
its position. -/
def TableOf (t : TColoring) (seen : List QString) : Prop :=
  t.mIDs.map COLID_t.ID = seen.take t.mColors.length ∧
  t.mIDs.map COLID_t.color = t.mColors.take t.mIDs.length

/-- A schema with two columns and the two string values `a` and `b`. -/
def twoValueSchema : TConfig :=
  { TConfig.initialize with
    columns := 2
    values := [⟨.VTYPE_STRING, "a".toList⟩, ⟨.VTYPE_STRING, "b".toList⟩] }

/-- The default schema with two columns. -/
def twoColumnSchema : TConfig := { TConfig.initialize with columns := 2 }

/-- Spec-side: the entry `e` matches the exit line `qLine`: its destructor
text `::~method` occurs in the line and, when a thread column is configured,
its thread id does too. -/
def DtorMatch (colThread : Int) (qLine : QString) (e : CLASS_STACK_t) : Prop :=
  "::~".toList ++ e.method <:+: qLine ∧ (0 < colThread → e.threadId <:+: qLine)

/-- The static fields after `initialize()` on the empty fields. -/
def defaultStatics : TConfigStatics := TConfigStatics.initialize TConfigStatics.zero

/-- Spec-side: the only characters of the line other than blanks are `#`: it
holds a `#` and nothing but `#` and blanks. -/
def OnlyHashes (l : QString) : Prop := '#' ∈ l ∧ ∀ c ∈ l, c = ' ' ∨ c = '#'

/-- The default schema with one column and no thread column. -/
def blockSchema : TConfig := { TConfig.initialize with columns := 1, columnThreadID := 0 }

/-- The default fields with the log level 3, as after `LogLevel=3` in the
configuration file. -/
def levelThreeStatics : TConfigStatics := { defaultStatics with logLevel := 3 }

/-- A profile of two lines. -/
def sampleProfile : QString := "Delimeter=;\nColumns=3\n".toList

/-- Spec-side: the thread column lies within the column range. -/
def ThreadColumnInRange (s : TQtSettings) : Prop :=
  0 ≤ s.mColumnThreadID ∧ s.mColumnThreadID ≤ s.mColumns

/-- The dialog opened on the default configuration: 8 columns, thread column
8, the default headers and values, a spin box with the range 0..99. -/
def defaultSettings : TQtSettings :=
  { mColumns := 8
    mColumnThreadID := 8
    mHeaders := defaultStatics.headers
    mValues := defaultStatics.values
    spinBoxThreadID := ⟨8, 0, 99⟩ }

/-- Spec-side: a properly nested sequence of final cells for the markers
`{entry:` and `}exit:`. A record without any marker may stand anywhere; a
block is the entry line `{entry: ` followed by a label `L` without `{`, a
properly nested sequence, and the exit line `}exit: ` followed by the same
`L`. -/
inductive WellNested : List QString → Prop where
  | nil : WellNested []
  | plain (l : QString) (rest : List QString) :
      ¬ "\x7bentry:".toList <:+: l → ¬ "\x7dexit:".toList <:+: l → WellNested rest →
      WellNested (l :: rest)
  | block (L : QString) (inner rest : List QString) :
      '\x7b' ∉ L → WellNested inner → WellNested rest →
      WellNested (("\x7bentry: ".toList ++ L) :: (inner ++ ("\x7dexit: ".toList ++ L) :: rest))

/-- A table of one column with two blocks, one inside the other, and a
record without marker. -/
def nestedTable : Table :=
  [["\x7bentry: run".toList], ["\x7bentry: A::f".toList], ["working".toList],
   ["\x7dexit: A::f".toList], ["\x7dexit: run".toList]]

/-! # Theorems -/

/-! ## Strings -/

namespace QString

theorem findFrom_shift (needle : QString) (s : QString) (pos : Nat) :
    findFrom needle s pos = (findFrom needle s 0).map (· + pos) := by
  induction s generalizing pos with
  | nil => simp only [findFrom]; split <;> simp
  | cons c cs ih =>
    simp only [findFrom]
    split
    · simp
    · rw [ih (pos + 1), ih (0 + 1)]
      cases findFrom needle cs 0 <;> simp [Nat.add_comm, Nat.add_left_comm]

theorem findFrom_isSome_iff (needle s : QString) (pos : Nat) :
    (findFrom needle s pos).isSome = true ↔ needle <:+: s := by
  induction s generalizing pos with
  | nil =>
    simp only [findFrom]
    cases needle <;> simp
  | cons c cs ih =>
    simp only [findFrom]
    split
    · rename_i h
      simp only [Option.isSome_some, true_iff]
      exact (List.isPrefixOf_iff_prefix.mp h).isInfix
    · rename_i h
      rw [ih]
      have h' : ¬ needle <+: c :: cs := fun hp => h (List.isPrefixOf_iff_prefix.mpr hp)
      rw [List.infix_cons_iff]
      constructor
      · exact Or.inr
      · rintro (hp | hi)
        · exact absurd hp h'
        · exact hi

theorem contains_iff (s needle : QString) :
    contains s needle = true ↔ needle <:+: s := by
  simp [contains, indexOf, findFrom_isSome_iff]

/-- What a successful scan says. -/
theorem findFrom_some (needle s : QString) (pos p : Nat) (h : findFrom needle s pos = some p) :
    pos ≤ p ∧ p - pos ≤ s.length ∧ needle <+: s.drop (p - pos) ∧
      ∀ k, k < p - pos → ¬ needle <+: s.drop k := by
  induction s generalizing pos with
  | nil =>
    simp only [findFrom] at h
    split at h
    · rename_i he
      simp only [Option.some.injEq] at h
      subst h
      have : needle = [] := by simpa using he
      simp [this]
    · simp at h
  | cons c cs ih =>
    simp only [findFrom] at h
    split at h
    · rename_i hp
      simp only [Option.some.injEq] at h
      subst h
      simp [List.isPrefixOf_iff_prefix.mp hp]
    · rename_i hp
      obtain ⟨h1, h2, h3, h4⟩ := ih (pos + 1) h
      have hk : p - pos = (p - (pos + 1)) + 1 := by omega
      refine ⟨by omega, ?_, ?_, ?_⟩
      · simp only [List.length_cons]; omega
      · rw [hk, List.drop_succ_cons]; exact h3
      · intro k hk'
        cases k with
        | zero =>
          simp only [List.drop_zero]
          exact fun hpre => hp (List.isPrefixOf_iff_prefix.mpr hpre)
        | succ k =>
          rw [List.drop_succ_cons]
          exact h4 k (by omega)

theorem indexOf_zero (s needle : QString) : indexOf s needle 0 = findFrom needle s 0 := by
  simp [indexOf]

theorem indexOf_some (s needle : QString) (p : Nat) (h : indexOf s needle 0 = some p) :
    p + needle.length ≤ s.length ∧ needle <+: s.drop p ∧
      ∀ k, k < p → ¬ needle <+: s.drop k := by
  rw [indexOf_zero] at h
  obtain ⟨_, h2, h3, h4⟩ := findFrom_some needle s 0 p h
  simp only [Nat.sub_zero] at h2 h3 h4
  refine ⟨?_, h3, h4⟩
  have := h3.length_le
  rw [List.length_drop] at this
  omega

theorem indexOf_of_occurs (s needle : QString) (h : needle <:+: s) :
    ∃ p, indexOf s needle 0 = some p := by
  have := (contains_iff s needle).mpr h
  unfold contains at this
  exact Option.isSome_iff_exists.mp this

/-- The position of the first occurrence, from a decomposition. -/
theorem indexOf_eq_of_first (s needle a b : QString) (h : s = a ++ needle ++ b)
    (hfirst : ∀ a1 b1, s = a1 ++ needle ++ b1 → a.length ≤ a1.length) :
    indexOf s needle 0 = some a.length := by
  obtain ⟨p, hp⟩ := indexOf_of_occurs s needle ⟨a, b, h.symm⟩
  obtain ⟨h1, h2, h3⟩ := indexOf_some s needle p hp
  rw [hp]
  congr 1
  apply Nat.le_antisymm
  · by_contra hlt
    have hlt : a.length < p := Nat.lt_of_not_le hlt
    apply h3 a.length hlt
    rw [h, List.append_assoc, List.drop_left]
    exact List.prefix_append _ _
  · obtain ⟨t, ht⟩ := h2
    have hs : s = s.take p ++ needle ++ t := by
      rw [List.append_assoc, ht, List.take_append_drop]
    have := hfirst _ _ hs
    rw [List.length_take] at this
    omega

theorem last_eq_drop (s : QString) (k : Nat) (h : k ≤ s.length) :
    last s ((s.length : Int) - k) = some (s.drop k) := by
  unfold last
  have h1 : (0 : Int) ≤ (s.length : Int) - k ∧ (s.length : Int) - k ≤ s.length := by omega
  rw [if_pos h1]
  congr 2
  omega

end QString

theorem contains_eq_false {s needle : QString} (h : ¬ needle <:+: s) :
    QString.contains s needle = false := by
  rw [← Bool.not_eq_true]
  exact fun hc => h ((QString.contains_iff _ _).mp hc)

theorem contains_eq_true {s needle : QString} (h : needle <:+: s) :
    QString.contains s needle = true := (QString.contains_iff _ _).mpr h

theorem firstAt_of_indexOf (s needle : QString) (p : Nat)
    (h : QString.indexOf s needle 0 = some p) :
    FirstAt s needle (s.take p) (s.drop (p + needle.length)) := by
  obtain ⟨h1, ⟨t, ht⟩, h3⟩ := QString.indexOf_some s needle p h
  have hd : s.drop (p + needle.length) = t := by
    rw [← List.drop_drop, ← ht, List.drop_left]
  have hs : s = s.take p ++ needle ++ t := by
    rw [List.append_assoc, ht, List.take_append_drop]
  rw [hd]
  refine ⟨hs, fun a1 b1 h1' => ?_⟩
  rw [List.length_take]
  by_contra hlt
  have hlt' : a1.length < p := by omega
  apply h3 a1.length hlt'
  rw [h1', List.append_assoc, List.drop_left]
  exact List.prefix_append _ _

theorem last_of_firstAt (s needle a b : QString) (k : Nat) (hk : k ≤ b.length)
    (h : s = a ++ needle ++ b) :
    QString.last s ((s.length : Int) - a.length - needle.length - k) = some (b.drop k) := by
  have hlen : s.length = a.length + needle.length + b.length := by
    rw [h]; simp only [List.length_append]
  have := QString.last_eq_drop s (a.length + needle.length + k) (by omega)
  have hcast : (s.length : Int) - a.length - needle.length - k
      = (s.length : Int) - ((a.length + needle.length + k : Nat) : Int) := by
    push_cast; ring
  rw [hcast, this]
  congr 1
  rw [h, List.append_assoc, ← List.drop_drop, ← List.drop_drop, List.drop_left, List.drop_left]

/-! ## Splitting and decoding a line -/

theorem indexOf_drop (s needle : QString) (pos : Nat) (h : pos ≤ s.length) :
    QString.indexOf s needle pos = (QString.indexOf (s.drop pos) needle 0).map (· + pos) := by
  unfold QString.indexOf
  rw [if_neg (by omega), if_neg (by omega), List.drop_zero, QString.findFrom_shift]

theorem indexOf_none_of_absent (s needle : QString) (pos : Nat)
    (h : ¬ needle <:+: s.drop pos) : QString.indexOf s needle pos = none := by
  unfold QString.indexOf
  split
  · rfl
  · rw [← Option.not_isSome_iff_eq_none, QString.findFrom_isSome_iff]
    exact h

theorem splitsAs_length (deli s : QString) (parts : List QString) (rest : QString)
    (h : SplitsAs deli s parts rest) : rest.length ≤ s.length := by
  induction h with
  | nil s => exact le_refl _
  | cons s p mid parts rest hfa _ ih =>
    have := congrArg List.length hfa.1
    simp only [List.length_append] at this
    omega

/-- When a part was split off, the rest is shorter by at least the delimiter. -/
theorem splitsAs_length_lt (deli s : QString) (parts : List QString) (rest : QString)
    (hp : parts ≠ []) (h : SplitsAs deli s parts rest) :
    rest.length + deli.length ≤ s.length := by
  cases h with
  | nil s => exact absurd rfl hp
  | cons s p mid parts rest hfa hrest =>
    have := congrArg List.length hfa.1
    simp only [List.length_append] at this
    have := splitsAs_length deli mid parts rest hrest
    omega

/-- One iteration of the loop that splits off a part. -/
theorem splitLoop_step (str deli : QString) (cols : Int) (fuel pos1 column : Nat)
    (acc : List QString) (p mid : QString) (hpos : pos1 ≤ str.length)
    (hfa : FirstAt (str.drop pos1) deli p mid) (hd : deli ≠ [])
    (hcol : ¬ (0 < cols ∧ cols ≤ (column : Int))) :
    splitLoop str deli cols (fuel + 1) pos1 column acc =
      splitLoop str deli cols fuel (pos1 + p.length + deli.length) (column + 1) (acc ++ [p]) ∧
    str.drop (pos1 + p.length + deli.length) = mid ∧
    pos1 + p.length + deli.length ≤ str.length := by
  have hlen := congrArg List.length hfa.1
  simp only [List.length_append, List.length_drop] at hlen
  have hdl : 0 < deli.length := List.length_pos.mpr hd
  have hlt : pos1 < str.length := by omega
  have hidx : QString.indexOf str deli pos1 = some (p.length + pos1) := by
    rw [indexOf_drop str deli pos1 hpos,
      QString.indexOf_eq_of_first (str.drop pos1) deli p mid hfa.1 hfa.2]
    rfl
  have hmid : QString.mid str pos1 (p.length + pos1 - pos1) = p := by
    unfold QString.mid
    rw [hfa.1, Nat.add_sub_cancel, List.append_assoc, List.take_left]
  have hdrop : str.drop (pos1 + p.length + deli.length) = mid := by
    rw [Nat.add_assoc, ← List.drop_drop, hfa.1, ← List.drop_drop, List.append_assoc,
      List.drop_left, List.drop_left]
  refine ⟨?_, hdrop, by omega⟩
  rw [splitLoop]
  simp only [hlt, if_true, hidx, hcol, if_false, hmid]
  congr 1
  omega

/-- The loop splits off parts as long as the column limit allows. -/
theorem splitLoop_run (str deli : QString) (cols : Int) (hd : deli ≠ [])
    (s : QString) (ps : List QString) (rest : QString) (h : SplitsAs deli s ps rest) :
    ∀ (fuel pos1 column : Nat) (acc : List QString), pos1 ≤ str.length →
      str.drop pos1 = s →
      (cols ≤ 0 ∨ ((column + ps.length : Nat) : Int) ≤ cols) →
      splitLoop str deli cols (fuel + ps.length) pos1 column acc =
        splitLoop str deli cols fuel (str.length - rest.length) (column + ps.length)
          (acc ++ ps) ∧
      str.drop (str.length - rest.length) = rest := by
  induction h with
  | nil s =>
    intro fuel pos1 column acc hpos hs _
    have hl : s.length = str.length - pos1 := by rw [← hs, List.length_drop]
    have : str.length - s.length = pos1 := by omega
    simp only [List.length_nil, Nat.add_zero, List.append_nil, this]
    exact ⟨trivial, hs⟩
  | cons s p mid parts rest hfa _ ih =>
    intro fuel pos1 column acc hpos hs hcol
    subst hs
    have hc1 : ¬ (0 < cols ∧ cols ≤ (column : Int)) := by
      simp only [List.length_cons] at hcol
      push_cast at hcol
      omega
    obtain ⟨hstep, hdrop, hle⟩ := splitLoop_step str deli cols (fuel + parts.length) pos1 column
      acc p mid hpos hfa hd hc1
    have hcol' : cols ≤ 0 ∨ ((column + 1 + parts.length : Nat) : Int) ≤ cols := by
      simp only [List.length_cons] at hcol
      push_cast at hcol ⊢
      omega
    obtain ⟨hrun, hrest⟩ := ih fuel (pos1 + p.length + deli.length) (column + 1) (acc ++ [p])
      hle hdrop hcol'
    refine ⟨?_, hrest⟩
    have e1 : fuel + (p :: parts).length = fuel + parts.length + 1 := by
      simp only [List.length_cons]; omega
    have e2 : column + (p :: parts).length = column + 1 + parts.length := by
      simp only [List.length_cons]; omega
    rw [e1, hstep, hrun, e2, List.append_assoc, List.singleton_append]

theorem indexOf_ge (s needle : QString) (start p : Nat)
    (h : QString.indexOf s needle start = some p) : start ≤ p := by
  unfold QString.indexOf at h
  split at h
  · simp at h
  · exact (QString.findFrom_some needle _ start p h).1

/-- The loop ends within `cols - column + 1` iterations when `cols` is positive. -/
theorem splitLoop_terminates_cols (str deli : QString) (cols : Int) (hc : 0 < cols)
    (fuel : Nat) : ∀ (pos1 column : Nat) (acc : List QString),
      cols.toNat - column < fuel → (splitLoop str deli cols fuel pos1 column acc).isSome := by
  induction fuel with
  | zero => intro _ _ _ h; omega
  | succ n ih =>
    intro pos1 column acc h
    rw [splitLoop]
    split
    · split
      · rfl
      · split
        · rfl
        · rename_i hnb
          apply ih
          have : (column : Int) < cols := by
            by_contra hge
            exact hnb ⟨hc, by omega⟩
          omega
    · rfl

/-- The loop ends within `length - pos1 + 1` iterations when the delimiter is
not empty. -/
theorem splitLoop_terminates_deli (str deli : QString) (cols : Int) (hd : deli ≠ [])
    (fuel : Nat) : ∀ (pos1 column : Nat) (acc : List QString),
      str.length - pos1 < fuel → (splitLoop str deli cols fuel pos1 column acc).isSome := by
  have hdl : 0 < deli.length := List.length_pos.mpr hd
  induction fuel with
  | zero => intro _ _ _ h; omega
  | succ n ih =>
    intro pos1 column acc h
    rw [splitLoop]
    split
    · split
      · rfl
      · rename_i pos2 hidx
        split
        · rfl
        · apply ih
          have := indexOf_ge str deli pos1 pos2 hidx
          omega
    · rfl

/-- With an empty delimiter and no column limit the loop never ends on a
non-empty string. -/
theorem splitLoop_diverges (str : QString) (cols : Int) (hs : str ≠ []) (hc : cols ≤ 0)
    (fuel : Nat) : ∀ (column : Nat) (acc : List QString),
      splitLoop str [] cols fuel 0 column acc = none := by
  have hlen : 0 < str.length := List.length_pos.mpr hs
  have hidx : QString.indexOf str [] 0 = some 0 := by
    cases str with
    | nil => exact absurd rfl hs
    | cons c cs => rfl
  induction fuel with
  | zero => intro _ _; rfl
  | succ n ih =>
    intro column acc
    rw [splitLoop]
    have hnb : ¬ (0 < cols ∧ cols ≤ (column : Int)) := by omega
    simp only [hlen, if_true, hidx, hnb, if_false, List.length_nil, Nat.add_zero]
    exact ih _ _

theorem split_isSome (str deli : QString) (cols : Int) (fuel : Nat)
    (h : deli ≠ [] ∧ str.length < fuel ∨ 0 < cols ∧ cols.toNat < fuel) :
    (split fuel str deli cols).isSome := by
  have hloop : (splitLoop str deli cols fuel 0 0 []).isSome := by
    rcases h with ⟨hd, hf⟩ | ⟨hc, hf⟩
    · exact splitLoop_terminates_deli str deli cols hd fuel 0 0 [] (by omega)
    · exact splitLoop_terminates_cols str deli cols hc fuel 0 0 [] (by omega)
  unfold split
  cases hl : splitLoop str deli cols fuel 0 0 [] with
  | none => rw [hl] at hloop; simp at hloop
  | some r =>
    obtain ⟨pos1, parts⟩ := r
    simp only
    split <;> rfl

/-- More fuel does not change a result of the loop. -/
theorem splitLoop_fuel_mono (str deli : QString) (cols : Int) (fuel : Nat) :
    ∀ (pos1 column : Nat) (acc : List QString) (r : Nat × List QString),
      splitLoop str deli cols fuel pos1 column acc = some r →
      splitLoop str deli cols (fuel + 1) pos1 column acc = some r := by
  induction fuel with
  | zero => intro _ _ _ _ h; simp [splitLoop] at h
  | succ n ih =>
    intro pos1 column acc r h
    rw [splitLoop] at h ⊢
    split
    · rename_i hlt
      rw [if_pos hlt] at h
      split
      · rename_i hidx
        rw [hidx] at h
        exact h
      · rename_i pos2 hidx
        rw [hidx] at h
        simp only at h
        split
        · rename_i hb
          rw [if_pos hb] at h
          exact h
        · rename_i hb
          rw [if_neg hb] at h
          exact ih _ _ _ _ h
    · rename_i hlt
      rw [if_neg hlt] at h
      exact h

/-- The result of `split` does not depend on the fuel, once there is enough. -/
theorem split_fuel_mono (str deli : QString) (cols : Int) (fuel more : Nat)
    (parts : List QString) (h : split fuel str deli cols = some parts) :
    split (fuel + more) str deli cols = some parts := by
  induction more with
  | zero => exact h
  | succ k ih =>
    unfold split at ih ⊢
    cases hl : splitLoop str deli cols (fuel + k) 0 0 [] with
    | none => rw [hl] at ih; simp at ih
    | some r =>
      rw [hl] at ih
      rw [← Nat.add_assoc, splitLoop_fuel_mono str deli cols (fuel + k) 0 0 [] r hl]
      exact ih

/-- The result of `decode` does not depend on the fuel, once there is enough. -/
theorem decode_fuel_mono {Obj : Type} (api : JsonReader Obj) (cfg : TConfig) (jsonMode : Bool)
    (line : QString) (fuel more : Nat) (cells : List QString)
    (h : decode fuel api cfg jsonMode line = some cells) :
    decode (fuel + more) api cfg jsonMode line = some cells := by
  unfold decode lineParts at h ⊢
  split
  · rename_i hc
    rw [if_pos hc] at h
    exact h
  · rename_i hc
    rw [if_neg hc] at h
    split
    · rename_i hd
      rw [if_pos hd] at h
      cases hs : split fuel (effectiveLine api cfg jsonMode line) cfg.delimeter
          ((cfg.columns : Int) - 1) with
      | none => rw [hs] at h; simp at h
      | some parts =>
        rw [hs] at h
        rw [split_fuel_mono _ _ _ fuel more parts hs]
        exact h
    · rename_i hd
      rw [if_neg hd] at h
      exact h

theorem rowCells_length (cfg : TConfig) (parts : List QString) :
    (rowCells cfg parts).length = cfg.columns := by
  simp [rowCells]

theorem decode_length {Obj : Type} (fuel : Nat) (api : JsonReader Obj) (cfg : TConfig)
    (jsonMode : Bool) (line : QString) (cells : List QString)
    (h : decode fuel api cfg jsonMode line = some cells) : cells.length = cfg.columns := by
  unfold decode at h
  cases hp : lineParts fuel cfg jsonMode (QString.startsWith line "\x7b".toList)
      (effectiveLine api cfg jsonMode line) with
  | none => rw [hp] at h; simp at h
  | some parts =>
    rw [hp] at h
    simp only [Option.map_some', Option.some.injEq] at h
    rw [← h, rowCells_length]

theorem decode_isSome {Obj : Type} (api : JsonReader Obj) (cfg : TConfig)
    (jsonMode : Bool) (line : QString) (fuel : Nat)
    (hfuel : (effectiveLine api cfg jsonMode line).length + cfg.columns < fuel)
    (h : cfg.delimeter ≠ [] ∨ 2 ≤ cfg.columns) :
    (decode fuel api cfg jsonMode line).isSome := by
  unfold decode lineParts
  rw [Option.isSome_map']
  split
  · rfl
  · split
    · apply split_isSome
      rcases h with hd | hc
      · exact Or.inl ⟨hd, by omega⟩
      · exact Or.inr ⟨by omega, by omega⟩
    · rfl

/-- The remainder `split` appends: the rest of the string without its first
`deli.length` characters, or the whole string when the rest is shorter than
the delimiter. -/
theorem right_remainder (str deli rest : QString) (hrest : str.drop (str.length - rest.length) = rest)
    (hlen : rest.length + deli.length ≤ str.length) (hd : deli ≠ []) :
    QString.right str ((str.length : Int) - ((str.length - rest.length : Nat) : Int) - deli.length)
      = if rest.length < deli.length then str else rest.drop deli.length := by
  have hdl : 0 < deli.length := List.length_pos.mpr hd
  have hcast : (str.length : Int) - ((str.length - rest.length : Nat) : Int) - deli.length
      = (rest.length : Int) - deli.length := by
    rw [Nat.cast_sub (by omega)]; ring
  rw [hcast]
  unfold QString.right
  by_cases hlt : rest.length < deli.length
  · rw [if_pos (Or.inl (by omega)), if_pos hlt]
  · rw [if_neg (by omega), if_neg hlt]
    have hn : ((rest.length : Int) - deli.length).toNat = rest.length - deli.length := by omega
    rw [hn]
    have : str.length - (rest.length - deli.length) = (str.length - rest.length) + deli.length := by
      omega
    rw [this, ← List.drop_drop, hrest]

/-- The result of `split` when the line has fewer delimiters than `cols`. -/
theorem split_few (str deli : QString) (cols : Int) (hd : deli ≠ [])
    (ps : List QString) (rest : QString) (h : SplitsAs deli str ps rest)
    (hps : ps ≠ []) (hno : ¬ deli <:+: rest)
    (hcol : cols ≤ 0 ∨ (ps.length : Int) ≤ cols) (fuel : Nat) (hfuel : ps.length < fuel) :
    split fuel str deli cols = some (ps ++
      if rest = [] then []
      else [if rest.length < deli.length then str else rest.drop deli.length]) := by
  obtain ⟨f, rfl⟩ : ∃ f, fuel = f + 1 + ps.length := ⟨fuel - 1 - ps.length, by omega⟩
  have hlt := splitsAs_length_lt deli str ps rest hps h
  have hdl : 0 < deli.length := List.length_pos.mpr hd
  obtain ⟨hrun, hrest⟩ := splitLoop_run str deli cols hd str ps rest h (f + 1) 0 0 []
    (Nat.zero_le _) rfl (by simpa using hcol)
  have hend : splitLoop str deli cols (f + 1) (str.length - rest.length) (0 + ps.length)
      ([] ++ ps) = some (str.length - rest.length, ps) := by
    rw [splitLoop]
    split
    · rw [indexOf_none_of_absent str deli _ (by rw [hrest]; exact hno)]
      rfl
    · rfl
  unfold split
  rw [hrun, hend]
  simp only
  have hr := right_remainder str deli rest hrest hlt hd
  by_cases hnil : rest = []
  · have : ¬ (str.length - rest.length ≠ 0 ∧ str.length - rest.length < str.length) := by
      rw [hnil]; simp
    rw [if_neg this, if_pos hnil, List.append_nil]
  · have hpos : 0 < rest.length := List.length_pos.mpr hnil
    have : str.length - rest.length ≠ 0 ∧ str.length - rest.length < str.length := by
      omega
    rw [if_pos this, if_neg hnil, hr]

/-- The result of `split` when the line has at least `cols` delimiters: the
first `cols` parts, then the remainder. -/
theorem split_limit (str deli : QString) (cols : Int) (hd : deli ≠ [])
    (ps : List QString) (rest : QString) (h : SplitsAs deli str ps rest)
    (hps : ps ≠ []) (hcol : (ps.length : Int) = cols) (fuel : Nat) (hfuel : ps.length < fuel) :
    ∃ more, split fuel str deli cols = some (ps ++
      if rest = [] then []
      else (if rest.length < deli.length then str else rest.drop deli.length) :: more) := by
  obtain ⟨f, rfl⟩ : ∃ f, fuel = f + 1 + ps.length := ⟨fuel - 1 - ps.length, by omega⟩
  have hlt := splitsAs_length_lt deli str ps rest hps h
  have hdl : 0 < deli.length := List.length_pos.mpr hd
  have hpl : 0 < ps.length := List.length_pos.mpr hps
  obtain ⟨hrun, hrest⟩ := splitLoop_run str deli cols hd str ps rest h (f + 1) 0 0 []
    (Nat.zero_le _) rfl (Or.inr (by simp [hcol]))
  have hr := right_remainder str deli rest hrest hlt hd
  unfold split
  rw [hrun]
  by_cases hnil : rest = []
  · have hge : ¬ (str.length - rest.length < str.length) := by rw [hnil]; simp
    refine ⟨[], ?_⟩
    rw [splitLoop, if_neg hge]
    simp only
    rw [if_neg (fun hh => hge hh.2), if_pos hnil]
    simp
  · have hpos : 0 < rest.length := List.length_pos.mpr hnil
    have hin : str.length - rest.length < str.length := by omega
    have hboth : str.length - rest.length ≠ 0 ∧ str.length - rest.length < str.length := by
      omega
    rw [splitLoop, if_pos hin]
    cases hidx : QString.indexOf str deli (str.length - rest.length) with
    | none =>
      refine ⟨[], ?_⟩
      simp only
      rw [if_pos hboth, hr, if_neg hnil]
      simp
    | some pos2 =>
      have hbreak : 0 < cols ∧ cols ≤ ((0 + ps.length : Nat) : Int) := by
        rw [← hcol]; push_cast; omega
      simp only
      rw [if_pos hbreak]
      simp only
      rw [if_pos hboth, hr]
      exact ⟨[if rest.length < deli.length then str else rest.drop deli.length],
        by simp [hnil]⟩

theorem splitsAs_occurs (deli s : QString) (ps : List QString) (rest : QString)
    (h : SplitsAs deli s ps rest) (hps : ps ≠ []) : deli <:+: s := by
  cases h with
  | nil s => exact absurd rfl hps
  | cons s p mid parts rest hfa _ => exact ⟨p, mid, hfa.1.symm⟩

/-- Decoding in plain mode a line that contains the delimiter. -/
theorem decode_plain {Obj : Type} (fuel : Nat) (api : JsonReader Obj) (cfg : TConfig)
    (line : QString) (h : cfg.delimeter <:+: line) :
    decode fuel api cfg false line =
      (split fuel line cfg.delimeter ((cfg.columns : Int) - 1)).map (rowCells cfg) := by
  unfold decode lineParts effectiveLine
  simp [contains_eq_true h]

theorem rowCells_getElem? (cfg : TConfig) (parts : List QString) (i : Nat)
    (h : i < cfg.columns) : (rowCells cfg parts)[i]? = some (cellText cfg parts i) := by
  unfold rowCells
  rw [List.getElem?_map, List.getElem?_range h]
  rfl

/-- The final cell when `split` produced a part for it. -/
theorem cellText_final_present (cfg : TConfig) (ps : List QString) (x : QString)
    (more : List QString) (hk : ps.length + 1 = cfg.columns) :
    cellText cfg (ps ++ x :: more) (cfg.columns - 1) = x := by
  have hi : cfg.columns - 1 = ps.length := by omega
  unfold cellText
  rw [hi]
  have h1 : ¬ (ps.length < (ps ++ x :: more).length ∧
      (ps.length : Int) < (cfg.columns : Int) - 1) := by
    rw [← hk]; push_cast; omega
  have h2 : ps.length < (ps ++ x :: more).length ∧
      (ps.length : Int) = (cfg.columns : Int) - 1 := by
    rw [← hk]; simp
  rw [if_neg h1, if_pos h2, List.getD_eq_getElem?_getD,
    List.getElem?_append_right (le_refl _)]
  simp

/-- The final cell when `split` produced no part for it: the last part. -/
theorem cellText_final_missing (cfg : TConfig) (ps : List QString)
    (hlt : ps.length < cfg.columns) (hps : ps ≠ []) :
    cellText cfg ps (cfg.columns - 1) = (ps.getLast?).getD [] := by
  unfold cellText
  have h1 : ¬ (cfg.columns - 1 < ps.length ∧
      ((cfg.columns - 1 : Nat) : Int) < (cfg.columns : Int) - 1) := by omega
  have h2 : ¬ (cfg.columns - 1 < ps.length ∧
      ((cfg.columns - 1 : Nat) : Int) = (cfg.columns : Int) - 1) := by omega
  have h3 : ¬ (cfg.columns - 1 < ps.length) := by omega
  have h4 : ¬ ps.isEmpty = true ∧ ((cfg.columns - 1 : Nat) : Int) = (cfg.columns : Int) - 1 := by
    refine ⟨by simpa using hps, by omega⟩
  rw [if_neg h1, if_neg h2, if_neg h3, if_pos h4]

/-- C2 (the code departs from the claim). In plain mode, for `N ≥ 2` columns, a
non-empty delimiter and a line whose first `N-1` delimiter occurrences are
followed by `rest`, decoding returns a record whose final cell is not `rest`
when `rest` is not empty: it is `rest` without its first `deli.length`
characters (the whole line when `rest` is shorter than the delimiter), and the
`(N-1)`-th part when `rest` is empty. At `N = 2`, delimiter `,`, line `a,bc`
the record is `a | c`, where the claim has `bc` in the final cell. -/
theorem decode_final_cell_drops_prefix :
    (∀ (Obj : Type) (api : JsonReader Obj) (cfg : TConfig) (line : QString)
      (ps : List QString) (rest : QString),
      2 ≤ cfg.columns → cfg.delimeter ≠ [] → SplitsAs cfg.delimeter line ps rest →
      ps.length + 1 = cfg.columns →
      ∃ fuel cells, decode fuel api cfg false line = some cells ∧
        cells[cfg.columns - 1]? = some
          (if rest = [] then (ps.getLast?).getD []
           else if rest.length < cfg.delimeter.length then line
           else rest.drop cfg.delimeter.length) ∧
        (rest ≠ [] → cells[cfg.columns - 1]? ≠ some rest)) ∧
    decode 8 plainReader { TConfig.initialize with columns := 2 } false "a,bc".toList
      = some ["a".toList, "c".toList] := by
  refine ⟨?_, by decide⟩
  intro Obj api cfg line ps rest hN hd h hk
  have hps : ps ≠ [] := by
    intro hnil; rw [hnil] at hk; simp at hk; omega
  have hin := splitsAs_occurs cfg.delimeter line ps rest h hps
  obtain ⟨more, hsplit⟩ := split_limit line cfg.delimeter ((cfg.columns : Int) - 1) hd ps rest h
    hps (by rw [← hk]; push_cast; ring) (ps.length + 1) (Nat.lt_succ_self _)
  have hlt := splitsAs_length_lt cfg.delimeter line ps rest hps h
  have hdl : 0 < cfg.delimeter.length := List.length_pos.mpr hd
  refine ⟨ps.length + 1, rowCells cfg (ps ++ if rest = [] then [] else
    (if rest.length < cfg.delimeter.length then line
      else rest.drop cfg.delimeter.length) :: more), ?_, ?_, ?_⟩
  · rw [decode_plain _ _ _ _ hin, hsplit]
    rfl
  · rw [rowCells_getElem? _ _ _ (by omega)]
    congr 1
    by_cases hnil : rest = []
    · simp only [hnil, if_true, List.append_nil]
      exact cellText_final_missing cfg ps (by omega) hps
    · simp only [hnil, if_false]
      exact cellText_final_present cfg ps _ more hk
  · intro hnil
    rw [rowCells_getElem? _ _ _ (by omega)]
    simp only [hnil, if_false]
    rw [cellText_final_present cfg ps _ more hk]
    intro heq
    simp only [Option.some.injEq] at heq
    have hl := congrArg List.length heq
    split at hl
    · omega
    · rw [List.length_drop] at hl
      have : 0 < rest.length := List.length_pos.mpr hnil
      omega

theorem firstAt_comma_a_bc : FirstAt "a,bc".toList ",".toList "a".toList "bc".toList :=
  firstAt_of_indexOf "a,bc".toList ",".toList 1 (by decide)

/-- The general part of `decode_final_cell_drops_prefix` at `N = 2`, delimiter
`,` and the line `a,bc`. -/
theorem decode_final_cell_drops_prefix_witness :
    ∃ fuel cells, decode fuel plainReader { TConfig.initialize with columns := 2 } false
        "a,bc".toList = some cells ∧
      cells[1]? = some "c".toList ∧ cells[1]? ≠ some "bc".toList := by
  obtain ⟨fuel, cells, h1, h2, h3⟩ := decode_final_cell_drops_prefix.1 Unit plainReader
    { TConfig.initialize with columns := 2 } "a,bc".toList ["a".toList] "bc".toList
    (by decide) (by decide) (SplitsAs.cons _ _ _ _ _ firstAt_comma_a_bc (SplitsAs.nil _)) rfl
  exact ⟨fuel, cells, h1, h2, h3 (by decide)⟩

theorem trimmed_nil : QString.trimmed [] = [] := rfl

/-- A cell before the final column shows the trimmed part, if there is one. -/
theorem cellText_inner (cfg : TConfig) (parts : List QString) (i : Nat)
    (hi : i + 1 < cfg.columns) :
    cellText cfg parts i = QString.trimmed (parts.getD i []) := by
  unfold cellText
  by_cases hlt : i < parts.length
  · have h1 : i < parts.length ∧ (i : Int) < (cfg.columns : Int) - 1 := ⟨hlt, by omega⟩
    rw [if_pos h1]
  · have h1 : ¬ (i < parts.length ∧ (i : Int) < (cfg.columns : Int) - 1) := fun h => hlt h.1
    have h2 : ¬ (i < parts.length ∧ (i : Int) = (cfg.columns : Int) - 1) := fun h => hlt h.1
    have h4 : ¬ (¬ parts.isEmpty = true ∧ (i : Int) = (cfg.columns : Int) - 1) := by omega
    rw [if_neg h1, if_neg h2, if_neg hlt, if_neg h4]
    have : parts.getD i [] = [] := by
      rw [List.getD_eq_getElem?_getD, List.getElem?_eq_none (by omega)]
      rfl
    rw [this, trimmed_nil]

/-- C3 as amended. In plain mode, for a non-empty delimiter and a line with `k`
delimiter occurrences, `1 ≤ k < N-1` (`ps` are the `k` parts before them and
`rest`, which holds no delimiter, follows the last): decoding returns a record
of `N` cells; cells `0..k-1` hold the first `k` parts, trimmed; cell `k` holds
the trimmed `(k+1)`-th part that `split` produced, if any; every cell strictly
between `k` and the final cell is empty; and the final cell repeats the last
part that `split` produced. -/
theorem decode_few_delimiters {Obj : Type} (api : JsonReader Obj) (cfg : TConfig)
    (line : QString) (ps : List QString) (rest : QString)
    (hd : cfg.delimeter ≠ []) (h : SplitsAs cfg.delimeter line ps rest)
    (hno : ¬ cfg.delimeter <:+: rest)
    (hk1 : 1 ≤ ps.length) (hk2 : ps.length + 1 < cfg.columns) :
    ∃ fuel parts cells,
      split fuel line cfg.delimeter ((cfg.columns : Int) - 1) = some parts ∧
      decode fuel api cfg false line = some cells ∧
      cells.length = cfg.columns ∧
      parts ≠ [] ∧ parts.take ps.length = ps ∧ parts.length ≤ ps.length + 1 ∧
      (∀ i, i < ps.length → cells[i]? = some (QString.trimmed (ps.getD i []))) ∧
      cells[ps.length]? = some (QString.trimmed (parts.getD ps.length [])) ∧
      (∀ i, ps.length < i → i + 1 < cfg.columns → cells[i]? = some []) ∧
      cells[cfg.columns - 1]? = some ((parts.getLast?).getD []) := by
  have hps : ps ≠ [] := List.ne_nil_of_length_pos hk1
  have hin := splitsAs_occurs cfg.delimeter line ps rest h hps
  have hsplit := split_few line cfg.delimeter ((cfg.columns : Int) - 1) hd ps rest h hps hno
    (Or.inr (by omega)) (ps.length + 1) (Nat.lt_succ_self _)
  generalize hparts : (ps ++ if rest = [] then []
      else [if rest.length < cfg.delimeter.length then line
        else rest.drop cfg.delimeter.length]) = parts at hsplit
  have hlen : parts.length ≤ ps.length + 1 ∧ ps.length ≤ parts.length := by
    rw [← hparts]
    split <;> simp
  have htake : parts.take ps.length = ps := by
    rw [← hparts, List.take_left]
  have hne : parts ≠ [] := by
    intro hnil
    have h2 := hlen.2
    rw [hnil, List.length_nil] at h2
    omega
  refine ⟨ps.length + 1, parts, rowCells cfg parts, hsplit, ?_, rowCells_length _ _, hne, htake,
    hlen.1, ?_, ?_, ?_, ?_⟩
  · rw [decode_plain _ _ _ _ hin, hsplit]
    rfl
  · intro i hi
    rw [rowCells_getElem? _ _ _ (by omega), cellText_inner _ _ _ (by omega)]
    congr 2
    rw [← hparts, List.getD_eq_getElem?_getD, List.getD_eq_getElem?_getD,
      List.getElem?_append_left hi]
  · rw [rowCells_getElem? _ _ _ (by omega), cellText_inner _ _ _ (by omega)]
  · intro i hi1 hi2
    rw [rowCells_getElem? _ _ _ (by omega), cellText_inner _ _ _ hi2]
    have : parts.getD i [] = [] := by
      rw [List.getD_eq_getElem?_getD, List.getElem?_eq_none (by omega)]
      rfl
    rw [this, trimmed_nil]
  · rw [rowCells_getElem? _ _ _ (by omega)]
    congr 1
    exact cellText_final_missing cfg parts (by omega) hne

theorem firstAt_comma_a_b : FirstAt "a, b".toList ",".toList "a".toList " b".toList :=
  firstAt_of_indexOf "a, b".toList ",".toList 1 (by decide)

/-- The theorem `decode_few_delimiters` at `N = 3`, delimiter `,` and the line
`a, b` (one delimiter occurrence). -/
theorem decode_few_delimiters_witness :
    ∃ fuel parts cells,
      split fuel "a, b".toList ",".toList 2 = some parts ∧
      decode fuel plainReader { TConfig.initialize with columns := 3 } false "a, b".toList
        = some cells ∧
      cells.length = 3 ∧
      parts ≠ [] ∧ parts.take 1 = ["a".toList] ∧ parts.length ≤ 2 ∧
      (∀ i, i < 1 → cells[i]? = some (QString.trimmed (["a".toList].getD i []))) ∧
      cells[1]? = some (QString.trimmed (parts.getD 1 [])) ∧
      (∀ i, 1 < i → i + 1 < 3 → cells[i]? = some []) ∧
      cells[2]? = some ((parts.getLast?).getD []) :=
  decode_few_delimiters plainReader { TConfig.initialize with columns := 3 } "a, b".toList
    ["a".toList] " b".toList (by decide)
    (SplitsAs.cons _ _ _ _ _ firstAt_comma_a_b (SplitsAs.nil _)) (by decide) (by decide)
    (by decide)

/-- C3 fails as stated: with `N = 3` and the delimiter `,` the line `a, b` has
one delimiter occurrence (`1 ≤ 1 < N-1`) and decodes to `a | b | b`: the final
cell is `b`, not the empty string. -/
theorem decode_few_delimiters_final_not_empty :
    ∃ cells, decode 8 plainReader { TConfig.initialize with columns := 3 } false "a, b".toList
        = some cells ∧
      cells = ["a".toList, "b".toList, "b".toList] ∧ cells[2]? ≠ some [] :=
  ⟨_, by decide, rfl, by decide⟩

theorem split_diverges (str : QString) (cols : Int) (hs : str ≠ []) (hc : cols ≤ 0)
    (fuel : Nat) : split fuel str [] cols = none := by
  unfold split
  rw [splitLoop_diverges str cols hs hc fuel 0 []]

theorem decode_diverges {Obj : Type} (api : JsonReader Obj) (cfg : TConfig) (line : QString)
    (hN : cfg.columns = 1) (hd : cfg.delimeter = []) (hl : line ≠ []) (fuel : Nat) :
    decode fuel api cfg false line = none := by
  have hin : cfg.delimeter <:+: line := by rw [hd]; exact List.nil_infix
  rw [decode_plain _ _ _ _ hin, hd, split_diverges line _ hl (by omega)]
  rfl

/-- C1 (the code departs from the claim at one schema). Whenever the delimiter
is not empty or `N ≥ 2`, the decode step returns (with enough fuel) a record of
exactly `N` cells, for every line and in either mode; whenever it returns, the
record has exactly `N` cells. But for `N = 1` with an empty delimiter the loop
of `split` never ends on a non-empty line in plain mode, so no record is
produced; in particular for the line `a`. -/
theorem decode_cell_count :
    (∀ (Obj : Type) (api : JsonReader Obj) (cfg : TConfig) (jsonMode : Bool) (line : QString),
      1 ≤ cfg.columns → (cfg.delimeter ≠ [] ∨ 2 ≤ cfg.columns) →
      ∃ fuel cells, decode fuel api cfg jsonMode line = some cells ∧
        cells.length = cfg.columns) ∧
    (∀ (Obj : Type) (api : JsonReader Obj) (cfg : TConfig) (jsonMode : Bool) (line : QString)
      (fuel : Nat) (cells : List QString),
      decode fuel api cfg jsonMode line = some cells → cells.length = cfg.columns) ∧
    (∀ (Obj : Type) (api : JsonReader Obj) (cfg : TConfig) (line : QString),
      cfg.columns = 1 → cfg.delimeter = [] → line ≠ [] →
      ¬ ∃ fuel, (decode fuel api cfg false line).isSome) ∧
    (¬ ∃ fuel, (decode fuel plainReader
      { TConfig.initialize with columns := 1, delimeter := [] } false "a".toList).isSome) := by
  have hdiv : ∀ (Obj : Type) (api : JsonReader Obj) (cfg : TConfig) (line : QString),
      cfg.columns = 1 → cfg.delimeter = [] → line ≠ [] →
      ¬ ∃ fuel, (decode fuel api cfg false line).isSome := by
    intro Obj api cfg line hN hd hl ⟨fuel, hsome⟩
    rw [decode_diverges api cfg line hN hd hl fuel] at hsome
    simp at hsome
  refine ⟨?_, ?_, hdiv, ?_⟩
  · intro Obj api cfg jsonMode line _ h
    have hsome := decode_isSome api cfg jsonMode line
      ((effectiveLine api cfg jsonMode line).length + cfg.columns + 1) (Nat.lt_succ_self _) h
    obtain ⟨cells, hcells⟩ := Option.isSome_iff_exists.mp hsome
    exact ⟨_, cells, hcells, decode_length _ api cfg jsonMode line cells hcells⟩
  · intro Obj api cfg jsonMode line fuel cells h
    exact decode_length fuel api cfg jsonMode line cells h
  · exact hdiv Unit plainReader _ "a".toList rfl rfl (by decide)

/-- The first part of `decode_cell_count` at the default schema (`N = 8`,
delimiter `,`) and the line `a, b`. -/
theorem decode_cell_count_witness :
    ∃ fuel cells, decode fuel plainReader TConfig.initialize false "a, b".toList = some cells ∧
      cells.length = 8 :=
  decode_cell_count.1 Unit plainReader TConfig.initialize false "a, b".toList
    (by decide) (Or.inl (by decide))

/-! ## Severity classification -/

theorem classify_eq_firstContained (cfg : TConfig) (text : QString) :
    classify cfg text = firstContained cfg text := by
  unfold classify firstContained markerTable
  by_cases h1 : cfg.tagInfo <:+: text
  · simp [List.find?, (QString.contains_iff _ _).mpr h1, h1]
  have c1 : ¬ QString.contains text cfg.tagInfo = true := fun h => h1 ((QString.contains_iff _ _).mp h)
  by_cases h2 : cfg.tagWarning <:+: text
  · simp [List.find?, (QString.contains_iff _ _).mpr h2, h1, h2, c1]
  have c2 : ¬ QString.contains text cfg.tagWarning = true := fun h => h2 ((QString.contains_iff _ _).mp h)
  by_cases h3 : cfg.tagError <:+: text
  · simp [List.find?, (QString.contains_iff _ _).mpr h3, h1, h2, h3, c1, c2]
  have c3 : ¬ QString.contains text cfg.tagError = true := fun h => h3 ((QString.contains_iff _ _).mp h)
  by_cases h4 : cfg.tagTrace <:+: text
  · simp [List.find?, (QString.contains_iff _ _).mpr h4, h1, h2, h3, h4, c1, c2, c3]
  have c4 : ¬ QString.contains text cfg.tagTrace = true := fun h => h4 ((QString.contains_iff _ _).mp h)
  by_cases h5 : cfg.tagDebug <:+: text
  · simp [List.find?, (QString.contains_iff _ _).mpr h5, h1, h2, h3, h4, h5, c1, c2, c3, c4]
  have c5 : ¬ QString.contains text cfg.tagDebug = true := fun h => h5 ((QString.contains_iff _ _).mp h)
  simp [List.find?, h1, h2, h3, h4, h5, c1, c2, c3, c4, c5]

/-- C4. The category assigned to a line is the first one, in the order info,
warning, error, trace, debug, whose marker is a substring of the classified
text, and `other` when none is; hence a text that contains the warning and the
error marker and not the info marker is classified as warning. -/
theorem classify_priority (cfg : TConfig) (text : QString) :
    classify cfg text = firstContained cfg text ∧
    (cfg.tagWarning <:+: text → cfg.tagError <:+: text → ¬ cfg.tagInfo <:+: text →
      classify cfg text = Severity.warning) := by
  refine ⟨classify_eq_firstContained cfg text, fun hw _ hi => ?_⟩
  have c1 : ¬ QString.contains text cfg.tagInfo = true := fun h => hi ((QString.contains_iff _ _).mp h)
  simp [classify, c1, (QString.contains_iff _ _).mpr hw]

/-- The second part of `classify_priority` for the default markers and a text
holding both `WRN` and `ERR`. -/
theorem classify_priority_witness :
    classify TConfig.initialize "x WRN and ERR".toList = Severity.warning :=
  (classify_priority TConfig.initialize "x WRN and ERR".toList).2
    (by decide) (by decide) (by decide)

/-! ## Thread colours -/

theorem getColor_mapped (t : TColoring) (id : QString) (h : t.mapped id) :
    (t.getColor id).2 = t := by
  obtain ⟨e, he, hid⟩ := h
  unfold TColoring.getColor
  cases hf : t.mIDs.find? (fun e => decide (e.ID = id)) with
  | some e' => rfl
  | none =>
    rw [List.find?_eq_none] at hf
    exact absurd (by simpa using hid) (hf e he)

theorem getColor_full (t : TColoring) (id : QString) (hfull : t.full) (h : ¬ t.mapped id) :
    t.getColor id = (QColor.white, t) := by
  unfold TColoring.getColor
  cases hf : t.mIDs.find? (fun e => decide (e.ID = id)) with
  | some e' =>
    have := List.find?_some hf
    have hm := List.mem_of_find?_eq_some hf
    exact absurd ⟨e', hm, by simpa using this⟩ h
  | none =>
    have : t.mColors[t.mIDs.length]? = none := by
      rw [List.getElem?_eq_none_iff]; exact hfull
    simp [this]

theorem getColor_mColors (t : TColoring) (id : QString) :
    (t.getColor id).2.mColors = t.mColors := by
  unfold TColoring.getColor
  split
  · rfl
  · split <;> rfl

/-- After a call with id, id is mapped or the palette is full. -/
theorem getColor_settles (t : TColoring) (id : QString) :
    (t.getColor id).2.mapped id ∨ (t.getColor id).2.full := by
  by_cases hm : t.mapped id
  · left; rw [getColor_mapped t id hm]; exact hm
  · unfold TColoring.getColor
    cases hf : t.mIDs.find? (fun e => decide (e.ID = id)) with
    | some e' =>
      have := List.find?_some hf
      have hmem := List.mem_of_find?_eq_some hf
      exact absurd ⟨e', hmem, by simpa using this⟩ hm
    | none =>
      cases hc : t.mColors[t.mIDs.length]? with
      | some c =>
        left
        exact ⟨⟨c, id⟩, by simp, rfl⟩
      | none =>
        right
        simpa [TColoring.full, List.getElem?_eq_none_iff] using hc

/-- Lookup is unchanged by appending at the end when found. -/
theorem getColor_fst_of_step (t : TColoring) (x id : QString)
    (h : t.mapped id ∨ t.full) :
    ((t.getColor x).2.getColor id).1 = (t.getColor id).1 ∧
    ((t.getColor x).2.mapped id ∨ (t.getColor x).2.full) := by
  by_cases hx : t.mapped x
  · rw [getColor_mapped t x hx]; exact ⟨rfl, h⟩
  · by_cases hfull : t.full
    · rw [getColor_full t x hfull hx]; exact ⟨rfl, h⟩
    · have hid : t.mapped id := h.resolve_right hfull
      obtain ⟨e, he, heid⟩ := hid
      have hlt : t.mIDs.length < t.mColors.length := Nat.lt_of_not_le hfull
      have hfx : t.mIDs.find? (fun e => decide (e.ID = x)) = none := by
        rw [List.find?_eq_none]
        intro e' he' hd
        exact hx ⟨e', he', by simpa using hd⟩
      obtain ⟨c, hc⟩ : ∃ c, t.mColors[t.mIDs.length]? = some c :=
        ⟨_, List.getElem?_eq_getElem hlt⟩
      have hstep : t.getColor x = (c, { t with mIDs := t.mIDs ++ [⟨c, x⟩] }) := by
        unfold TColoring.getColor
        simp [hfx, hc]
      rw [hstep]
      constructor
      · obtain ⟨e0, h0⟩ : ∃ e0, t.mIDs.find? (fun e => decide (e.ID = id)) = some e0 := by
          rw [← Option.isSome_iff_exists, List.find?_isSome]
          exact ⟨e, he, by simpa using heid⟩
        unfold TColoring.getColor
        simp [List.find?_append, h0]
      · left
        exact ⟨e, by simp [he], heid⟩

theorem getColors_length (t : TColoring) (ids : List QString) :
    (t.getColors ids).1.length = ids.length := by
  induction ids generalizing t with
  | nil => rfl
  | cons id ids ih => simp [TColoring.getColors, ih]

/-- Once settled, every later call with the id returns the same colour. -/
theorem getColors_settled (t : TColoring) (id : QString) (h : t.mapped id ∨ t.full)
    (ids : List QString) (k : Nat) (hk : ids[k]? = some id) :
    (t.getColors ids).1[k]? = some (t.getColor id).1 := by
  induction ids generalizing t k with
  | nil => simp at hk
  | cons x xs ih =>
    cases k with
    | zero =>
      simp only [List.getElem?_cons_zero, Option.some.injEq] at hk
      subst hk
      simp [TColoring.getColors]
    | succ k =>
      simp only [List.getElem?_cons_succ] at hk
      have hs := getColor_fst_of_step t x id h
      simp only [TColoring.getColors, List.getElem?_cons_succ]
      rw [ih (t.getColor x).2 hs.2 k hk, hs.1]

theorem getColor_again (t : TColoring) (id : QString) :
    ((t.getColor id).2.getColor id).1 = (t.getColor id).1 := by
  by_cases hm : t.mapped id
  · rw [getColor_mapped t id hm]
  · by_cases hfull : t.full
    · rw [getColor_full t id hfull hm]
      exact congrArg Prod.fst (getColor_full t id hfull hm)
    · have hlt : t.mIDs.length < t.mColors.length := Nat.lt_of_not_le hfull
      have hfx : t.mIDs.find? (fun e => decide (e.ID = id)) = none := by
        rw [List.find?_eq_none]
        intro e' he' hd
        exact hm ⟨e', he', by simpa using hd⟩
      obtain ⟨c, hc⟩ : ∃ c, t.mColors[t.mIDs.length]? = some c :=
        ⟨_, List.getElem?_eq_getElem hlt⟩
      have hstep : t.getColor id = (c, { t with mIDs := t.mIDs ++ [⟨c, id⟩] }) := by
        unfold TColoring.getColor
        simp [hfx, hc]
      rw [hstep]
      unfold TColoring.getColor
      simp [List.find?_append, hfx]

theorem getColors_same_lt (t : TColoring) (ids : List QString) (i j : Nat) (hij : i < j)
    (id : QString) (hi : ids[i]? = some id) (hj : ids[j]? = some id) :
    ∃ c, (t.getColors ids).1[i]? = some c ∧ (t.getColors ids).1[j]? = some c := by
  induction ids generalizing t i j with
  | nil => simp at hi
  | cons x xs ih =>
    cases j with
    | zero => omega
    | succ j =>
      simp only [List.getElem?_cons_succ] at hj
      cases i with
      | zero =>
        simp only [List.getElem?_cons_zero, Option.some.injEq] at hi
        subst hi
        refine ⟨(t.getColor x).1, by simp [TColoring.getColors], ?_⟩
        simp only [TColoring.getColors, List.getElem?_cons_succ]
        rw [getColors_settled (t.getColor x).2 x (getColor_settles t x) xs j hj,
          getColor_again]
      | succ i =>
        simp only [List.getElem?_cons_succ] at hi
        obtain ⟨c, h1, h2⟩ := ih (t.getColor x).2 i j (by omega) hi hj
        exact ⟨c, by simpa [TColoring.getColors] using h1, by simpa [TColoring.getColors] using h2⟩

/-- C5. For every `TColoring` object and every sequence of `getColor` calls on
it, two calls (the `i`-th and the `j`-th) with the same id return the same
colour; and a call with an id that has an entry in the id table leaves the
object unchanged. -/
theorem getColor_stable (t : TColoring) (ids : List QString) (i j : Nat) (id : QString) :
    (ids[i]? = some id → ids[j]? = some id →
      ∃ c, (t.getColors ids).1[i]? = some c ∧ (t.getColors ids).1[j]? = some c) ∧
    ((∃ e ∈ t.mIDs, e.ID = id) → (t.getColor id).2 = t) := by
  refine ⟨fun hi hj => ?_, fun h => getColor_mapped t id h⟩
  rcases Nat.lt_trichotomy i j with h | h | h
  · exact getColors_same_lt t ids i j h id hi hj
  · subst h
    have hlt : i < (t.getColors ids).1.length := by
      rw [getColors_length]
      exact (List.getElem?_eq_some_iff.mp hi).1
    exact ⟨_, List.getElem?_eq_getElem hlt, List.getElem?_eq_getElem hlt⟩
  · obtain ⟨c, h1, h2⟩ := getColors_same_lt t ids j i h id hj hi
    exact ⟨c, h2, h1⟩

/-- The first part of `getColor_stable` for the calls `t1, t2, t1` on a new
object. -/
theorem getColor_stable_witness :
    ∃ c, (TColoring.new.getColors ["t1".toList, "t2".toList, "t1".toList]).1[0]? = some c ∧
      (TColoring.new.getColors ["t1".toList, "t2".toList, "t1".toList]).1[2]? = some c :=
  (getColor_stable TColoring.new ["t1".toList, "t2".toList, "t1".toList] 0 2 "t1".toList).1
    rfl rfl

theorem channelValues_eq : channelValues = [255, 239, 223, 207, 191, 175, 159, 143] := by
  decide

theorem length_flatMap_const {α β : Type} (l : List α) (f : α → List β) (n : Nat)
    (h : ∀ x, (f x).length = n) : (l.flatMap f).length = l.length * n := by
  induction l with
  | nil => simp
  | cons x xs ih => simp [List.flatMap_cons, ih, h, Nat.succ_mul, Nat.add_comm]

theorem new_mColors_length : TColoring.new.mColors.length = 512 := by
  have h8 : channelValues.length = 8 := by rw [channelValues_eq]; rfl
  unfold TColoring.new
  simp only
  rw [length_flatMap_const _ _ 64, h8]
  intro r
  rw [length_flatMap_const _ _ 8, h8]
  intro g
  rw [List.length_map, h8]

theorem getColors_mColors (t : TColoring) (ids : List QString) :
    (t.getColors ids).2.mColors = t.mColors := by
  induction ids generalizing t with
  | nil => rfl
  | cons x xs ih => simp [TColoring.getColors, ih, getColor_mColors]

theorem getColor_length_le (t : TColoring) (id : QString)
    (h : t.mIDs.length ≤ t.mColors.length) :
    (t.getColor id).2.mIDs.length ≤ (t.getColor id).2.mColors.length := by
  unfold TColoring.getColor
  split
  · exact h
  · split
    · rename_i c hc
      have := (List.getElem?_eq_some_iff.mp hc).1
      simp only [List.length_append, List.length_singleton]
      omega
    · exact h

theorem getColors_length_le (t : TColoring) (ids : List QString)
    (h : t.mIDs.length ≤ t.mColors.length) :
    (t.getColors ids).2.mIDs.length ≤ (t.getColors ids).2.mColors.length := by
  induction ids generalizing t with
  | nil => exact h
  | cons x xs ih => exact ih (t.getColor x).2 (getColor_length_le t x h)

theorem getColors_keeps_settled (t : TColoring) (id : QString) (h : t.mapped id ∨ t.full)
    (ids : List QString) : (t.getColors ids).2.mapped id ∨ (t.getColors ids).2.full := by
  induction ids generalizing t with
  | nil => exact h
  | cons x xs ih => exact ih (t.getColor x).2 (getColor_fst_of_step t x id h).2

theorem getColors_all_settled (t : TColoring) (ids : List QString) (id : QString)
    (hid : id ∈ ids) : (t.getColors ids).2.mapped id ∨ (t.getColors ids).2.full := by
  induction ids generalizing t with
  | nil => simp at hid
  | cons x xs ih =>
    rcases List.mem_cons.mp hid with rfl | hmem
    · exact getColors_keeps_settled (t.getColor id).2 id (getColor_settles t id) xs
    · exact ih (t.getColor x).2 hmem

theorem getColors_new_full (ids : List QString) (h : 512 ≤ ids.dedup.length) :
    (TColoring.new.getColors ids).2.mIDs.length = 512 := by
  have hcol : (TColoring.new.getColors ids).2.mColors.length = 512 := by
    rw [getColors_mColors, new_mColors_length]
  have hle := getColors_length_le TColoring.new ids (by simp [TColoring.new])
  rw [hcol] at hle
  by_contra hne
  have hlt : (TColoring.new.getColors ids).2.mIDs.length < 512 := by omega
  have hsub : ids.dedup ⊆ (TColoring.new.getColors ids).2.mIDs.map COLID_t.ID := by
    intro id hid
    have hid' : id ∈ ids := List.mem_dedup.mp hid
    rcases getColors_all_settled TColoring.new ids id hid' with hm | hf
    · obtain ⟨e, he, rfl⟩ := hm
      exact List.mem_map_of_mem _ he
    · exfalso
      unfold TColoring.full at hf
      omega
  have := ((List.nodup_dedup ids).subperm hsub).length_le
  rw [List.length_map] at this
  omega

/-- C6. After a sequence of `getColor` calls on a new object that holds at
least 512 distinct ids, the id table has exactly 512 entries, and a call with
any id that has no entry returns `Qt::white` and leaves the object unchanged. -/
theorem getColor_exhausted (ids : List QString) (h : 512 ≤ ids.dedup.length) (id : QString) :
    (TColoring.new.getColors ids).2.mIDs.length = 512 ∧
    ((∀ e ∈ (TColoring.new.getColors ids).2.mIDs, e.ID ≠ id) →
      (TColoring.new.getColors ids).2.getColor id =
        (QColor.white, (TColoring.new.getColors ids).2)) := by
  have hlen := getColors_new_full ids h
  refine ⟨hlen, fun hn => getColor_full _ id ?_ ?_⟩
  · unfold TColoring.full
    rw [getColors_mColors, new_mColors_length, hlen]
  · rintro ⟨e, he, heq⟩
    exact hn e he heq

theorem getColor_ids_subset (t : TColoring) (id : QString) (e : COLID_t)
    (he : e ∈ (t.getColor id).2.mIDs) : e ∈ t.mIDs ∨ e.ID = id := by
  unfold TColoring.getColor at he
  split at he
  · exact Or.inl he
  · split at he
    · simp only [List.mem_append, List.mem_singleton] at he
      rcases he with h | h
      · exact Or.inl h
      · exact Or.inr (by rw [h])
    · exact Or.inl he

theorem getColors_ids_subset (t : TColoring) (ids : List QString) (e : COLID_t)
    (he : e ∈ (t.getColors ids).2.mIDs) : e ∈ t.mIDs ∨ e.ID ∈ ids := by
  induction ids generalizing t with
  | nil => exact Or.inl he
  | cons x xs ih =>
    rcases ih (t.getColor x).2 he with h | h
    · rcases getColor_ids_subset t x e h with h1 | h1
      · exact Or.inl h1
      · exact Or.inr (by simp [h1])
    · exact Or.inr (List.mem_cons_of_mem _ h)

theorem x_not_in_manyIds : "x".toList ∉ manyIds := by
  unfold manyIds
  simp only [List.mem_map, List.mem_range, not_exists, not_and]
  intro n _ h
  have hx : 'x' ∈ List.replicate n 'a' := by rw [h]; simp
  have := List.eq_of_mem_replicate hx
  revert this
  decide

theorem manyIds_distinct : 512 ≤ manyIds.dedup.length := by
  have hnd : manyIds.Nodup := by
    unfold manyIds
    refine List.Nodup.map ?_ (List.nodup_range 512)
    intro a b hab
    have := congrArg List.length hab
    simpa using this
  rw [hnd.dedup]
  simp [manyIds]

/-- The theorem `getColor_exhausted` for the 512 distinct ids of `manyIds` and
the id `x`. -/
theorem getColor_exhausted_witness :
    512 ≤ manyIds.dedup.length ∧
    (TColoring.new.getColors manyIds).2.mIDs.length = 512 ∧
    (TColoring.new.getColors manyIds).2.getColor "x".toList =
      (QColor.white, (TColoring.new.getColors manyIds).2) :=
  ⟨manyIds_distinct, (getColor_exhausted manyIds manyIds_distinct "x".toList).1,
    (getColor_exhausted manyIds manyIds_distinct "x".toList).2 (by
      intro e he heq
      rcases getColors_ids_subset TColoring.new manyIds e he with h | h
      · simp [TColoring.new] at h
      · exact x_not_in_manyIds (heq ▸ h))⟩

/-! ## Search -/

theorem searchFrom_step_match (table : Table) (text : QString) (column : Int)
    (remaining line : Nat) (h : cellMatches table column text line) :
    searchFrom (fun _ => false) table text column (remaining + 1) line = (line : Int) + 1 := by
  obtain ⟨t, ht, hin⟩ := h
  simp [searchFrom, ht, contains_eq_true hin]

theorem searchFrom_step_skip (table : Table) (text : QString) (column : Int)
    (remaining line : Nat) (h : ¬ cellMatches table column text line) :
    searchFrom (fun _ => false) table text column (remaining + 1) line =
      searchFrom (fun _ => false) table text column remaining (line + 1) := by
  simp only [searchFrom, Bool.false_eq_true, if_false]
  cases ht : itemText table line column with
  | none => rfl
  | some t =>
    have : ¬ text <:+: t := fun hin => h ⟨t, ht, hin⟩
    simp [contains_eq_false this]

theorem searchFrom_none (table : Table) (text : QString) (column : Int)
    (remaining line : Nat)
    (h : ∀ i, line ≤ i → i < line + remaining → ¬ cellMatches table column text i) :
    searchFrom (fun _ => false) table text column remaining line = -1 := by
  induction remaining generalizing line with
  | zero => rfl
  | succ n ih =>
    rw [searchFrom_step_skip _ _ _ _ _ (h line (le_refl _) (by omega))]
    exact ih (line + 1) fun i h1 h2 => h i (by omega) (by omega)

theorem searchFrom_first (table : Table) (text : QString) (column : Int)
    (remaining line i : Nat) (h1 : line ≤ i) (h2 : i < line + remaining)
    (hm : cellMatches table column text i)
    (hfirst : ∀ j, line ≤ j → j < i → ¬ cellMatches table column text j) :
    searchFrom (fun _ => false) table text column remaining line = (i : Int) + 1 := by
  induction remaining generalizing line with
  | zero => omega
  | succ n ih =>
    by_cases hli : line = i
    · subst hli
      exact searchFrom_step_match _ _ _ _ _ hm
    · rw [searchFrom_step_skip _ _ _ _ _ (hfirst line (le_refl _) (by omega))]
      exact ih (line + 1) (by omega) (by omega) fun j hj1 hj2 => hfirst j (by omega) hj2

/-- C10. Without cancellation, `search` from `offset` returns `i + 1` for the
least record index `i ≥ offset` whose cell in the target column contains
`text`, and `-1` when there is no such record; the target column is `col`
when `0 ≤ col < columns` and `columns - 1` otherwise. Hence, when record 5
holds the only match, the search from 0 returns 6 and the search from 6
returns -1. -/
theorem search_returns_first_match (cfg : TConfig) (table : Table) (text : QString)
    (offset : Nat) (col column : Int)
    (hcol : 0 ≤ col ∧ col < (cfg.columns : Int) → column = col)
    (hlast : ¬ (0 ≤ col ∧ col < (cfg.columns : Int)) → column = (cfg.columns : Int) - 1) :
    (∀ i, offset ≤ i → i < table.length → cellMatches table column text i →
      (∀ j, offset ≤ j → j < i → ¬ cellMatches table column text j) →
      search cfg (fun _ => false) table text offset col = (i : Int) + 1) ∧
    ((∀ i, offset ≤ i → i < table.length → ¬ cellMatches table column text i) →
      search cfg (fun _ => false) table text offset col = -1) ∧
    (5 < table.length → cellMatches table column text 5 →
      (∀ i, i ≠ 5 → ¬ cellMatches table column text i) →
      search cfg (fun _ => false) table text 0 col = 6 ∧
      search cfg (fun _ => false) table text 6 col = -1) := by
  have hc : searchColumn cfg col = column := by
    unfold searchColumn
    split
    · rename_i h; exact (hcol h).symm
    · rename_i h; exact (hlast h).symm
  have hfirst : ∀ offset i, offset ≤ i → i < table.length → cellMatches table column text i →
      (∀ j, offset ≤ j → j < i → ¬ cellMatches table column text j) →
      search cfg (fun _ => false) table text offset col = (i : Int) + 1 := by
    intro offset i h1 h2 hm hf
    unfold search
    rw [hc]
    exact searchFrom_first table text column _ offset i h1 (by omega) hm hf
  have hnone : ∀ offset, (∀ i, offset ≤ i → i < table.length → ¬ cellMatches table column text i) →
      search cfg (fun _ => false) table text offset col = -1 := by
    intro offset h
    unfold search
    rw [hc]
    exact searchFrom_none table text column _ offset fun i h1 h2 => h i h1 (by omega)
  refine ⟨hfirst offset, hnone offset, fun h5 hm honly => ⟨?_, ?_⟩⟩
  · exact hfirst 0 5 (by omega) h5 hm fun j _ hj => honly j (by omega)
  · exact hnone 6 fun i hi _ => honly i (by omega)

/-- The last part of `search_returns_first_match` on `needleTable`, with the
column left to its default. -/
theorem search_returns_first_match_witness :
    search { TConfig.initialize with columns := 1 } (fun _ => false) needleTable
        "needle".toList 0 (-1) = 6 ∧
      search { TConfig.initialize with columns := 1 } (fun _ => false) needleTable
        "needle".toList 6 (-1) = -1 := by
  refine (search_returns_first_match { TConfig.initialize with columns := 1 } needleTable
    "needle".toList 0 (-1) 0 (by decide) (by decide)).2.2 (by decide)
    ⟨_, rfl, by decide⟩ ?_
  intro i hi ⟨t, ht, hin⟩
  match i, hi with
  | 0, _ => simp [itemText, needleTable] at ht; subst ht; revert hin; decide
  | 1, _ => simp [itemText, needleTable] at ht; subst ht; revert hin; decide
  | 2, _ => simp [itemText, needleTable] at ht; subst ht; revert hin; decide
  | 3, _ => simp [itemText, needleTable] at ht; subst ht; revert hin; decide
  | 4, _ => simp [itemText, needleTable] at ht; subst ht; revert hin; decide
  | 5, h => exact absurd rfl h
  | 6, _ => simp [itemText, needleTable] at ht; subst ht; revert hin; decide
  | i + 7, _ => simp [itemText, needleTable] at ht

/-! ## Validation -/

theorem classStackOnExit_nil (colThread : Int) (qLine : QString) :
    classStackOnExit colThread qLine [] = [] := by
  simp [classStackOnExit]

/-- What an exit line does with thread column 0. -/
theorem validateLine_exit_eq (cfg : TConfig) (table : Table) (st : VState) (line : Nat)
    (qLine : QString) (hthread : cfg.columnThreadID ≤ 0)
    (hitem : itemText table line ((cfg.columns : Int) - 1) = some qLine)
    (hexit : cfg.blockExit <:+: qLine) (hentry : ¬ cfg.blockEntry <:+: qLine) :
    validateLine cfg table st line = some
      { stack := if 0 < st.stack.length ∧ QString.contains qLine ((st.stack.getLast?).getD []) = true
          then st.stack.dropLast else st.stack,
        classStack := classStackOnExit cfg.columnThreadID qLine st.classStack,
        errorLines := if 0 < st.stack.length ∧ QString.contains qLine ((st.stack.getLast?).getD []) = true
          then st.errorLines else st.errorLines ++ [line] } := by
  unfold validateLine
  simp only [hitem, contains_eq_false hentry, contains_eq_true hexit, hthread,
    Bool.false_eq_true, if_false, if_true]
  by_cases h : 0 < st.stack.length ∧ QString.contains qLine ((st.stack.getLast?).getD []) = true
  · simp only [h, and_self, if_true]
  · simp only [h, if_false]

/-- C8. With thread column 0, for every validator state and every record whose
final cell contains the exit marker and not the entry marker: when the block
stack is empty or its top label is not a substring of the cell, the record
index is appended to `errorLines` and the stack is unchanged; when the top
label is a substring, the top is popped and nothing is recorded. In
particular the single record `}exit: X` yields `inconsistentExitLines = [0]`. -/
theorem validate_exit_line :
    (∀ (cfg : TConfig) (table : Table) (st : VState) (line : Nat) (qLine : QString),
      cfg.columnThreadID = 0 →
      itemText table line ((cfg.columns : Int) - 1) = some qLine →
      cfg.blockExit <:+: qLine → ¬ cfg.blockEntry <:+: qLine →
      ∃ st1, validateLine cfg table st line = some st1 ∧
        ((st.stack = [] ∨ ∃ top, st.stack.getLast? = some top ∧ ¬ top <:+: qLine) →
          st1.errorLines = st.errorLines ++ [line] ∧ st1.stack = st.stack) ∧
        ((∃ top, st.stack.getLast? = some top ∧ top <:+: qLine) →
          st1.errorLines = st.errorLines ∧ st1.stack = st.stack.dropLast)) ∧
    (∀ (X : QString), '\x7b' ∉ X →
      ∃ st, validate { TConfig.initialize with columns := 1, columnThreadID := 0 }
          (fun _ => false) [["\x7dexit: ".toList ++ X]] = Outcome.done st ∧
        inconsistentExitLines st = [0]) := by
  constructor
  · intro cfg table st line qLine hthread hitem hexit hentry
    refine ⟨_, validateLine_exit_eq cfg table st line qLine (le_of_eq hthread) hitem hexit hentry,
      ?_, ?_⟩
    · rintro (hnil | ⟨top, htop, hnot⟩)
      · simp [hnil]
      · have : ¬ (0 < st.stack.length ∧
            QString.contains qLine ((st.stack.getLast?).getD []) = true) := by
          rw [htop]
          simp [contains_eq_false hnot]
        simp only [this, if_false, and_self]
    · rintro ⟨top, htop, hin⟩
      have hne : 0 < st.stack.length := by
        cases hs : st.stack with
        | nil => rw [hs] at htop; simp at htop
        | cons a l => simp
      have : (0 < st.stack.length ∧
          QString.contains qLine ((st.stack.getLast?).getD []) = true) := by
        rw [htop]
        exact ⟨hne, contains_eq_true hin⟩
      simp only [this, if_true, and_self]
  · intro X hX
    have hentry : ¬ ("\x7bentry:".toList <:+: "\x7dexit: ".toList ++ X) := by
      intro h
      have hmem : '\x7b' ∈ "\x7dexit: ".toList ++ X := h.subset (by decide)
      rcases List.mem_append.mp hmem with h1 | h2
      · revert h1; decide
      · exact hX h2
    have hexit : "\x7dexit:".toList <:+: "\x7dexit: ".toList ++ X :=
      ⟨[], ' ' :: X, by simp⟩
    have hstep := validateLine_exit_eq
      { TConfig.initialize with columns := 1, columnThreadID := 0 }
      [["\x7dexit: ".toList ++ X]] VState.init 0 ("\x7dexit: ".toList ++ X)
      (le_refl _) rfl hexit hentry
    refine ⟨⟨[], [], [0]⟩, ?_, rfl⟩
    simp only [validate, List.length_singleton, validateFrom, Bool.false_eq_true, if_false]
    rw [hstep]
    simp [VState.init, classStackOnExit]

/-- The first part of `validate_exit_line` for the record `}exit: Foo::bar`
with the label `Foo::bar` on top of the stack. -/
theorem validate_exit_line_witness :
    ∃ st1, validateLine { TConfig.initialize with columns := 1, columnThreadID := 0 }
        [["\x7dexit: Foo::bar".toList]] ⟨["Foo::bar".toList], [], []⟩ 0 = some st1 ∧
      st1.errorLines = [] ∧ st1.stack = [] := by
  obtain ⟨st1, h1, _, h3⟩ := validate_exit_line.1
    { TConfig.initialize with columns := 1, columnThreadID := 0 }
    [["\x7dexit: Foo::bar".toList]] ⟨["Foo::bar".toList], [], []⟩ 0
    "\x7dexit: Foo::bar".toList rfl rfl (by decide) (by decide)
  exact ⟨st1, h1, h3 ⟨"Foo::bar".toList, rfl, by decide⟩⟩

theorem validateLine_total (cfg : TConfig) (table : Table) (st : VState) (line : Nat)
    (hr : ReadableRecord cfg table line) :
    ∃ st1, validateLine cfg table st line = some st1 := by
  obtain ⟨q, hq, hend, hthr⟩ := hr
  unfold validateLine
  simp only [hq]
  by_cases hen : cfg.blockEntry <:+: q
  · simp only [contains_eq_true hen, if_true]
    obtain ⟨pos, hpos⟩ := QString.indexOf_of_occurs q cfg.blockEntry hen
    have hfa := firstAt_of_indexOf q cfg.blockEntry pos hpos
    have hb := (QString.indexOf_some q cfg.blockEntry pos hpos).1
    have hne : q.drop (pos + cfg.blockEntry.length) ≠ [] := by
      intro hnil
      rw [hnil] at hfa
      exact hend _ hfa
    have hlt : pos + cfg.blockEntry.length < q.length := by
      by_contra hge
      exact hne (List.drop_eq_nil_of_le (by omega))
    have hlast := QString.last_eq_drop q (pos + cfg.blockEntry.length + 1) (by omega)
    have hcast : (q.length : Int) - pos - cfg.blockEntry.length - 1
        = (q.length : Int) - ((pos + cfg.blockEntry.length + 1 : Nat) : Int) := by
      push_cast; ring
    rw [hpos]
    simp only [hcast, hlast]
    generalize q.drop (pos + cfg.blockEntry.length + 1) = method
    cases hp2 : QString.indexOf method "::".toList 0 with
    | none => exact ⟨_, rfl⟩
    | some p2 =>
      have hb2 := (QString.indexOf_some method "::".toList p2 hp2).1
      have hlen2 : ("::".toList).length = 2 := rfl
      rw [hlen2] at hb2
      have hlast2 := QString.last_eq_drop method (p2 + 2) hb2
      have hcast2 : (method.length : Int) - p2 - 2
          = (method.length : Int) - ((p2 + 2 : Nat) : Int) := by
        push_cast; ring
      simp only [hcast2, hlast2]
      split
      · split
        · rename_i hc
          obtain ⟨t, ht⟩ := hthr hc
          rw [ht]
          exact ⟨_, rfl⟩
        · exact ⟨_, rfl⟩
      · exact ⟨_, rfl⟩
  · simp only [contains_eq_false hen, Bool.false_eq_true, if_false]
    split
    · exact ⟨_, rfl⟩
    · exact ⟨_, rfl⟩

theorem validateFrom_total (cfg : TConfig) (table : Table) (remaining line : Nat)
    (st : VState)
    (hr : ∀ m, line ≤ m → m < line + remaining → ReadableRecord cfg table m) :
    ∃ stf, validateFrom cfg (fun _ => false) table remaining line st = Outcome.done stf := by
  induction remaining generalizing line st with
  | zero => exact ⟨st, rfl⟩
  | succ n ih =>
    obtain ⟨st1, h1⟩ := validateLine_total cfg table st line (hr line (le_refl _) (by omega))
    obtain ⟨stf, hf⟩ := ih (line + 1) st1 (fun m h1 h2 => hr m (by omega) (by omega))
    exact ⟨stf, by simp only [validateFrom, Bool.false_eq_true, if_false, h1, hf]⟩

/-- A pattern starting with a character that the first part lacks. -/
theorem infix_append_of_not_mem (a : Char) (p l r : QString) (ha : a ∉ l) :
    a :: p <:+: l ++ r ↔ a :: p <:+: r := by
  induction l with
  | nil => simp
  | cons x xs ih =>
    have hx : a ≠ x := fun h => ha (by simp [h])
    have hxs : a ∉ xs := fun h => ha (List.mem_cons_of_mem _ h)
    rw [List.cons_append, List.infix_cons_iff, ih hxs]
    constructor
    · rintro (hp | hi)
      · exact absurd (List.cons_prefix_cons.mp hp).1 hx
      · exact hi
    · exact Or.inr

theorem validateLine_entry_stack (cfg : TConfig) (table : Table) (st st1 : VState) (line : Nat)
    (qLine label : QString)
    (hq : itemText table line ((cfg.columns : Int) - 1) = some qLine)
    (hl : EntryLabel cfg qLine label)
    (h : validateLine cfg table st line = some st1) :
    st1.stack = (if cfg.columnThreadID ≤ 0 then st.stack ++ [label] else st.stack) ∧
      st1.errorLines = st.errorLines := by
  obtain ⟨pre, c, hfa⟩ := hl
  have hen : cfg.blockEntry <:+: qLine := ⟨pre, c :: label, hfa.1.symm⟩
  have hpos := QString.indexOf_eq_of_first qLine cfg.blockEntry pre (c :: label) hfa.1 hfa.2
  have hlab := last_of_firstAt qLine cfg.blockEntry pre (c :: label) 1 (by simp) hfa.1
  simp only [Nat.cast_one, List.drop_succ_cons, List.drop_zero] at hlab
  unfold validateLine at h
  simp only [hq, contains_eq_true hen, if_true, hpos, hlab] at h
  cases hp2 : QString.indexOf label "::".toList 0 with
  | none =>
    rw [hp2] at h
    simp only [Option.some.injEq] at h
    subst h
    exact ⟨rfl, rfl⟩
  | some p2 =>
    rw [hp2] at h
    simp only at h
    cases hr : QString.last label ((label.length : Int) - p2 - 2) with
    | none => rw [hr] at h; simp at h
    | some right =>
      rw [hr] at h
      simp only at h
      split at h
      · split at h
        · cases ht : itemText table line (cfg.columnThreadID - 1) with
          | none => rw [ht] at h; simp at h
          | some tid =>
            rw [ht] at h
            simp only [Option.some.injEq] at h
            subst h
            exact ⟨rfl, rfl⟩
        · simp only [Option.some.injEq] at h
          subst h
          exact ⟨rfl, rfl⟩
      · simp only [Option.some.injEq] at h
        subst h
        exact ⟨rfl, rfl⟩

theorem ident_char_facts (c : Char) (h : c.isAlphanum = true ∨ c = '_') :
    c ≠ ':' ∧ c ≠ '~' ∧ c ≠ '\x7b' := by
  refine ⟨?_, ?_, ?_⟩ <;>
  · rintro rfl
    rcases h with h | h
    · revert h; decide
    · revert h; decide

theorem label_not_in_dtor_line (C : QString) (hne : C ≠ [])
    (hid : ∀ c ∈ C, c.isAlphanum = true ∨ c = '_') :
    ¬ (C ++ "::".toList ++ C <:+: "\x7dexit: ".toList ++ C ++ "::~".toList ++ C) := by
  obtain ⟨c0, C1, rfl⟩ := List.exists_cons_of_ne_nil hne
  have hcolon : ':' ∉ c0 :: C1 := fun hm => (ident_char_facts _ (hid _ hm)).1 rfl
  have hc0 : c0 ≠ '~' := (ident_char_facts c0 (hid c0 (by simp))).2.1
  have hc0' : c0 ≠ ':' := (ident_char_facts c0 (hid c0 (by simp))).1
  intro h
  have hsub : [':', ':', c0] <:+: (c0 :: C1) ++ "::".toList ++ (c0 :: C1) :=
    ⟨c0 :: C1, C1, by simp⟩
  have h3 := hsub.trans h
  have e1 : "\x7dexit: ".toList ++ (c0 :: C1) ++ "::~".toList ++ (c0 :: C1)
      = '\x7d' :: 'e' :: 'x' :: 'i' :: 't' :: ':' :: ' ' ::
        ((c0 :: C1) ++ (':' :: ':' :: '~' :: ((c0 :: C1) ++ []))) := by
    simp
  rw [e1] at h3
  simp only [List.infix_cons_iff (a := '\x7d'), List.infix_cons_iff (a := 'e'),
    List.infix_cons_iff (a := 'x'), List.infix_cons_iff (a := 'i'),
    List.infix_cons_iff (a := 't'), List.infix_cons_iff (a := ':'),
    List.infix_cons_iff (a := ' '), List.cons_prefix_cons] at h3
  rw [infix_append_of_not_mem ':' _ _ _ hcolon] at h3
  simp only [List.infix_cons_iff (a := ':'), List.infix_cons_iff (a := '~'),
    List.cons_prefix_cons] at h3
  rw [infix_append_of_not_mem ':' _ _ _ hcolon] at h3
  simp at h3
  exact hc0 h3

/-- C7 as amended. With thread column 0 and the markers `{entry:`, `}exit:`, for
every class name `C` (a non-empty word of letters, digits and underscores) the
validation of the two records `{entry: C::C`, `}exit: C::~C` produces a report
with `inconsistentExitLines = [1]`: the exit record does not contain the
pending label `C::C`. -/
theorem validate_ctor_dtor_pair (cfg : TConfig) (r0 r1 : List QString) (C : QString)
    (hentry : cfg.blockEntry = "\x7bentry:".toList)
    (hexit : cfg.blockExit = "\x7dexit:".toList)
    (hthread : cfg.columnThreadID = 0)
    (hne : C ≠ []) (hid : ∀ c ∈ C, c.isAlphanum = true ∨ c = '_')
    (h0 : itemText [r0, r1] 0 ((cfg.columns : Int) - 1)
      = some ("\x7bentry: ".toList ++ C ++ "::".toList ++ C))
    (h1 : itemText [r0, r1] 1 ((cfg.columns : Int) - 1)
      = some ("\x7dexit: ".toList ++ C ++ "::~".toList ++ C)) :
    ∃ st, validate cfg (fun _ => false) [r0, r1] = Outcome.done st ∧
      inconsistentExitLines st = [1] := by
  have hbrace : '\x7b' ∉ C := fun hm => (ident_char_facts _ (hid _ hm)).2.2 rfl
  -- record 0
  have hfa : FirstAt ("\x7bentry: ".toList ++ C ++ "::".toList ++ C) cfg.blockEntry []
      (' ' :: (C ++ "::".toList ++ C)) := by
    refine ⟨by rw [hentry]; simp, fun a1 _ _ => Nat.zero_le _⟩
  have hlabel : EntryLabel cfg ("\x7bentry: ".toList ++ C ++ "::".toList ++ C)
      (C ++ "::".toList ++ C) := ⟨[], ' ', hfa⟩
  have hread : ReadableRecord cfg [r0, r1] 0 := by
    refine ⟨_, h0, ?_, ?_⟩
    · intro pre hpre
      have hlen := hpre.2 [] _ hfa.1
      have hnil : pre = [] := List.eq_nil_of_length_eq_zero (Nat.le_zero.mp hlen)
      have := congrArg List.length hpre.1
      rw [hnil, hentry] at this
      simp at this
    · rw [hthread]; intro h; omega
  obtain ⟨st1, hst1⟩ := validateLine_total cfg [r0, r1] VState.init 0 hread
  obtain ⟨hstack, herr⟩ := validateLine_entry_stack cfg [r0, r1] VState.init st1 0 _ _
    h0 hlabel hst1
  rw [hthread] at hstack
  simp only [le_refl, if_true, VState.init, List.nil_append] at hstack herr
  -- record 1
  have hnoentry : ¬ cfg.blockEntry <:+: "\x7dexit: ".toList ++ C ++ "::~".toList ++ C := by
    rw [hentry]
    intro h
    have hmem : '\x7b' ∈ "\x7dexit: ".toList ++ C ++ "::~".toList ++ C := h.subset (by decide)
    simp only [List.mem_append] at hmem
    rcases hmem with ((h | h) | h) | h
    · revert h; decide
    · exact hbrace h
    · revert h; decide
    · exact hbrace h
  have hisexit : cfg.blockExit <:+: "\x7dexit: ".toList ++ C ++ "::~".toList ++ C := by
    rw [hexit]
    exact ⟨[], ' ' :: (C ++ "::~".toList ++ C), by simp⟩
  have hstep := validateLine_exit_eq cfg [r0, r1] st1 1 _ (le_of_eq hthread) h1 hisexit hnoentry
  have hcond : ¬ (0 < st1.stack.length ∧ QString.contains
      ("\x7dexit: ".toList ++ C ++ "::~".toList ++ C) ((st1.stack.getLast?).getD []) = true) := by
    rw [hstack]
    simp only [List.getLast?_singleton, Option.getD_some]
    rw [contains_eq_false (label_not_in_dtor_line C hne hid)]
    simp
  simp only [hcond, if_false] at hstep
  refine ⟨VState.mk st1.stack (classStackOnExit cfg.columnThreadID
      ("\x7dexit: ".toList ++ C ++ "::~".toList ++ C) st1.classStack)
      (st1.errorLines ++ [1]), ?_, ?_⟩
  · simp only [validate, List.length_cons, List.length_nil, validateFrom, Bool.false_eq_true,
      if_false, hst1, Nat.zero_add]
    rw [hstep]
  · simp [inconsistentExitLines, herr]

/-- The theorem `validate_ctor_dtor_pair` for the class name `Foo`. -/
theorem validate_ctor_dtor_pair_witness :
    ∃ st, validate { TConfig.initialize with columns := 1, columnThreadID := 0 }
        (fun _ => false)
        [["\x7bentry: Foo::Foo".toList], ["\x7dexit: Foo::~Foo".toList]] = Outcome.done st ∧
      inconsistentExitLines st = [1] :=
  validate_ctor_dtor_pair { TConfig.initialize with columns := 1, columnThreadID := 0 }
    ["\x7bentry: Foo::Foo".toList] ["\x7dexit: Foo::~Foo".toList] "Foo".toList
    rfl rfl rfl (by decide) (by decide) rfl rfl

/-- C7 fails as stated: the records `{entry: Foo::Foo`, `}exit: Foo::~Foo` yield
`inconsistentExitLines = [1]` and `unmatchedConstructs = [(0, Foo)]`, not two
empty lists. -/
theorem validate_ctor_dtor_pair_not_clean :
    ∃ st, validate { TConfig.initialize with columns := 1, columnThreadID := 0 }
        (fun _ => false)
        [["\x7bentry: Foo::Foo".toList], ["\x7dexit: Foo::~Foo".toList]] = Outcome.done st ∧
      inconsistentExitLines st = [1] ∧ unmatchedConstructs st = [(0, "Foo".toList)] ∧
      ¬ (inconsistentExitLines st = [] ∧ unmatchedConstructs st = []) :=
  ⟨⟨["Foo::Foo".toList], [⟨0, [], "Foo".toList⟩], [1]⟩, by decide, by decide, by decide,
    by decide⟩

/-! ## Lines without delimiter and trimmed cells -/


/-- The parts of a line that is not split, for `N ≥ 1`. -/
theorem wholeLineParts_eq (cfg : TConfig) (qLine : QString) (hN : 1 ≤ cfg.columns) :
    wholeLineParts cfg qLine = List.replicate (cfg.columns - 1) [] ++ [qLine] := by
  unfold wholeLineParts
  obtain ⟨n, hn⟩ : ∃ n, cfg.columns = n + 1 := ⟨cfg.columns - 1, by omega⟩
  rw [hn, Nat.add_sub_cancel]
  apply List.ext_getElem?
  intro i
  rw [List.getElem?_set]
  by_cases hi : n = i
  · subst hi
    simp [List.getElem?_append_right]
  · rw [if_neg hi]
    by_cases hlt : i < n
    · rw [List.getElem?_append_left (by simpa using hlt)]
      simp [List.getElem?_replicate, hlt, Nat.lt_succ_of_lt hlt]
    · rw [List.getElem?_eq_none (by simp; omega), List.getElem?_eq_none (by simp; omega)]

theorem rowCells_wholeLine (cfg : TConfig) (qLine : QString) (hN : 1 ≤ cfg.columns) :
    rowCells cfg (wholeLineParts cfg qLine) = List.replicate (cfg.columns - 1) [] ++ [qLine] := by
  apply List.ext_getElem?
  intro i
  by_cases hi : i < cfg.columns
  · rw [rowCells_getElem? _ _ _ hi]
    by_cases hlast : i + 1 < cfg.columns
    · rw [cellText_inner _ _ _ hlast, wholeLineParts_eq _ _ hN, List.getD_eq_getElem?_getD,
        List.getElem?_append_left (by simpa using (by omega : i < cfg.columns - 1))]
      simp [List.getElem?_replicate, (by omega : i < cfg.columns - 1), trimmed_nil]
    · have hi' : i = cfg.columns - 1 := by omega
      subst hi'
      have hlen : (wholeLineParts cfg qLine).length = cfg.columns := by
        simp [wholeLineParts]
      unfold cellText
      have h1 : ¬ (cfg.columns - 1 < (wholeLineParts cfg qLine).length ∧
          ((cfg.columns - 1 : Nat) : Int) < (cfg.columns : Int) - 1) := by omega
      have h2 : cfg.columns - 1 < (wholeLineParts cfg qLine).length ∧
          ((cfg.columns - 1 : Nat) : Int) = (cfg.columns : Int) - 1 := by omega
      rw [if_neg h1, if_pos h2, wholeLineParts_eq _ _ hN, List.getD_eq_getElem?_getD]
      simp [List.getElem?_append_right]
  · rw [List.getElem?_eq_none (by rw [rowCells_length]; omega),
      List.getElem?_eq_none (by simp; omega)]

/-- Claim C19: for every schema with `N ≥ 1` columns and every line that does
not contain the delimiter and is not decoded as an embedded object (plain
mode, or a line that does not start with an opening brace), the decode step
returns a record, with any fuel, whose cells `0..N-2` are empty strings and
whose cell `N-1` is the entire line, unchanged. -/
theorem decode_no_delimiter {Obj : Type} (api : JsonReader Obj) (cfg : TConfig)
    (jsonMode : Bool) (line : QString) (fuel : Nat)
    (hN : 1 ≤ cfg.columns)
    (hobj : ¬ (jsonMode = true ∧ "\x7b".toList <+: line))
    (hdel : ¬ cfg.delimeter <:+: line) :
    ∃ cells, decode fuel api cfg jsonMode line = some cells ∧
      cells.length = cfg.columns ∧
      (∀ i, i + 1 < cfg.columns → cells[i]? = some []) ∧
      cells[cfg.columns - 1]? = some line := by
  have hstart : ¬ (jsonMode = true ∧ QString.startsWith line "\x7b".toList = true) := by
    intro h
    exact hobj ⟨h.1, List.isPrefixOf_iff_prefix.mp h.2⟩
  have heff : effectiveLine api cfg jsonMode line = line := by
    unfold effectiveLine
    rw [if_neg (by simpa using hstart)]
  have hparts : lineParts fuel cfg jsonMode (QString.startsWith line "\x7b".toList) line
      = some (wholeLineParts cfg line) := by
    unfold lineParts
    split
    · rfl
    · rw [if_neg (by rw [contains_eq_false hdel]; simp)]
  refine ⟨List.replicate (cfg.columns - 1) [] ++ [line], ?_, by simp; omega, ?_, ?_⟩
  · unfold decode
    rw [heff, hparts, Option.map_some', rowCells_wholeLine _ _ hN]
  · intro i hi
    rw [List.getElem?_append_left (by simpa using (by omega : i < cfg.columns - 1))]
    simp [List.getElem?_replicate, (by omega : i < cfg.columns - 1)]
  · simp [List.getElem?_append_right]

/-- Claim C19 at three columns and the line ` no comma here `. -/
theorem decode_no_delimiter_witness :
    ∃ cells, decode 0 plainReader { TConfig.initialize with columns := 3 } false
        " no comma here ".toList = some cells ∧
      cells.length = 3 ∧
      (∀ i, i + 1 < 3 → cells[i]? = some []) ∧
      cells[2]? = some " no comma here ".toList :=
  decode_no_delimiter plainReader { TConfig.initialize with columns := 3 } false
    " no comma here ".toList 0 (by decide) (by decide) (by decide)


theorem head?_dropWhile_false (p : Char → Bool) (l : QString) (x : Char)
    (h : (l.dropWhile p).head? = some x) : p x = false := by
  induction l with
  | nil => simp at h
  | cons a as ih =>
    rw [List.dropWhile_cons] at h
    split at h
    · exact ih h
    · rename_i hp
      simp only [List.head?_cons, Option.some.injEq] at h
      subst h
      simpa using hp

/-- A trimmed string has no whitespace at either end. -/
theorem trimmed_noSurroundingSpace (s : QString) : NoSurroundingSpace (QString.trimmed s) := by
  unfold NoSurroundingSpace QString.trimmed
  constructor
  · intro x hx
    have hsuf : (s.dropWhile QString.isSpace).reverse.dropWhile QString.isSpace
        <:+ (s.dropWhile QString.isSpace).reverse := List.dropWhile_suffix _
    have hpre : ((s.dropWhile QString.isSpace).reverse.dropWhile QString.isSpace).reverse
        <+: s.dropWhile QString.isSpace := by
      have := List.reverse_prefix.mpr hsuf
      rwa [List.reverse_reverse] at this
    obtain ⟨r, hr⟩ := hpre
    generalize ((s.dropWhile QString.isSpace).reverse.dropWhile QString.isSpace).reverse = t
      at hx hr
    cases t with
    | nil => simp at hx
    | cons a as =>
      simp only [List.head?_cons, Option.some.injEq] at hx
      subst hx
      apply head?_dropWhile_false QString.isSpace s
      rw [← hr]
      rfl
  · intro x hx
    rw [List.getLast?_reverse] at hx
    exact head?_dropWhile_false QString.isSpace _ x hx

theorem noSurroundingSpace_nil : NoSurroundingSpace [] := by
  constructor <;> intro x hx <;> simp at hx

/-- Claim C20: every cell of a decoded record at an index below `N-1` has no
leading and no trailing whitespace, in either mode (it is the trimmed part, or
empty when the line supplies no part for it); a record is produced for every
line when the delimiter is non-empty or `N ≥ 2`; the final cell may keep its
surrounding whitespace, as for the line ` a ,  b ` with two columns. -/
theorem decode_inner_cells_trimmed :
    (∀ (Obj : Type) (api : JsonReader Obj) (cfg : TConfig) (jsonMode : Bool) (line : QString)
      (fuel : Nat) (cells : List QString),
      decode fuel api cfg jsonMode line = some cells →
      ∀ i c, i + 1 < cfg.columns → cells[i]? = some c → NoSurroundingSpace c) ∧
    (∀ (Obj : Type) (api : JsonReader Obj) (cfg : TConfig) (jsonMode : Bool) (line : QString),
      cfg.delimeter ≠ [] ∨ 2 ≤ cfg.columns →
      ∃ fuel cells, decode fuel api cfg jsonMode line = some cells ∧
        ∀ i c, i + 1 < cfg.columns → cells[i]? = some c → NoSurroundingSpace c) ∧
    (∃ cells, decode 8 plainReader { TConfig.initialize with columns := 2 } false
        " a ,  b ".toList = some cells ∧
      cells[0]? = some "a".toList ∧ cells[1]? = some " b ".toList) := by
  have hmain : ∀ (Obj : Type) (api : JsonReader Obj) (cfg : TConfig) (jsonMode : Bool)
      (line : QString) (fuel : Nat) (cells : List QString),
      decode fuel api cfg jsonMode line = some cells →
      ∀ i c, i + 1 < cfg.columns → cells[i]? = some c → NoSurroundingSpace c := by
    intro Obj api cfg jsonMode line fuel cells h i c hi hc
    unfold decode at h
    cases hp : lineParts fuel cfg jsonMode (QString.startsWith line "\x7b".toList)
        (effectiveLine api cfg jsonMode line) with
    | none => rw [hp] at h; simp at h
    | some parts =>
      rw [hp] at h
      simp only [Option.map_some', Option.some.injEq] at h
      subst h
      rw [rowCells_getElem? _ _ _ (by omega), cellText_inner _ _ _ hi] at hc
      simp only [Option.some.injEq] at hc
      subst hc
      exact trimmed_noSurroundingSpace _
  refine ⟨hmain, ?_, ⟨["a".toList, " b ".toList], by decide, by decide, by decide⟩⟩
  intro Obj api cfg jsonMode line h
  have hsome := decode_isSome api cfg jsonMode line
    ((effectiveLine api cfg jsonMode line).length + cfg.columns + 1) (Nat.lt_succ_self _) h
  obtain ⟨cells, hcells⟩ := Option.isSome_iff_exists.mp hsome
  exact ⟨_, cells, hcells, hmain Obj api cfg jsonMode line _ cells hcells⟩

/-- Claim C20 at two columns and the line ` a ,  b `: cell 0 is `a`. -/
theorem decode_inner_cells_trimmed_witness :
    NoSurroundingSpace "a".toList :=
  decode_inner_cells_trimmed.1 Unit plainReader { TConfig.initialize with columns := 2 } false
    " a ,  b ".toList 8 ["a".toList, " b ".toList] (by decide) 0 "a".toList (by decide) rfl


/-! ## The palette and the order of the colours -/


set_option maxRecDepth 100000 in
/-- The colours built by the constructor, entry by entry. -/
theorem new_mColors_eq : TColoring.new.mColors = (List.range 512).map paletteEntry := by
  decide

theorem paletteEntry_inj (i j : Nat) (hi : i < 512) (hj : j < 512)
    (h : paletteEntry i = paletteEntry j) : i = j := by
  unfold paletteEntry at h
  simp only [QColor.mk.injEq] at h
  omega

/-- Claim C13: the palette built by the `TColoring` constructor has exactly
512 entries, they are pairwise distinct, entry `i` is
`RGB(255 - 16*(i / 64), 255 - 16*((i / 8) mod 8), 255 - 16*(i mod 8))`, and
each channel ranges over 255, 239, ..., 143 (red outermost, blue innermost). -/
theorem palette_entries :
    TColoring.new.mColors.length = 512 ∧
    TColoring.new.mColors.Nodup ∧
    (∀ i, i < 512 → TColoring.new.mColors[i]? = some
      ⟨255 - 16 * (i / 64), 255 - 16 * ((i / 8) % 8), 255 - 16 * (i % 8)⟩) ∧
    (∀ c ∈ TColoring.new.mColors,
      c.r ∈ [255, 239, 223, 207, 191, 175, 159, 143] ∧
      c.g ∈ [255, 239, 223, 207, 191, 175, 159, 143] ∧
      c.b ∈ [255, 239, 223, 207, 191, 175, 159, 143]) := by
  refine ⟨new_mColors_length, ?_, ?_, ?_⟩
  · rw [new_mColors_eq]
    refine List.Nodup.map_on ?_ (List.nodup_range 512)
    intro i hi j hj h
    exact paletteEntry_inj i j (List.mem_range.mp hi) (List.mem_range.mp hj) h
  · intro i hi
    rw [new_mColors_eq, List.getElem?_map, List.getElem?_range hi]
    rfl
  · intro c hc
    rw [new_mColors_eq] at hc
    obtain ⟨i, hi, rfl⟩ := List.mem_map.mp hc
    have hi' := List.mem_range.mp hi
    simp only [paletteEntry, List.mem_cons, List.mem_singleton, List.not_mem_nil, or_false]
    have h1 : i / 64 < 8 := by omega
    have h2 : (i / 8) % 8 < 8 := by omega
    have h3 : i % 8 < 8 := by omega
    refine ⟨?_, ?_, ?_⟩
    · generalize i / 64 = a at h1; interval_cases a <;> simp
    · generalize (i / 8) % 8 = a at h2; interval_cases a <;> simp
    · generalize i % 8 = a at h3; interval_cases a <;> simp


theorem getColors_append (t : TColoring) (a b : List QString) :
    (t.getColors (a ++ b)).1 = (t.getColors a).1 ++ ((t.getColors a).2.getColors b).1 ∧
    (t.getColors (a ++ b)).2 = ((t.getColors a).2.getColors b).2 := by
  induction a generalizing t with
  | nil => exact ⟨rfl, rfl⟩
  | cons x xs ih =>
    simp only [List.cons_append, TColoring.getColors, List.cons.injEq, true_and]
    exact ih (t.getColor x).2

theorem mapped_iff_mem_keys (t : TColoring) (id : QString) :
    t.mapped id ↔ id ∈ t.mIDs.map COLID_t.ID := by
  unfold TColoring.mapped
  simp [List.mem_map]

/-- What a call does when the id is new and the palette is not used up. -/
theorem getColor_fresh (t : TColoring) (id : QString) (hm : ¬ t.mapped id)
    (hlt : t.mIDs.length < t.mColors.length) :
    ∃ c, t.mColors[t.mIDs.length]? = some c ∧
      t.getColor id = (c, { t with mIDs := t.mIDs ++ [⟨c, id⟩] }) := by
  have hfx : t.mIDs.find? (fun e => decide (e.ID = id)) = none := by
    rw [List.find?_eq_none]
    intro e he hd
    exact hm ⟨e, he, by simpa using hd⟩
  refine ⟨t.mColors[t.mIDs.length], List.getElem?_eq_getElem hlt, ?_⟩
  unfold TColoring.getColor
  simp [hfx, List.getElem?_eq_getElem hlt]

/-- One call keeps the table in step with the ids seen. -/
theorem getColor_tableOf (t : TColoring) (seen : List QString) (x : QString)
    (h : TableOf t seen) :
    TableOf (t.getColor x).2 (if x ∈ seen then seen else seen ++ [x]) := by
  obtain ⟨hk, hc⟩ := h
  have hlen : t.mIDs.length = min t.mColors.length seen.length := by
    have := congrArg List.length hk
    simpa using this
  by_cases hm : t.mapped x
  · rw [getColor_mapped t x hm]
    have hx : x ∈ seen := by
      rw [mapped_iff_mem_keys, hk] at hm
      exact List.mem_of_mem_take hm
    rw [if_pos hx]
    exact ⟨hk, hc⟩
  · by_cases hfull : t.full
    · rw [getColor_full t x hfull hm]
      show TableOf t _
      unfold TColoring.full at hfull
      by_cases hx : x ∈ seen
      · rw [if_pos hx]; exact ⟨hk, hc⟩
      · rw [if_neg hx]
        refine ⟨?_, hc⟩
        rw [hk, List.take_append_of_le_length (by omega)]
    · unfold TColoring.full at hfull
      have hlt : t.mIDs.length < t.mColors.length := by omega
      have hsl : seen.length < t.mColors.length := by omega
      have hkeys : t.mIDs.map COLID_t.ID = seen := by
        rw [hk, List.take_of_length_le (by omega)]
      have hx : x ∉ seen := by
        rw [← hkeys, ← mapped_iff_mem_keys]; exact hm
      obtain ⟨c, hc1, hstep⟩ := getColor_fresh t x hm hlt
      rw [hstep, if_neg hx]
      constructor
      · simp only [List.map_append, List.map_cons, List.map_nil, hkeys]
        rw [List.take_of_length_le (by simp; omega)]
      · simp only [List.map_append, List.map_cons, List.map_nil, List.length_append,
          List.length_singleton, hc]
        rw [List.take_succ, hc1]
        rfl

/-- A sequence of calls keeps the table in step with the ids seen. -/
theorem getColors_tableOf (t : TColoring) (seen ids : List QString) (h : TableOf t seen) :
    TableOf (t.getColors ids).2 (distinctFrom seen ids) := by
  induction ids generalizing t seen with
  | nil => exact h
  | cons x xs ih =>
    have := getColor_tableOf t seen x h
    simp only [TColoring.getColors, distinctFrom]
    split
    · rename_i hx
      rw [if_pos hx] at this
      exact ih _ _ this
    · rename_i hx
      rw [if_neg hx] at this
      exact ih _ _ this

theorem tableOf_new : TableOf TColoring.new [] := by
  constructor <;> simp [TColoring.new]

theorem distinctFrom_mem (seen ids : List QString) (x : QString) :
    x ∈ distinctFrom seen ids ↔ x ∈ seen ∨ x ∈ ids := by
  induction ids generalizing seen with
  | nil => simp [distinctFrom]
  | cons y ys ih =>
    simp only [distinctFrom]
    split
    · rename_i hy
      rw [ih]
      constructor
      · rintro (h | h)
        · exact Or.inl h
        · exact Or.inr (List.mem_cons_of_mem _ h)
      · rintro (h | h)
        · exact Or.inl h
        · rcases List.mem_cons.mp h with rfl | h
          · exact Or.inl hy
          · exact Or.inr h
    · rw [ih]
      simp only [List.mem_append, List.mem_singleton, List.mem_cons]
      tauto


theorem getColor_mIDs_subset (t : TColoring) (x : QString) (e : COLID_t) (he : e ∈ t.mIDs) :
    e ∈ (t.getColor x).2.mIDs := by
  unfold TColoring.getColor
  split
  · exact he
  · split
    · exact List.mem_append_left _ he
    · exact he

theorem getColors_mIDs_subset (t : TColoring) (ids : List QString) (e : COLID_t)
    (he : e ∈ t.mIDs) : e ∈ (t.getColors ids).2.mIDs := by
  induction ids generalizing t with
  | nil => exact he
  | cons x xs ih => exact ih _ (getColor_mIDs_subset t x e he)

theorem colid_ext (l1 l2 : List COLID_t) (h1 : l1.map COLID_t.ID = l2.map COLID_t.ID)
    (h2 : l1.map COLID_t.color = l2.map COLID_t.color) : l1 = l2 := by
  induction l1 generalizing l2 with
  | nil =>
    cases l2 with
    | nil => rfl
    | cons b bs => simp at h1
  | cons a as ih =>
    cases l2 with
    | nil => simp at h1
    | cons b bs =>
      simp only [List.map_cons, List.cons.injEq] at h1 h2
      have hab : a = b := by
        cases a; cases b
        simp only [COLID_t.mk.injEq]
        exact ⟨h2.1, h1.1⟩
      rw [hab, ih bs h1.2 h2.2]

theorem tableOf_new_run (ids : List QString) :
    TableOf (TColoring.new.getColors ids).2 (firstOccurrences ids) :=
  getColors_tableOf TColoring.new [] ids tableOf_new

/-- Claim C12: starting from the empty table, after any sequence of
`getColor` calls the id table lists the distinct ids in first-occurrence order
(the first 512 of them) and the entry at position `j` carries palette entry
`j`; the call that introduces the `k`-th distinct id (`k < 512`) returns
palette entry `k` and records that mapping; two call sequences whose distinct
ids first occur in the same order end in the same object. -/
theorem getColor_first_occurrence_order :
    (∀ (ids : List QString),
      ((TColoring.new.getColors ids).2.mIDs.map COLID_t.ID = (firstOccurrences ids).take 512 ∧
       ∀ (j : Nat) (e : COLID_t), (TColoring.new.getColors ids).2.mIDs[j]? = some e →
         e.color = (⟨255 - 16 * (j / 64), 255 - 16 * ((j / 8) % 8), 255 - 16 * (j % 8)⟩ :
           QColor))) ∧
    (∀ (ids : List QString) (i : Nat) (id : QString),
      ids[i]? = some id → id ∉ ids.take i →
      (firstOccurrences (ids.take i)).length < 512 →
      ∃ c, TColoring.new.mColors[(firstOccurrences (ids.take i)).length]? = some c ∧
        (TColoring.new.getColors ids).1[i]? = some c ∧
        (⟨c, id⟩ : COLID_t) ∈ (TColoring.new.getColors ids).2.mIDs) ∧
    (∀ (ids1 ids2 : List QString), firstOccurrences ids1 = firstOccurrences ids2 →
      (TColoring.new.getColors ids1).2 = (TColoring.new.getColors ids2).2) := by
  refine ⟨?_, ?_, ?_⟩
  · intro ids
    obtain ⟨hk, hc⟩ := tableOf_new_run ids
    rw [getColors_mColors, new_mColors_length] at hk
    refine ⟨hk, fun j e hj => ?_⟩
    have hjlt : j < (TColoring.new.getColors ids).2.mIDs.length :=
      (List.getElem?_eq_some_iff.mp hj).1
    have hle := getColors_length_le TColoring.new ids (by simp [TColoring.new])
    rw [getColors_mColors, new_mColors_length] at hle
    have h1 : ((TColoring.new.getColors ids).2.mIDs.map COLID_t.color)[j]? = some e.color := by
      rw [List.getElem?_map, hj]; rfl
    rw [hc, getColors_mColors, List.getElem?_take_of_lt hjlt, new_mColors_eq, List.getElem?_map,
      List.getElem?_range (by omega)] at h1
    simp only [Option.map_some', Option.some.injEq] at h1
    exact h1.symm
  · intro ids i id hi hnew hk
    have hilt : i < ids.length := (List.getElem?_eq_some_iff.mp hi).1
    have hsplit : ids = ids.take i ++ id :: ids.drop (i + 1) := by
      have hget : ids[i] = id := by
        have := List.getElem?_eq_getElem hilt
        rw [this] at hi
        exact Option.some.inj hi
      rw [← hget, ← List.drop_eq_getElem_cons hilt, List.take_append_drop]
    obtain ⟨htk, htc⟩ := tableOf_new_run (ids.take i)
    have hcol : (TColoring.new.getColors (ids.take i)).2.mColors.length = 512 := by
      rw [getColors_mColors, new_mColors_length]
    have hlen : (TColoring.new.getColors (ids.take i)).2.mIDs.length
        = (firstOccurrences (ids.take i)).length := by
      have := congrArg List.length htk
      rw [hcol] at this
      simp only [List.length_map, List.length_take] at this
      omega
    have hnm : ¬ (TColoring.new.getColors (ids.take i)).2.mapped id := by
      rw [mapped_iff_mem_keys, htk]
      intro hm
      have := List.mem_of_mem_take hm
      unfold firstOccurrences at this
      rw [distinctFrom_mem] at this
      rcases this with h | h
      · simp at h
      · exact hnew h
    obtain ⟨c, hc1, hstep⟩ := getColor_fresh _ id hnm (by rw [hcol, hlen]; exact hk)
    rw [getColors_mColors, hlen] at hc1
    refine ⟨c, hc1, ?_, ?_⟩
    · have happ := (getColors_append TColoring.new (ids.take i) (id :: ids.drop (i + 1))).1
      rw [← hsplit] at happ
      rw [happ, List.getElem?_append_right (by rw [getColors_length, List.length_take]; omega),
        getColors_length]
      have : i - (ids.take i).length = 0 := by rw [List.length_take]; omega
      rw [this]
      simp only [TColoring.getColors, List.getElem?_cons_zero, hstep]
    · have happ := (getColors_append TColoring.new (ids.take i) (id :: ids.drop (i + 1))).2
      rw [← hsplit] at happ
      rw [happ]
      simp only [TColoring.getColors]
      apply getColors_mIDs_subset
      rw [hstep]
      simp
  · intro ids1 ids2 h
    obtain ⟨hk1, hc1⟩ := tableOf_new_run ids1
    obtain ⟨hk2, hc2⟩ := tableOf_new_run ids2
    have hm1 := getColors_mColors TColoring.new ids1
    have hm2 := getColors_mColors TColoring.new ids2
    rw [hm1] at hk1 hc1
    rw [hm2] at hk2 hc2
    have hkeys : (TColoring.new.getColors ids1).2.mIDs.map COLID_t.ID
        = (TColoring.new.getColors ids2).2.mIDs.map COLID_t.ID := by
      rw [hk1, hk2, h]
    have hl : (TColoring.new.getColors ids1).2.mIDs.length
        = (TColoring.new.getColors ids2).2.mIDs.length := by
      have := congrArg List.length hkeys
      simpa using this
    have hids := colid_ext _ _ hkeys (by rw [hc1, hc2, hl])
    generalize (TColoring.new.getColors ids1).2 = t1 at *
    generalize (TColoring.new.getColors ids2).2 = t2 at *
    cases t1; cases t2
    simp only [TColoring.mk.injEq]
    exact ⟨hids, hm1.trans hm2.symm⟩

/-- Claim C12 on the calls `t1, t2, t1, t3`: the call for `t3` is the one
introducing distinct id number 2. -/
theorem getColor_first_occurrence_order_witness :
    ∃ c, TColoring.new.mColors[(firstOccurrences
          (["t1".toList, "t2".toList, "t1".toList, "t3".toList].take 3)).length]? = some c ∧
      (TColoring.new.getColors ["t1".toList, "t2".toList, "t1".toList, "t3".toList]).1[3]?
        = some c ∧
      (⟨c, "t3".toList⟩ : COLID_t) ∈
        (TColoring.new.getColors ["t1".toList, "t2".toList, "t1".toList, "t3".toList]).2.mIDs :=
  getColor_first_occurrence_order.2.1 ["t1".toList, "t2".toList, "t1".toList, "t3".toList] 3
    "t3".toList rfl (by decide) (by decide)

/-! ## One line of `parseFile`: severity and malformed objects -/

/-- The row appended for a line and the text it was classified on. -/
theorem parseLine_record {Obj : Type} (fuel : Nat) (api : JsonReader Obj) (cfg : TConfig)
    (jsonMode : Bool) (line : QString) (st st1 : ParseState)
    (h : parseLine fuel api cfg jsonMode line st = some st1) :
    ∃ r, st1.records = st.records ++ [r] ∧
      decode fuel api cfg jsonMode line = some r.cells ∧
      r.severity = classify cfg (effectiveLine api cfg jsonMode line) ∧
      r.rowColor = rowColor cfg r.severity := by
  unfold parseLine at h
  simp only at h
  cases hp : lineParts fuel cfg jsonMode (QString.startsWith line "\x7b".toList)
      (effectiveLine api cfg jsonMode line) with
  | none => rw [hp] at h; simp at h
  | some parts =>
    rw [hp] at h
    simp only [Option.some.injEq] at h
    subst h
    exact ⟨_, rfl, by unfold decode; rw [hp]; rfl, rfl, rfl⟩

/-- Claim C16, as the code has it: the severity of a row is a function of the
whole text of the line (the raw line in plain mode, the line rebuilt from the
configured values for an object line) and of the five configured tags, in the
priority order info, warning, error, trace, debug; a marker in any column
counts. Two lines with the same text get the same severity, whatever the rest
of the schema is. -/
theorem severity_of_whole_line :
    (∀ (Obj : Type) (api : JsonReader Obj) (cfg : TConfig) (jsonMode : Bool) (line : QString)
      (fuel : Nat) (st st1 : ParseState),
      parseLine fuel api cfg jsonMode line st = some st1 →
      ∃ r, st1.records = st.records ++ [r] ∧
        r.severity = firstContained cfg (effectiveLine api cfg jsonMode line) ∧
        (jsonMode = false → r.severity = firstContained cfg line)) ∧
    (∀ (cfg1 cfg2 : TConfig) (text : QString),
      cfg1.tagInfo = cfg2.tagInfo → cfg1.tagWarning = cfg2.tagWarning →
      cfg1.tagError = cfg2.tagError → cfg1.tagTrace = cfg2.tagTrace →
      cfg1.tagDebug = cfg2.tagDebug →
      firstContained cfg1 text = firstContained cfg2 text) := by
  constructor
  · intro Obj api cfg jsonMode line fuel st st1 h
    obtain ⟨r, hr, _, hsev, _⟩ := parseLine_record fuel api cfg jsonMode line st st1 h
    refine ⟨r, hr, ?_, ?_⟩
    · rw [hsev, classify_eq_firstContained]
    · intro hj
      rw [hsev, classify_eq_firstContained]
      subst hj
      rfl
  · intro cfg1 cfg2 text h1 h2 h3 h4 h5
    simp only [firstContained, markerTable, h1, h2, h3, h4, h5]

/-- Claim C16 at the line `ERR in INF, x` of the default schema with two columns. -/
theorem severity_of_whole_line_witness :
    ∃ r, ({ coloring := TColoring.new, mThreads := [],
            records := [⟨["ERR in INF".toList, "x".toList], .info, ⟨176, 255, 181⟩,
              QColor.white⟩] } : ParseState).records = ParseState.init.records ++ [r] ∧
      r.severity = firstContained twoColumnSchema
        (effectiveLine plainReader twoColumnSchema false "ERR in INF, x".toList) ∧
      ((false : Bool) = false → r.severity = firstContained twoColumnSchema "ERR in INF, x".toList) :=
  severity_of_whole_line.1 Unit plainReader twoColumnSchema false "ERR in INF, x".toList 8
    ParseState.init _ rfl

/-- Claim C16 fails as stated: with two columns and the delimiter `,` the
lines `INF, x` and `ERR, x` decode to the same final cell `x`, and the first is
counted as info, the second as error. -/
theorem severity_not_of_final_cell :
    ∃ r1 r2 : Record,
      (parseLine 8 plainReader twoColumnSchema false "INF, x".toList ParseState.init).map
        ParseState.records = some [r1] ∧
      (parseLine 8 plainReader twoColumnSchema false "ERR, x".toList ParseState.init).map
        ParseState.records = some [r2] ∧
      r1.cells.getLast? = some "x".toList ∧ r2.cells.getLast? = some "x".toList ∧
      r1.severity = .info ∧ r2.severity = .error :=
  ⟨⟨["INF".toList, "x".toList], .info, ⟨176, 255, 181⟩, QColor.white⟩,
   ⟨["ERR".toList, "x".toList], .error, ⟨255, 179, 179⟩, QColor.white⟩,
   by decide, by decide, by decide, by decide, rfl, rfl⟩


/-- Claim C14 does not hold for the code: in JSON mode a line that starts with
an opening brace is always rebuilt from the parsed object, so the decoded
cells depend on the line only through that object. Lines that do not parse all
give the same empty object; they decode to the same cells, built from the
conversion defaults, and the raw text is lost: with the two string values `a`
and `b` the line `\x7boops` decodes to an empty cell and a blank, while plain
mode gives an empty cell and the raw line. -/
theorem decode_unparsed_object_line :
    (∀ (Obj : Type) (api : JsonReader Obj) (cfg : TConfig) (l1 l2 : QString) (fuel : Nat),
      "\x7b".toList <+: l1 → "\x7b".toList <+: l2 → api.fromJson l1 = api.fromJson l2 →
      decode fuel api cfg true l1 = decode fuel api cfg true l2) ∧
    decode 8 unparsedReader twoValueSchema true "\x7boops".toList
      = some [[], " ".toList] ∧
    decode 8 unparsedReader twoValueSchema false "\x7boops".toList
      = some [[], "\x7boops".toList] := by
  refine ⟨?_, by decide, by decide⟩
  intro Obj api cfg l1 l2 fuel h1 h2 h
  have s1 : QString.startsWith l1 "\x7b".toList = true := List.isPrefixOf_iff_prefix.mpr h1
  have s2 : QString.startsWith l2 "\x7b".toList = true := List.isPrefixOf_iff_prefix.mpr h2
  unfold decode effectiveLine
  rw [s1, s2, h]
  simp

/-- Claim C14 on the two lines `\x7boops` and `\x7bnope`, which do not parse. -/
theorem decode_unparsed_object_line_witness :
    decode 8 unparsedReader twoValueSchema true "\x7boops".toList
      = decode 8 unparsedReader twoValueSchema true "\x7bnope".toList :=
  decode_unparsed_object_line.1 Unit unparsedReader twoValueSchema "\x7boops".toList
    "\x7bnope".toList 8 (by decide) (by decide) rfl


/-! ## The whole pass of `parseFile` -/

/-- A line gives a row when the fuel is above the length of its text plus the
column count. -/
theorem parseLine_isSome {Obj : Type} (api : JsonReader Obj) (cfg : TConfig) (jsonMode : Bool)
    (line : QString) (fuel : Nat) (st : ParseState)
    (hfuel : (effectiveLine api cfg jsonMode line).length + cfg.columns < fuel)
    (h : cfg.delimeter ≠ [] ∨ 2 ≤ cfg.columns) :
    ∃ st1, parseLine fuel api cfg jsonMode line st = some st1 ∧
      st1.records.length = st.records.length + 1 := by
  have hsome := decode_isSome api cfg jsonMode line fuel hfuel h
  unfold decode at hsome
  rw [Option.isSome_map'] at hsome
  obtain ⟨parts, hparts⟩ := Option.isSome_iff_exists.mp hsome
  unfold parseLine
  simp only [hparts]
  exact ⟨_, rfl, by simp⟩

/-- The fuel that is enough for every line of a file. -/
theorem fuel_for_lines {Obj : Type} (api : JsonReader Obj) (cfg : TConfig) (jsonMode : Bool)
    (lines : List QString) :
    ∃ fuel, ∀ l ∈ lines, (effectiveLine api cfg jsonMode l).length + cfg.columns < fuel := by
  induction lines with
  | nil => exact ⟨0, fun l hl => absurd hl (List.not_mem_nil l)⟩
  | cons x xs ih =>
    obtain ⟨f, hf⟩ := ih
    refine ⟨f + (effectiveLine api cfg jsonMode x).length + cfg.columns + 1, ?_⟩
    intro l hl
    rcases List.mem_cons.mp hl with rfl | hmem
    · omega
    · have := hf l hmem
      omega

/-- Without a cancel the line loop reads every line; without a thread filter
it appends one row per line. -/
theorem parseLoop_reads_all {Obj : Type} (api : JsonReader Obj) (cfg : TConfig)
    (jsonMode progress : Bool) (wasCanceled : Nat → Bool) (filterCheck : Bool)
    (threadFilter : QString) (fuel : Nat)
    (hc : progress = false ∨ ∀ k, wasCanceled k = false)
    (h : cfg.delimeter ≠ [] ∨ 2 ≤ cfg.columns) (lines : List QString) :
    ∀ (k : Nat) (st : ParseState),
    (∀ l ∈ lines, (effectiveLine api cfg jsonMode l).length + cfg.columns < fuel) →
    ∃ st1, parseLoop fuel api cfg jsonMode progress wasCanceled filterCheck threadFilter
        lines k st = some (false, st1) ∧
      st1.records.length ≤ st.records.length + lines.length ∧
      (filterCheck = false → st1.records.length = st.records.length + lines.length) := by
  induction lines with
  | nil =>
    intro k st _
    exact ⟨st, rfl, by simp, fun _ => by simp⟩
  | cons x xs ih =>
    intro k st hf
    have hnc : (progress && wasCanceled k) = false := by
      rcases hc with hp | hw
      · simp [hp]
      · simp [hw k]
    unfold parseLoop
    rw [hnc]
    simp only [Bool.false_eq_true, if_false]
    split
    · rename_i hskip
      obtain ⟨st1, h1, h2, h3⟩ := ih (k + 1) st (fun l hl => hf l (List.mem_cons_of_mem _ hl))
      refine ⟨st1, h1, by simp only [List.length_cons]; omega, ?_⟩
      intro hfc
      rw [hfc] at hskip
      simp at hskip
    · obtain ⟨stx, hx, hlen⟩ := parseLine_isSome api cfg jsonMode x fuel st
        (hf x (List.mem_cons_self _ _)) h
      rw [hx]
      obtain ⟨st1, h1, h2, h3⟩ := ih (k + 1) stx (fun l hl => hf l (List.mem_cons_of_mem _ hl))
      refine ⟨st1, h1, by simp only [List.length_cons]; omega, ?_⟩
      intro hfc
      have := h3 hfc
      simp only [List.length_cons]
      omega

/-- Claim C15: with JSON decoding requested, `parseFile` refuses the file
(it returns `false` and gives no row) when the number of configured values
differs from the column count, whatever the lines, the cancel answers, the
thread filter and the fuel are, so before any line is looked at; when the two
numbers agree it never refuses, and without a cancel every line is read and
`true` is returned (with one row per line when no thread filter is set). In
plain mode the numbers are not compared. -/
theorem parseFile_refuses_unconfigured_json :
    (∀ (Obj : Type) (api : JsonReader Obj) (cfg : TConfig) (progress : Bool)
      (wasCanceled : Nat → Bool) (filterCheck : Bool) (threadFilter : QString)
      (lines : List QString) (fuel : Nat),
      cfg.values.length ≠ cfg.columns →
      parseFile fuel api cfg true progress wasCanceled filterCheck threadFilter lines
        = some .notConfigured ∧
      ParseOutcome.notConfigured.returns = false ∧ ParseOutcome.notConfigured.rows = []) ∧
    (∀ (Obj : Type) (api : JsonReader Obj) (cfg : TConfig) (progress : Bool)
      (wasCanceled : Nat → Bool) (filterCheck : Bool) (threadFilter : QString)
      (lines : List QString) (fuel : Nat),
      cfg.values.length = cfg.columns →
      parseFile fuel api cfg true progress wasCanceled filterCheck threadFilter lines
        ≠ some .notConfigured) ∧
    (∀ (Obj : Type) (api : JsonReader Obj) (cfg : TConfig) (progress : Bool)
      (wasCanceled : Nat → Bool) (filterCheck : Bool) (threadFilter : QString)
      (lines : List QString),
      cfg.values.length = cfg.columns →
      (progress = false ∨ ∀ k, wasCanceled k = false) →
      (cfg.delimeter ≠ [] ∨ 2 ≤ cfg.columns) →
      ∃ fuel st, parseFile fuel api cfg true progress wasCanceled filterCheck threadFilter lines
          = some (.loaded st) ∧ (ParseOutcome.loaded st).returns = true ∧
        (filterCheck = false → st.records.length = lines.length)) ∧
    (∀ (Obj : Type) (api : JsonReader Obj) (cfg : TConfig) (progress : Bool)
      (wasCanceled : Nat → Bool) (filterCheck : Bool) (threadFilter : QString)
      (lines : List QString) (fuel : Nat),
      parseFile fuel api cfg false progress wasCanceled filterCheck threadFilter lines
        ≠ some .notConfigured) := by
  refine ⟨?_, ?_, ?_, ?_⟩
  · intro Obj api cfg progress wasCanceled filterCheck threadFilter lines fuel hne
    refine ⟨?_, rfl, rfl⟩
    unfold parseFile
    rw [if_pos ⟨rfl, hne⟩]
  · intro Obj api cfg progress wasCanceled filterCheck threadFilter lines fuel heq
    unfold parseFile
    rw [if_neg (fun hh => hh.2 heq)]
    cases parseLoop fuel api cfg true progress wasCanceled filterCheck threadFilter lines 0
        ParseState.init with
    | none => simp
    | some p =>
      obtain ⟨b, st⟩ := p
      cases b <;> simp
  · intro Obj api cfg progress wasCanceled filterCheck threadFilter lines heq hc hd
    obtain ⟨fuel, hfuel⟩ := fuel_for_lines api cfg true lines
    obtain ⟨st1, h1, _, h3⟩ := parseLoop_reads_all api cfg true progress wasCanceled filterCheck
      threadFilter fuel hc hd lines 0 ParseState.init hfuel
    refine ⟨fuel, st1, ?_, rfl, ?_⟩
    · unfold parseFile
      rw [if_neg (fun hh => hh.2 heq), h1]
    · intro hfc
      have := h3 hfc
      simpa [ParseState.init] using this
  · intro Obj api cfg progress wasCanceled filterCheck threadFilter lines fuel
    unfold parseFile
    rw [if_neg (fun hh => Bool.noConfusion hh.1)]
    cases parseLoop fuel api cfg false progress wasCanceled filterCheck threadFilter lines 0
        ParseState.init with
    | none => simp
    | some p =>
      obtain ⟨b, st⟩ := p
      cases b <;> simp

/-- Claim C15 on the default schema (seven values, eight columns) and a file
of one object line. -/
theorem parseFile_refuses_unconfigured_json_witness :
    parseFile 0 unparsedReader TConfig.initialize true false (fun _ => false) false []
        ["\x7boops".toList] = some .notConfigured ∧
      ParseOutcome.notConfigured.returns = false ∧ ParseOutcome.notConfigured.rows = [] :=
  parseFile_refuses_unconfigured_json.1 Unit unparsedReader TConfig.initialize false
    (fun _ => false) false [] ["\x7boops".toList] 0 (by decide)

/-! ## The class stack on an exit line -/

/-- The test of the reverse scan is the match of the specification. -/
theorem dtorMatch_iff (colThread : Int) (qLine : QString) (e : CLASS_STACK_t) :
    (if colThread ≤ 0 then QString.contains qLine ("::~".toList ++ e.method)
      else QString.contains qLine e.threadId &&
        QString.contains qLine ("::~".toList ++ e.method)) = true ↔
    DtorMatch colThread qLine e := by
  unfold DtorMatch
  by_cases hc : colThread ≤ 0
  · simp only [hc, if_true, QString.contains_iff]
    constructor
    · intro h
      exact ⟨h, fun h0 => absurd h0 (by omega)⟩
    · intro h
      exact h.1
  · simp only [hc, if_false, Bool.and_eq_true, QString.contains_iff]
    constructor
    · intro h
      exact ⟨h.2, fun _ => h.1⟩
    · intro h
      exact ⟨h.2 (by omega), h.1⟩

/-- The scan finds nothing when no entry matches. -/
theorem findClassLine_no_match (colThread : Int) (qLine : QString) (cs : List CLASS_STACK_t)
    (h : ∀ e ∈ cs, ¬ DtorMatch colThread qLine e) : findClassLine colThread qLine cs = 0 := by
  unfold findClassLine
  have : cs.reverse.find? (fun e =>
      if colThread ≤ 0 then QString.contains qLine ("::~".toList ++ e.method)
      else QString.contains qLine e.threadId &&
        QString.contains qLine ("::~".toList ++ e.method)) = none := by
    rw [List.find?_eq_none]
    intro e he
    rw [dtorMatch_iff]
    exact h e (List.mem_reverse.mp he)
  rw [this]

/-- The scan finds the most recently pushed entry that matches. -/
theorem findClassLine_last_match (colThread : Int) (qLine : QString)
    (a b : List CLASS_STACK_t) (e : CLASS_STACK_t)
    (he : DtorMatch colThread qLine e) (hb : ∀ x ∈ b, ¬ DtorMatch colThread qLine x) :
    findClassLine colThread qLine (a ++ e :: b) = e.line := by
  unfold findClassLine
  have : (a ++ e :: b).reverse.find? (fun e =>
      if colThread ≤ 0 then QString.contains qLine ("::~".toList ++ e.method)
      else QString.contains qLine e.threadId &&
        QString.contains qLine ("::~".toList ++ e.method)) = some e := by
    rw [List.reverse_append, List.reverse_cons, List.append_assoc, List.find?_append]
    have hnone : b.reverse.find? (fun e =>
        if colThread ≤ 0 then QString.contains qLine ("::~".toList ++ e.method)
        else QString.contains qLine e.threadId &&
          QString.contains qLine ("::~".toList ++ e.method)) = none := by
      rw [List.find?_eq_none]
      intro x hx
      rw [dtorMatch_iff]
      exact hb x (List.mem_reverse.mp hx)
    rw [hnone]
    simp only [Option.none_or, List.singleton_append, List.find?_cons]
    rw [(dtorMatch_iff colThread qLine e).mpr he]
  rw [this]

/-- Erasing by line removes the entry when no earlier entry has its line. -/
theorem eraseLine_append (a b : List CLASS_STACK_t) (e : CLASS_STACK_t)
    (ha : ∀ x ∈ a, x.line ≠ e.line) : eraseLine e.line (a ++ e :: b) = a ++ b := by
  induction a with
  | nil => simp [eraseLine]
  | cons x xs ih =>
    have hx : x.line ≠ e.line := ha x (List.mem_cons_self _ _)
    have ih1 := ih (fun y hy => ha y (List.mem_cons_of_mem _ hy))
    show eraseLine e.line (x :: (xs ++ e :: b)) = x :: (xs ++ b)
    rw [eraseLine, if_neg hx, ih1]

/-- Claim C17, as far as the code has it: on an exit line the class stack is
unchanged when no entry matches; when the most recently pushed matching entry
`e` was pushed at a record other than record 0 (and no entry pushed before
it has the same record index, which holds for every stack the validator
builds), it is removed and the other entries keep their order. The claim
fails for an entry pushed at record 0: the scan reports its line in an `int`
that is `0` for "nothing found", so the entry stays on the stack, as for the
stack holding `Foo` from record 0 and the line `\x7dexit: Foo::~Foo`. -/
theorem classStackOnExit_find_and_remove :
    (∀ (colThread : Int) (qLine : QString) (cs : List CLASS_STACK_t),
      (∀ e ∈ cs, ¬ DtorMatch colThread qLine e) →
      classStackOnExit colThread qLine cs = cs) ∧
    (∀ (colThread : Int) (qLine : QString) (a b : List CLASS_STACK_t) (e : CLASS_STACK_t),
      DtorMatch colThread qLine e → (∀ x ∈ b, ¬ DtorMatch colThread qLine x) →
      (∀ x ∈ a, x.line ≠ e.line) → e.line ≠ 0 →
      classStackOnExit colThread qLine (a ++ e :: b) = a ++ b) ∧
    (∀ (colThread : Int) (qLine : QString) (a b : List CLASS_STACK_t) (e : CLASS_STACK_t),
      DtorMatch colThread qLine e → (∀ x ∈ b, ¬ DtorMatch colThread qLine x) →
      e.line = 0 →
      classStackOnExit colThread qLine (a ++ e :: b) = a ++ e :: b) ∧
    (DtorMatch 0 "\x7dexit: Foo::~Foo".toList ⟨0, [], "Foo".toList⟩ ∧
      classStackOnExit 0 "\x7dexit: Foo::~Foo".toList [⟨0, [], "Foo".toList⟩]
        = [⟨0, [], "Foo".toList⟩]) := by
  refine ⟨?_, ?_, ?_, ⟨⟨by decide, by decide⟩, by decide⟩⟩
  · intro colThread qLine cs h
    unfold classStackOnExit
    split
    · rfl
    · simp only [findClassLine_no_match colThread qLine cs h, ne_eq, not_true_eq_false, if_false]
  · intro colThread qLine a b e he hb ha hl
    unfold classStackOnExit
    rw [if_neg (by simp)]
    simp only [findClassLine_last_match colThread qLine a b e he hb]
    rw [if_pos hl, eraseLine_append a b e ha]
  · intro colThread qLine a b e he hb hl
    unfold classStackOnExit
    rw [if_neg (by simp)]
    simp only [findClassLine_last_match colThread qLine a b e he hb]
    rw [if_neg (by simp [hl])]

/-- Claim C17 on the stack `A` (record 1), `B` (record 2), `A` (record 3) and
the exit line `\x7dexit: A::~A`: the entry of record 3 is removed. -/
theorem classStackOnExit_find_and_remove_witness :
    classStackOnExit 0 "\x7dexit: A::~A".toList
      ([⟨1, [], "A".toList⟩, ⟨2, [], "B".toList⟩] ++ ⟨3, [], "A".toList⟩ :: [])
      = [⟨1, [], "A".toList⟩, ⟨2, [], "B".toList⟩] ++ [] :=
  classStackOnExit_find_and_remove.2.1 0 "\x7dexit: A::~A".toList
    [⟨1, [], "A".toList⟩, ⟨2, [], "B".toList⟩] [] ⟨3, [], "A".toList⟩
    ⟨by decide, by decide⟩ (by simp) (by decide) (by decide)


/-! ## Validation with a thread column -/

theorem digitsValue_foldl (ds : List Char) (a : Nat) :
    ds.foldl (fun acc c => 10 * acc + (c.toNat - 48)) a
      = a * 10 ^ ds.length + digitsValue ds := by
  unfold digitsValue
  induction ds generalizing a with
  | nil => simp
  | cons d ds ih =>
    simp only [List.foldl_cons, List.length_cons]
    rw [ih, ih (10 * 0 + (d.toNat - 48))]
    ring

theorem isDigit_ne (c d : Char) (h : c.isDigit = true) (hd : d.isDigit = false) : c ≠ d := by
  intro heq
  subst heq
  rw [h] at hd
  exact Bool.noConfusion hd

theorem splitChar_ne_nil (sep : Char) (s : QString) : QString.splitChar sep s ≠ [] := by
  induction s with
  | nil => simp [QString.splitChar]
  | cons c cs ih =>
    unfold QString.splitChar
    split
    · simp
    · split <;> simp

/-- The schema part of the defaults is the schema `TConfig.initialize`. -/
theorem defaultStatics_toTConfig : defaultStatics.toTConfig = TConfig.initialize := rfl

/-- Claim C28 does not hold for the code: `initialize()` on the empty
configuration gives 8 columns and exactly 8 headers, but only 7 values: the
value `message` is prepared and never appended. With the defaults the numbers
of values and of columns differ, and `parseFile` refuses every file in JSON
mode. -/
theorem initialize_defaults :
    defaultStatics.columns = 8 ∧ defaultStatics.headers.length = 8 ∧
    defaultStatics.values.length = 7 ∧
    (∀ v ∈ defaultStatics.values, v.name ≠ "message".toList) ∧
    defaultStatics.values.length ≠ defaultStatics.columns ∧
    (∀ (Obj : Type) (api : JsonReader Obj) (progress : Bool) (wasCanceled : Nat → Bool)
      (filterCheck : Bool) (threadFilter : QString) (lines : List QString) (fuel : Nat),
      parseFile fuel api defaultStatics.toTConfig true progress wasCanceled filterCheck
        threadFilter lines = some .notConfigured) := by
  refine ⟨rfl, rfl, rfl, by decide, by decide, ?_⟩
  intro Obj api progress wasCanceled filterCheck threadFilter lines fuel
  unfold parseFile
  rw [if_pos ⟨rfl, by decide⟩]


/-! ## The fallback colour and the palette -/

theorem paletteEntry_white_iff (i : Nat) :
    paletteEntry i = QColor.white ↔ i = 0 := by
  unfold paletteEntry QColor.white
  simp only [QColor.mk.injEq]
  omega

/-- Claim C27, as the code has it: the fallback colour `Qt::white` is palette
entry 0, the colour of the first distinct id of a pass, and differs from every
other palette entry. After any calls on a new object an id that received the
fallback has the colour of the entry at position 0 of the id table and can be
told apart from every id mapped at a later position. -/
theorem fallback_is_first_palette_entry :
    TColoring.new.mColors[0]? = some QColor.white ∧
    (∀ i, 1 ≤ i → i < 512 → TColoring.new.mColors[i]? ≠ some QColor.white) ∧
    (∀ (ids : List QString) (id : QString), 512 ≤ ids.dedup.length →
      (∀ e ∈ (TColoring.new.getColors ids).2.mIDs, e.ID ≠ id) →
      ((TColoring.new.getColors ids).2.getColor id).1 = QColor.white) ∧
    (∀ (ids : List QString) (j : Nat) (e : COLID_t),
      (TColoring.new.getColors ids).2.mIDs[j]? = some e →
      (e.color = QColor.white ↔ j = 0)) := by
  refine ⟨?_, ?_, ?_, ?_⟩
  · rw [new_mColors_eq, List.getElem?_map, List.getElem?_range (by omega)]
    rfl
  · intro i h1 hi h
    rw [new_mColors_eq, List.getElem?_map, List.getElem?_range hi] at h
    simp only [Option.map_some', Option.some.injEq] at h
    have := (paletteEntry_white_iff i).mp h
    omega
  · intro ids id h hno
    have hfull : (TColoring.new.getColors ids).2.full := by
      unfold TColoring.full
      rw [getColors_mColors, new_mColors_length, getColors_new_full ids h]
    have hm : ¬ (TColoring.new.getColors ids).2.mapped id := by
      rintro ⟨e, he, heq⟩
      exact hno e he heq
    rw [getColor_full _ id hfull hm]
  · intro ids j e he
    have htab := (tableOf_new_run ids).2
    rw [getColors_mColors] at htab
    have hj : j < (TColoring.new.getColors ids).2.mIDs.length := by
      by_contra hge
      rw [List.getElem?_eq_none (by omega)] at he
      exact Option.noConfusion he
    have hle : (TColoring.new.getColors ids).2.mIDs.length ≤ 512 := by
      have := getColors_length_le TColoring.new ids (by simp [TColoring.new])
      rw [getColors_mColors, new_mColors_length] at this
      exact this
    have hc : ((TColoring.new.getColors ids).2.mIDs.map COLID_t.color)[j]? = some e.color := by
      rw [List.getElem?_map, he]
      rfl
    rw [htab, List.getElem?_take_of_lt hj, new_mColors_eq, List.getElem?_map,
      List.getElem?_range (by omega)] at hc
    simp only [Option.map_some', Option.some.injEq] at hc
    rw [← hc]
    exact paletteEntry_white_iff j

/-- Claim C27 on the 512 ids of `manyIds` and the id `x`: `x` gets white. -/
theorem fallback_is_first_palette_entry_witness :
    ((TColoring.new.getColors manyIds).2.getColor "x".toList).1 = QColor.white :=
  fallback_is_first_palette_entry.2.2.1 manyIds "x".toList manyIds_distinct (by
    intro e he heq
    rcases getColors_ids_subset TColoring.new manyIds e he with h | h
    · simp [TColoring.new] at h
    · exact x_not_in_manyIds (heq ▸ h))

set_option maxRecDepth 100000 in
/-- Claim C27 fails as stated: after the 512 distinct ids of `manyIds` the id
`x` is the 513th distinct id and gets the fallback, and the first id of the
pass (the empty id) has the same colour, white. -/
theorem fallback_equals_first_color :
    (TColoring.new.getColor []).1 = QColor.white ∧
    manyIds.head? = some [] ∧
    ((TColoring.new.getColors manyIds).2.getColor "x".toList).1 = QColor.white ∧
    "x".toList ∉ manyIds ∧ 512 ≤ manyIds.dedup.length := by
  refine ⟨by decide, by decide, ?_, x_not_in_manyIds, manyIds_distinct⟩
  have hfull : (TColoring.new.getColors manyIds).2.full := by
    unfold TColoring.full
    rw [getColors_mColors, new_mColors_length, getColors_new_full manyIds manyIds_distinct]
  have hm : ¬ (TColoring.new.getColors manyIds).2.mapped "x".toList := by
    rintro ⟨e, he, heq⟩
    rcases getColors_ids_subset TColoring.new manyIds e he with h | h
    · simp [TColoring.new] at h
    · exact x_not_in_manyIds (heq ▸ h)
  rw [getColor_full _ _ hfull hm]


/-! ## Termination of `split` -/

/-- Claim C30: `MainWindow::split` ends for every string, every non-empty
delimiter and every `cols`: `length + 1` iterations are enough, and more fuel
gives the same parts. An iteration that goes on moves `pos1` behind the
delimiter occurrence found at or after it, so by at least the length of the
delimiter; the loop stops when `pos1` has reached the length of the string and
when no further delimiter is found. -/
theorem split_terminates :
    (∀ (str deli : QString) (cols : Int), deli ≠ [] →
      ∃ parts, split (str.length + 1) str deli cols = some parts ∧
        ∀ more, split (str.length + 1 + more) str deli cols = some parts) ∧
    (∀ (str deli : QString) (cols : Int) (fuel pos1 column pos2 : Nat) (acc : List QString),
      pos1 < str.length → QString.indexOf str deli pos1 = some pos2 →
      ¬ (0 < cols ∧ cols ≤ (column : Int)) →
      splitLoop str deli cols (fuel + 1) pos1 column acc =
        splitLoop str deli cols fuel (pos2 + deli.length) (column + 1)
          (acc ++ [QString.mid str pos1 (pos2 - pos1)]) ∧
      pos1 + deli.length ≤ pos2 + deli.length) ∧
    (∀ (str deli : QString) (cols : Int) (fuel pos1 column : Nat) (acc : List QString),
      str.length ≤ pos1 →
      splitLoop str deli cols (fuel + 1) pos1 column acc = some (pos1, acc)) ∧
    (∀ (str deli : QString) (cols : Int) (fuel pos1 column : Nat) (acc : List QString),
      QString.indexOf str deli pos1 = none →
      splitLoop str deli cols (fuel + 1) pos1 column acc = some (pos1, acc)) := by
  refine ⟨?_, ?_, ?_, ?_⟩
  · intro str deli cols hd
    have hsome := split_isSome str deli cols (str.length + 1)
      (Or.inl ⟨hd, Nat.lt_succ_self _⟩)
    obtain ⟨parts, hp⟩ := Option.isSome_iff_exists.mp hsome
    exact ⟨parts, hp, fun more => split_fuel_mono str deli cols _ more parts hp⟩
  · intro str deli cols fuel pos1 column pos2 acc hlt hidx hcol
    constructor
    · rw [splitLoop]
      simp only [hlt, if_true, hidx, hcol, if_false]
    · have := indexOf_ge str deli pos1 pos2 hidx
      omega
  · intro str deli cols fuel pos1 column acc hge
    rw [splitLoop, if_neg (by omega)]
  · intro str deli cols fuel pos1 column acc hidx
    rw [splitLoop]
    split
    · simp only [hidx]
    · rfl

/-- Claim C30 on the line `a,b,c` with the delimiter `,` and no column
limit. -/
theorem split_terminates_witness :
    ∃ parts, split ("a,b,c".toList.length + 1) "a,b,c".toList ",".toList 0 = some parts ∧
      ∀ more, split ("a,b,c".toList.length + 1 + more) "a,b,c".toList ",".toList 0
        = some parts :=
  split_terminates.1 "a,b,c".toList ",".toList 0 (by decide)

/-! ## Comment lines of the configuration file -/

/-- `isRemark` holds exactly for blanks followed by `#` and any text. -/
theorem isRemark_iff (l : QString) :
    isRemark l = true ↔ ∃ n rest, l = List.replicate n ' ' ++ '#' :: rest := by
  induction l with
  | nil =>
    simp only [isRemark, Bool.false_eq_true, false_iff]
    rintro ⟨n, rest, h⟩
    cases n <;> simp [List.replicate] at h
  | cons c cs ih =>
    rw [isRemark]
    by_cases h1 : c = '#'
    · subst h1
      simp only [ne_eq, not_true_eq_false, and_false, if_false, if_true, true_iff]
      exact ⟨0, cs, rfl⟩
    · by_cases h2 : c = ' '
      · subst h2
        have hne : ¬ ((' ' : Char) ≠ ' ' ∧ (' ' : Char) ≠ '#') := by simp
        rw [if_neg hne, if_neg (by decide), ih]
        constructor
        · rintro ⟨n, rest, h⟩
          exact ⟨n + 1, rest, by rw [h]; rfl⟩
        · rintro ⟨n, rest, h⟩
          cases n with
          | zero =>
            simp only [List.replicate, List.nil_append, List.cons.injEq] at h
            exact absurd h.1 (by decide)
          | succ m =>
            simp only [List.replicate, List.cons_append, List.cons.injEq, true_and] at h
            exact ⟨m, rest, h⟩
      · rw [if_pos ⟨h2, h1⟩]
        simp only [Bool.false_eq_true, false_iff]
        rintro ⟨n, rest, h⟩
        cases n with
        | zero =>
          simp only [List.replicate, List.nil_append, List.cons.injEq] at h
          exact h1 h.1
        | succ m =>
          simp only [List.replicate, List.cons_append, List.cons.injEq] at h
          exact h2 h.1

/-- Claim C22, as the code has it: `isRemark` holds for a line exactly when
its first character other than a blank is `#`, whatever follows the `#`; in
particular it holds when `#` and blanks are the only characters of the line.
`readConfig` skips such a line and hands every other line to the `key=value`
parsing: the search for `=`, then the key chain. -/
theorem isRemark_first_nonblank :
    (∀ (l : QString),
      isRemark l = true ↔ ∃ n rest, l = List.replicate n ' ' ++ '#' :: rest) ∧
    (∀ (l : QString), OnlyHashes l → isRemark l = true) ∧
    (∀ (c : TConfigStatics) (line : QString),
      isRemark (cString line) = true → processLine c line = some c) ∧
    (∀ (c : TConfigStatics) (line : QString),
      isRemark (cString line) = false →
      processLine c line =
        match QString.indexOf (cString line) "=".toList 0 with
        | none => some c
        | some pos =>
          assign c (trim ((cString line).take pos)) (trim ((cString line).drop (pos + 1)))) := by
  refine ⟨isRemark_iff, ?_, ?_, ?_⟩
  · intro l h
    obtain ⟨hmem, hall⟩ := h
    induction l with
    | nil => simp at hmem
    | cons c cs ih =>
      rw [isRemark]
      by_cases h1 : c = '#'
      · subst h1
        simp
      · have h2 : c = ' ' := by
          rcases hall c (List.mem_cons_self _ _) with h | h
          · exact h
          · exact absurd h h1
        subst h2
        rw [if_neg (by simp), if_neg (by decide)]
        apply ih
        · rcases List.mem_cons.mp hmem with h | h
          · exact absurd h (by decide)
          · exact h
        · exact fun x hx => hall x (List.mem_cons_of_mem _ hx)
  · intro c line h
    unfold processLine
    simp only [h, if_true]
  · intro c line h
    unfold processLine
    simp only [h, Bool.false_eq_true, if_false]

/-- Claim C22 on the line `  ##  `. -/
theorem isRemark_first_nonblank_witness : isRemark "  ##  ".toList = true :=
  isRemark_first_nonblank.2.1 "  ##  ".toList (by unfold OnlyHashes; decide)

/-- Claim C22 fails as stated: the line `# Columns=3` holds other characters
than `#` and blanks, and it is a remark: `readConfig` skips it and the column
count stays. -/
theorem isRemark_with_text :
    isRemark "# Columns=3".toList = true ∧ ¬ OnlyHashes "# Columns=3".toList ∧
    (processLine defaultStatics "# Columns=3".toList).map (fun c => c.columns) = some 8 := by
  refine ⟨by decide, by unfold OnlyHashes; decide, by decide⟩


/-! ## The label of an entry line -/

/-- The first occurrence of a text is unique. -/
theorem firstAt_unique (s needle a b a1 b1 : QString) (h : FirstAt s needle a b)
    (h1 : FirstAt s needle a1 b1) : a = a1 ∧ b = b1 := by
  have hlen : a.length = a1.length :=
    Nat.le_antisymm (h.2 a1 b1 h1.1) (h1.2 a b h.1)
  have heq : a ++ (needle ++ b) = a1 ++ (needle ++ b1) := by
    rw [← List.append_assoc, ← List.append_assoc, ← h.1, ← h1.1]
  obtain ⟨e1, e2⟩ := List.append_inj heq hlen
  exact ⟨e1, List.append_cancel_left e2⟩

/-- A record whose first entry marker is followed by a character can be read
when there is no thread column. -/
theorem readable_of_firstAt (cfg : TConfig) (table : Table) (line : Nat)
    (qLine pre rest : QString) (c : Char)
    (hq : itemText table line ((cfg.columns : Int) - 1) = some qLine)
    (hfa : FirstAt qLine cfg.blockEntry pre (c :: rest)) (ht : cfg.columnThreadID ≤ 0) :
    ReadableRecord cfg table line := by
  refine ⟨qLine, hq, ?_, ?_⟩
  · intro pre1 h1
    have := (firstAt_unique _ _ _ _ _ _ hfa h1).2
    exact List.cons_ne_nil _ _ this
  · intro h
    omega

/-- The first occurrence of the marker in `{entry: Foo`. -/
theorem firstAt_entry_Foo : FirstAt "\x7bentry: Foo".toList "\x7bentry:".toList []
    " Foo".toList :=
  firstAt_of_indexOf "\x7bentry: Foo".toList "\x7bentry:".toList 0 (by decide)

/-- Claim C26: the label is taken with `last(size - pos - |marker| - 1)`,
where `pos` is the first occurrence of the entry marker. With `rest` the text
behind that occurrence the count is `|rest| - 1`; when `rest` is not empty the
count is not negative and the label is `rest` without its first character;
when the line ends with the marker the count is `-1` and the call is out of
range. A validation without cancel over records that can be read (the final
cell exists and its first entry marker is followed by a character) ends with a
report; the record `{entry:` alone makes it fail. -/
theorem label_extraction_in_range :
    (∀ (qLine marker pre rest : QString), FirstAt qLine marker pre rest →
      QString.indexOf qLine marker 0 = some pre.length ∧
      (qLine.length : Int) - pre.length - marker.length - 1 = (rest.length : Int) - 1 ∧
      (rest ≠ [] →
        QString.last qLine ((qLine.length : Int) - pre.length - marker.length - 1)
          = some (rest.drop 1)) ∧
      (rest = [] →
        QString.last qLine ((qLine.length : Int) - pre.length - marker.length - 1) = none)) ∧
    (∀ (cfg : TConfig) (table : Table),
      (∀ m, m < table.length → ReadableRecord cfg table m) →
      ∃ st, validate cfg (fun _ => false) table = Outcome.done st) ∧
    (FirstAt "\x7bentry:".toList blockSchema.blockEntry [] [] ∧
      validate blockSchema (fun _ => false) [["\x7bentry:".toList]] = Outcome.fault) := by
  refine ⟨?_, ?_, ⟨firstAt_of_indexOf "\x7bentry:".toList "\x7bentry:".toList 0 (by decide),
    by decide⟩⟩
  · intro qLine marker pre rest hfa
    have hlen : qLine.length = pre.length + marker.length + rest.length := by
      rw [hfa.1]
      simp only [List.length_append]
    refine ⟨QString.indexOf_eq_of_first qLine marker pre rest hfa.1 hfa.2, by omega, ?_, ?_⟩
    · intro hne
      have h1 : 1 ≤ rest.length := by
        cases rest with
        | nil => exact absurd rfl hne
        | cons x xs => simp
      have := last_of_firstAt qLine marker pre rest 1 h1 hfa.1
      simpa using this
    · intro hnil
      subst hnil
      unfold QString.last
      rw [if_neg]
      simp only [List.length_nil] at hlen
      omega
  · intro cfg table hr
    exact validateFrom_total cfg table table.length 0 VState.init
      (fun m _ h2 => hr m (by omega))

/-- Claim C26 on the line `{entry: Foo`. -/
theorem label_extraction_in_range_witness :
    QString.indexOf "\x7bentry: Foo".toList "\x7bentry:".toList 0
      = some ([] : QString).length ∧
    (("\x7bentry: Foo".toList.length : Nat) : Int) - (([] : QString).length : Nat)
      - ("\x7bentry:".toList.length : Nat) - 1 = ((" Foo".toList.length : Nat) : Int) - 1 ∧
    (" Foo".toList ≠ [] →
      QString.last "\x7bentry: Foo".toList
        ((("\x7bentry: Foo".toList.length : Nat) : Int) - (([] : QString).length : Nat)
          - ("\x7bentry:".toList.length : Nat) - 1) = some (" Foo".toList.drop 1)) ∧
    (" Foo".toList = [] →
      QString.last "\x7bentry: Foo".toList
        ((("\x7bentry: Foo".toList.length : Nat) : Int) - (([] : QString).length : Nat)
          - ("\x7bentry:".toList.length : Nat) - 1) = none) :=
  label_extraction_in_range.1 "\x7bentry: Foo".toList "\x7bentry:".toList [] " Foo".toList
    firstAt_entry_Foo


/-! ## The class entry of record 0 -/

/-- Case split on a conditional that gives a result. -/
theorem ite_some_cases {α : Type} {P : Prop} [Decidable P] {a b : Option α} {c : α} {F : Prop}
    (h : (if P then a else b) = some c) (ha : a = some c → F) (hb : b = some c → F) : F := by
  split at h
  · exact ha h
  · exact hb h

/-- The key chain of `readProfile` keeps the fields outside the schema. -/
theorem assignProfile_frame (c c1 : TConfigStatics) (l r : QString)
    (h : assignProfile c l r = some c1) :
    c1.logLevel = c.logLevel ∧ c1.lastGeometry = c.lastGeometry ∧
    c1.lastOpenPath = c.lastOpenPath ∧ c1.lastSavePath = c.lastSavePath ∧
    c1.logfile = c.logfile ∧ c1.sourcePath = c.sourcePath ∧ c1.resultPath = c.resultPath := by
  unfold assignProfile at h
  have key : ∀ c2 : TConfigStatics, c2.logLevel = c.logLevel → c2.lastGeometry = c.lastGeometry →
      c2.lastOpenPath = c.lastOpenPath → c2.lastSavePath = c.lastSavePath →
      c2.logfile = c.logfile → c2.sourcePath = c.sourcePath → c2.resultPath = c.resultPath →
      some c2 = some c1 →
      c1.logLevel = c.logLevel ∧ c1.lastGeometry = c.lastGeometry ∧
      c1.lastOpenPath = c.lastOpenPath ∧ c1.lastSavePath = c.lastSavePath ∧
      c1.logfile = c.logfile ∧ c1.sourcePath = c.sourcePath ∧ c1.resultPath = c.resultPath := by
    intro c2 a1 a2 a3 a4 a5 a6 a7 e
    simp only [Option.some.injEq] at e
    subst e
    exact ⟨a1, a2, a3, a4, a5, a6, a7⟩
  refine ite_some_cases h (key _ rfl rfl rfl rfl rfl rfl rfl) fun h => ?_
  refine ite_some_cases h (key _ rfl rfl rfl rfl rfl rfl rfl) fun h => ?_
  refine ite_some_cases h (key _ rfl rfl rfl rfl rfl rfl rfl) fun h => ?_
  refine ite_some_cases h (key _ rfl rfl rfl rfl rfl rfl rfl) fun h => ?_
  refine ite_some_cases h (key _ rfl rfl rfl rfl rfl rfl rfl) fun h => ?_
  refine ite_some_cases h (key _ rfl rfl rfl rfl rfl rfl rfl) fun h => ?_
  refine ite_some_cases h (key _ rfl rfl rfl rfl rfl rfl rfl) fun h => ?_
  refine ite_some_cases h (key _ rfl rfl rfl rfl rfl rfl rfl) fun h => ?_
  refine ite_some_cases h (key _ rfl rfl rfl rfl rfl rfl rfl) fun h => ?_
  refine ite_some_cases h (key _ rfl rfl rfl rfl rfl rfl rfl) fun h => ?_
  refine ite_some_cases h (key _ rfl rfl rfl rfl rfl rfl rfl) fun h => ?_
  refine ite_some_cases h (key _ rfl rfl rfl rfl rfl rfl rfl) fun h => ?_
  refine ite_some_cases h (key _ rfl rfl rfl rfl rfl rfl rfl) fun h => ?_
  refine ite_some_cases h
    (fun h => ite_some_cases h (fun h => Option.noConfusion h)
      (key _ rfl rfl rfl rfl rfl rfl rfl)) fun h => ?_
  refine ite_some_cases h (key _ rfl rfl rfl rfl rfl rfl rfl) fun h => ?_
  refine ite_some_cases h (key _ rfl rfl rfl rfl rfl rfl rfl) fun h => ?_
  refine ite_some_cases h (fun h => ?_) fun h => ?_
  · obtain ⟨vs, _, hvs⟩ := Option.map_eq_some'.mp h
    subst hvs
    exact ⟨rfl, rfl, rfl, rfl, rfl, rfl, rfl⟩
  · refine ite_some_cases h (key _ rfl rfl rfl rfl rfl rfl rfl) fun h => ?_
    exact key _ rfl rfl rfl rfl rfl rfl rfl h

theorem processProfileLine_frame (c c1 : TConfigStatics) (line : QString)
    (h : processProfileLine c line = some c1) :
    c1.logLevel = c.logLevel ∧ c1.lastGeometry = c.lastGeometry ∧
    c1.lastOpenPath = c.lastOpenPath ∧ c1.lastSavePath = c.lastSavePath ∧
    c1.logfile = c.logfile ∧ c1.sourcePath = c.sourcePath ∧ c1.resultPath = c.resultPath := by
  unfold processProfileLine at h
  simp only at h
  split at h
  · simp only [Option.some.injEq] at h
    subst h
    exact ⟨rfl, rfl, rfl, rfl, rfl, rfl, rfl⟩
  · split at h
    · simp only [Option.some.injEq] at h
      subst h
      exact ⟨rfl, rfl, rfl, rfl, rfl, rfl, rfl⟩
    · exact assignProfile_frame c c1 _ _ h

theorem readProfileLines_frame (lines : List QString) : ∀ (c c1 : TConfigStatics),
    readProfileLines c lines = some c1 →
    c1.logLevel = c.logLevel ∧ c1.lastGeometry = c.lastGeometry ∧
    c1.lastOpenPath = c.lastOpenPath ∧ c1.lastSavePath = c.lastSavePath ∧
    c1.logfile = c.logfile ∧ c1.sourcePath = c.sourcePath ∧ c1.resultPath = c.resultPath := by
  induction lines with
  | nil =>
    intro c c1 h
    simp only [readProfileLines, Option.some.injEq] at h
    subst h
    exact ⟨rfl, rfl, rfl, rfl, rfl, rfl, rfl⟩
  | cons l ls ih =>
    intro c c1 h
    unfold readProfileLines at h
    cases hp : processProfileLine c l with
    | none => rw [hp] at h; simp at h
    | some c2 =>
      rw [hp] at h
      obtain ⟨a1, a2, a3, a4, a5, a6, a7⟩ := processProfileLine_frame c c2 l hp
      obtain ⟨b1, b2, b3, b4, b5, b6, b7⟩ := ih c2 c1 h
      exact ⟨b1.trans a1, b2.trans a2, b3.trans a3, b4.trans a4, b5.trans a5, b6.trans a6,
        b7.trans a7⟩

/-- Claim C23 does not hold for the code: `readProfile` starts with
`initialize()`, which sets the log level to 1, and no line of a profile sets
it again; so after every profile the log level is 1, whatever it was before.
The last geometry and the last open and save paths are kept, and so are the
log file, the source path and the result path when the configuration file is
known. A profile is read to the end unless it gives a number that the types
of the model cannot hold; the empty profile is. With the log level 3 before,
the profile of the two lines `Delimeter=;` and `Columns=3` leaves the log
level 1. -/
theorem readProfile_frame :
    (∀ (known : Bool) (p : QString) (prior r : TConfigStatics) (content : QString),
      readProfile known p prior content = some r →
      r.logLevel = 1 ∧ r.lastGeometry = prior.lastGeometry ∧
      r.lastOpenPath = prior.lastOpenPath ∧ r.lastSavePath = prior.lastSavePath ∧
      (known = true → r.logfile = prior.logfile ∧ r.sourcePath = prior.sourcePath ∧
        r.resultPath = prior.resultPath)) ∧
    (∀ (known : Bool) (p : QString) (prior : TConfigStatics),
      ∃ r, readProfile known p prior [] = some r) ∧
    ((readProfile true [] levelThreeStatics sampleProfile).map (fun c => c.logLevel) = some 1 ∧
      levelThreeStatics.logLevel = 3 ∧
      (readProfile true [] levelThreeStatics sampleProfile).map (fun c => c.columns)
        = some 3) := by
  refine ⟨?_, ?_, ?_⟩
  · intro known p prior r content h
    unfold readProfile at h
    obtain ⟨b1, b2, b3, b4, b5, b6, b7⟩ := readProfileLines_frame _ _ _ h
    cases known with
    | true =>
      exact ⟨b1, b2, b3, b4, fun _ => ⟨b5, b6, b7⟩⟩
    | false =>
      exact ⟨b1, b2, b3, b4, fun hk => Bool.noConfusion hk⟩
  · intro known p prior
    exact ⟨_, rfl⟩
  · exact ⟨by decide, rfl, by decide⟩

/-- Claim C23 on the empty profile, read with the log level 3 before: the
log level after it is 1. -/
theorem readProfile_frame_witness :
    ( TConfigStatics.initialize levelThreeStatics).logLevel = 1 ∧
    ( TConfigStatics.initialize levelThreeStatics).lastGeometry
      = levelThreeStatics.lastGeometry ∧
    ( TConfigStatics.initialize levelThreeStatics).lastOpenPath
      = levelThreeStatics.lastOpenPath ∧
    ( TConfigStatics.initialize levelThreeStatics).lastSavePath
      = levelThreeStatics.lastSavePath ∧
    (true = true →
      ( TConfigStatics.initialize levelThreeStatics).logfile = levelThreeStatics.logfile ∧
      ( TConfigStatics.initialize levelThreeStatics).sourcePath
        = levelThreeStatics.sourcePath ∧
      ( TConfigStatics.initialize levelThreeStatics).resultPath
        = levelThreeStatics.resultPath) :=
  readProfile_frame.1 true [] levelThreeStatics ( TConfigStatics.initialize levelThreeStatics)
    [] rfl

/-! ## The thread column in the settings dialog -/

/-- The slot of the thread column keeps the thread column within the column
range and the column count as it is. -/
theorem threadSlot_keeps_range (fuel : Nat) : ∀ (s s1 : TQtSettings) (arg1 : Int),
    ThreadColumnInRange s → 0 ≤ s.spinBoxThreadID.minimum → 0 ≤ arg1 →
    on_spinBoxThreadID_valueChanged fuel s arg1 = some s1 →
    ThreadColumnInRange s1 ∧ s1.mColumns = s.mColumns := by
  induction fuel with
  | zero =>
    intro s s1 arg1 _ _ _ h
    simp [on_spinBoxThreadID_valueChanged] at h
  | succ n ih =>
    intro s s1 arg1 hinv hmin harg h
    unfold on_spinBoxThreadID_valueChanged at h
    split at h
    · rename_i hle
      simp only [Option.some.injEq] at h
      subst h
      exact ⟨⟨harg, hle⟩, rfl⟩
    · simp only at h
      split at h
      · simp only [Option.some.injEq] at h
        subst h
        exact ⟨hinv, rfl⟩
      · have := ih _ s1 _ (show ThreadColumnInRange
            { s with spinBoxThreadID := { s.spinBoxThreadID with
                value := max s.spinBoxThreadID.minimum
                  (min s.spinBoxThreadID.maximum s.mColumnThreadID) } } from hinv)
          hmin (le_max_of_le_left hmin) h
        exact this

/-- Two rounds are enough for the slot of the thread column. -/
theorem threadSlot_total (s : TQtSettings) (arg1 : Int) (fuel : Nat) :
    ∃ s1, on_spinBoxThreadID_valueChanged (fuel + 2) s arg1 = some s1 := by
  unfold on_spinBoxThreadID_valueChanged
  split
  · exact ⟨_, rfl⟩
  · simp only
    split
    · exact ⟨_, rfl⟩
    · unfold on_spinBoxThreadID_valueChanged
      split
      · exact ⟨_, rfl⟩
      · simp only [if_true]
        exact ⟨_, rfl⟩

/-- Claim C29 does not hold for the code. The slot of the thread column
keeps `0 ≤ threadColumn ≤ columns` for every `m ≥ 0` (for a spin box whose
range starts at 0 or above), and it ends. The slot of the column count keeps
it when the new count `n` is not below the thread column. When `n` is below
the thread column, the slot sets the column count to `n` and leaves the
thread column, which is then above the column count: the test before the
correction reads `mColumns > mColumnThreadID`. From 8 columns with thread
column 8 the call with `n = 5` ends with 5 columns and thread column 8. -/
theorem spinBox_slots_thread_column :
    (∀ (s s1 : TQtSettings) (m : Int) (fuel : Nat),
      ThreadColumnInRange s → 0 ≤ s.spinBoxThreadID.minimum → 0 ≤ m →
      on_spinBoxThreadID_valueChanged fuel s m = some s1 →
      ThreadColumnInRange s1 ∧ s1.mColumns = s.mColumns) ∧
    (∀ (s : TQtSettings) (m : Int) (fuel : Nat),
      ∃ s1, on_spinBoxThreadID_valueChanged (fuel + 2) s m = some s1) ∧
    (∀ (s s1 : TQtSettings) (n : Int) (fuel : Nat),
      ThreadColumnInRange s → 0 ≤ s.spinBoxThreadID.minimum → 1 ≤ n →
      s.mColumnThreadID ≤ n →
      on_spinBoxColumns_valueChanged fuel s n = some s1 →
      ThreadColumnInRange s1 ∧ s1.mColumns = n) ∧
    (∀ (s s1 : TQtSettings) (n : Int) (fuel : Nat),
      n < s.mColumnThreadID →
      on_spinBoxColumns_valueChanged fuel s n = some s1 →
      s1.mColumns = n ∧ s1.mColumnThreadID = s.mColumnThreadID ∧
        ¬ ThreadColumnInRange s1) ∧
    (ThreadColumnInRange defaultSettings ∧
      (on_spinBoxColumns_valueChanged 0 defaultSettings 5).map
        (fun s => (s.mColumns, s.mColumnThreadID)) = some (5, 8)) := by
  refine ⟨?_, ?_, ?_, ?_, ⟨by unfold ThreadColumnInRange; decide, by decide⟩⟩
  · intro s s1 m fuel hinv hmin hm h
    exact threadSlot_keeps_range fuel s s1 m hinv hmin hm h
  · intro s m fuel
    exact threadSlot_total s m fuel
  · intro s s1 n fuel hinv hmin hn hle h
    unfold on_spinBoxColumns_valueChanged at h
    simp only at h
    split at h
    · exact absurd h (by simp)
    · rename_i hs vs _
      split at h
      · rename_i hcond
        unfold setValueThreadID at h
        simp only at h
        split at h
        · simp only [Option.some.injEq] at h
          subst h
          exact ⟨⟨by show (0 : Int) ≤ n; omega, le_refl _⟩, rfl⟩
        · have := threadSlot_keeps_range fuel _ s1 _
            (show ThreadColumnInRange
              { mColumns := n, mColumnThreadID := n, mHeaders := hs, mValues := vs,
                spinBoxThreadID := { s.spinBoxThreadID with
                  value := max s.spinBoxThreadID.minimum (min s.spinBoxThreadID.maximum n) } }
              from ⟨by show (0 : Int) ≤ n; omega, le_refl _⟩)
            hmin (le_max_of_le_left hmin) h
          exact this
      · rename_i hcond
        simp only [Option.some.injEq] at h
        subst h
        exact ⟨⟨hinv.1, hle⟩, rfl⟩
  · intro s s1 n fuel hlt h
    unfold on_spinBoxColumns_valueChanged at h
    simp only at h
    split at h
    · exact absurd h (by simp)
    · split at h
      · rename_i hcond
        exact absurd hcond.1 (by simp only [gt_iff_lt]; omega)
      · simp only [Option.some.injEq] at h
        subst h
        refine ⟨rfl, rfl, ?_⟩
        intro hr
        have := hr.2
        simp only at this
        omega

/-- Claim C29 on the default dialog and the thread column 3. -/
theorem spinBox_slots_thread_column_witness :
    ThreadColumnInRange { defaultSettings with mColumnThreadID := 3 } ∧
      ({ defaultSettings with mColumnThreadID := 3 } : TQtSettings).mColumns
        = defaultSettings.mColumns :=
  spinBox_slots_thread_column.1 defaultSettings { defaultSettings with mColumnThreadID := 3 }
    3 1 (by unfold ThreadColumnInRange; decide) (by decide) (by decide) (by decide)

/-! ## Well-nested input -/

/-- A run of the validator over `n + m` records is the run over `n` records
followed by the run over the next `m`. -/
theorem validateFrom_append (cfg : TConfig) (wasCanceled : Nat → Bool) (table : Table)
    (m n : Nat) : ∀ (line : Nat) (st st1 : VState),
    validateFrom cfg wasCanceled table n line st = Outcome.done st1 →
    validateFrom cfg wasCanceled table (n + m) line st
      = validateFrom cfg wasCanceled table m (line + n) st1 := by
  induction n with
  | zero =>
    intro line st st1 h
    simp only [validateFrom, Outcome.done.injEq] at h
    subst h
    simp
  | succ k ih =>
    intro line st st1 h
    rw [show k + 1 + m = (k + m) + 1 by omega]
    rw [validateFrom] at h ⊢
    split at h
    · simp at h
    · rename_i hc
      rw [if_neg hc]
      cases hv : validateLine cfg table st line with
      | none => rw [hv] at h; simp at h
      | some st2 =>
        rw [hv] at h
        simp only at h ⊢
        rw [ih (line + 1) st2 st1 h, show line + 1 + k = line + (k + 1) by omega]

/-- An entry line `{entry: L` pushes `L`. -/
theorem validateLine_entry_line (cfg : TConfig) (table : Table) (st : VState) (line : Nat)
    (L : QString) (he : cfg.blockEntry = "\x7bentry:".toList) (ht : cfg.columnThreadID ≤ 0)
    (hq : itemText table line ((cfg.columns : Int) - 1) = some ("\x7bentry: ".toList ++ L)) :
    ∃ st1, validateLine cfg table st line = some st1 ∧ st1.stack = st.stack ++ [L] ∧
      st1.errorLines = st.errorLines := by
  have hfa : FirstAt ("\x7bentry: ".toList ++ L) cfg.blockEntry [] (' ' :: L) := by
    rw [he]
    exact ⟨rfl, fun a1 b1 _ => Nat.zero_le _⟩
  obtain ⟨st1, h1⟩ := validateLine_total cfg table st line
    (readable_of_firstAt cfg table line _ [] L ' ' hq hfa ht)
  have := validateLine_entry_stack cfg table st st1 line _ L hq ⟨[], ' ', hfa⟩ h1
  rw [if_pos ht] at this
  exact ⟨st1, h1, this.1, this.2⟩

/-- An exit line `}exit: L` pops the label `L` from the top of the stack. -/
theorem validateLine_exit_line (cfg : TConfig) (table : Table) (st : VState) (line : Nat)
    (L : QString) (S : List QString) (he : cfg.blockEntry = "\x7bentry:".toList)
    (hx : cfg.blockExit = "\x7dexit:".toList) (ht : cfg.columnThreadID ≤ 0)
    (hL : '\x7b' ∉ L) (hS : st.stack = S ++ [L])
    (hq : itemText table line ((cfg.columns : Int) - 1) = some ("\x7dexit: ".toList ++ L)) :
    ∃ st1, validateLine cfg table st line = some st1 ∧ st1.stack = S ∧
      st1.errorLines = st.errorLines := by
  have hentry : ¬ cfg.blockEntry <:+: "\x7dexit: ".toList ++ L := by
    rw [he]
    intro h
    have h2 := (infix_append_of_not_mem '\x7b' "entry:".toList "\x7dexit: ".toList L
      (by decide)).mp h
    obtain ⟨s, t, hst⟩ := h2
    apply hL
    rw [← hst]
    simp
  have hexit : cfg.blockExit <:+: "\x7dexit: ".toList ++ L := by
    rw [hx]
    exact ⟨[], ' ' :: L, rfl⟩
  have hstep := validateLine_exit_eq cfg table st line _ ht hq hexit hentry
  have hcond : 0 < st.stack.length ∧
      QString.contains ("\x7dexit: ".toList ++ L) ((st.stack.getLast?).getD []) = true := by
    rw [hS]
    refine ⟨by simp, ?_⟩
    rw [List.getLast?_append, List.getLast?_singleton]
    exact contains_eq_true ⟨"\x7dexit: ".toList, [], by simp⟩
  rw [if_pos hcond, if_pos hcond] at hstep
  refine ⟨_, hstep, ?_, rfl⟩
  show st.stack.dropLast = S
  rw [hS, List.dropLast_concat]

/-- A record without marker changes nothing. -/
theorem validateLine_plain_line (cfg : TConfig) (table : Table) (st : VState) (line : Nat)
    (l : QString) (hne : ¬ cfg.blockEntry <:+: l) (hnx : ¬ cfg.blockExit <:+: l)
    (hq : itemText table line ((cfg.columns : Int) - 1) = some l) :
    validateLine cfg table st line = some st := by
  unfold validateLine
  simp only [hq, contains_eq_false hne, contains_eq_false hnx, Bool.false_eq_true, if_false]

/-- A properly nested stretch of records leaves the block stack and the
reported lines as they were before it. -/
theorem validateFrom_wellNested (cfg : TConfig) (table : Table)
    (he : cfg.blockEntry = "\x7bentry:".toList) (hx : cfg.blockExit = "\x7dexit:".toList)
    (ht : cfg.columnThreadID ≤ 0) (lines : List QString) (hw : WellNested lines) :
    ∀ (offset : Nat) (st : VState),
    (∀ i, i < lines.length →
      itemText table (offset + i) ((cfg.columns : Int) - 1) = lines[i]?) →
    ∃ st1, validateFrom cfg (fun _ => false) table lines.length offset st = Outcome.done st1 ∧
      st1.stack = st.stack ∧ st1.errorLines = st.errorLines := by
  induction hw with
  | nil =>
    intro offset st _
    exact ⟨st, rfl, rfl, rfl⟩
  | plain l rest hne hnx _ ih =>
    intro offset st hcells
    have h0 := hcells 0 (by simp)
    simp only [Nat.add_zero, List.getElem?_cons_zero] at h0
    have hstep := validateLine_plain_line cfg table st offset l (by rw [he]; exact hne)
      (by rw [hx]; exact hnx) h0
    obtain ⟨st1, h1, h2, h3⟩ := ih (offset + 1) st (by
      intro i hi
      have := hcells (i + 1) (by simp only [List.length_cons]; omega)
      rw [List.getElem?_cons_succ] at this
      rw [← this]
      congr 1
      omega)
    refine ⟨st1, ?_, h2, h3⟩
    simp only [List.length_cons, validateFrom, Bool.false_eq_true, if_false, hstep]
    exact h1
  | block L inner rest hL _ _ ihi ihr =>
    intro offset st hcells
    have hlen : (("\x7bentry: ".toList ++ L) ::
        (inner ++ ("\x7dexit: ".toList ++ L) :: rest)).length
        = 1 + (inner.length + (1 + rest.length)) := by
      simp only [List.length_cons, List.length_append]
      omega
    have h0 := hcells 0 (by rw [hlen]; omega)
    simp only [Nat.add_zero, List.getElem?_cons_zero] at h0
    obtain ⟨sa, ha, hsa, hea⟩ := validateLine_entry_line cfg table st offset L he ht h0
    obtain ⟨sb, hb, hsb, heb⟩ := ihi (offset + 1) sa (by
      intro i hi
      have := hcells (i + 1) (by rw [hlen]; omega)
      rw [List.getElem?_cons_succ, List.getElem?_append_left hi] at this
      rw [← this]
      congr 1
      omega)
    have hx0 := hcells (inner.length + 1) (by rw [hlen]; omega)
    rw [List.getElem?_cons_succ, List.getElem?_append_right (le_refl _), Nat.sub_self,
      List.getElem?_cons_zero] at hx0
    obtain ⟨sc, hc, hsc, hec⟩ := validateLine_exit_line cfg table sb
      (offset + (inner.length + 1)) L st.stack he hx ht hL (by rw [hsb, hsa]) hx0
    obtain ⟨sd, hd, hsd, hed⟩ := ihr (offset + (inner.length + 1) + 1) sc (by
      intro i hi
      have := hcells (inner.length + 1 + 1 + i) (by rw [hlen]; omega)
      rw [show inner.length + 1 + 1 + i = (inner.length + (1 + i)) + 1 by omega,
        List.getElem?_cons_succ, List.getElem?_append_right (by omega),
        show inner.length + (1 + i) - inner.length = i + 1 by omega,
        List.getElem?_cons_succ] at this
      rw [← this]
      congr 1
      omega)
    refine ⟨sd, ?_, by rw [hsd, hsc], by rw [hed, hec, heb, hea]⟩
    rw [hlen]
    have e1 : validateFrom cfg (fun _ => false) table 1 offset st = Outcome.done sa := by
      simp only [validateFrom, Bool.false_eq_true, if_false, ha]
    rw [validateFrom_append cfg _ table _ 1 offset st sa e1,
      validateFrom_append cfg _ table _ inner.length (offset + 1) sa sb hb]
    have e3 : validateFrom cfg (fun _ => false) table 1 (offset + 1 + inner.length) sb
        = Outcome.done sc := by
      simp only [validateFrom, Bool.false_eq_true, if_false]
      rw [show offset + 1 + inner.length = offset + (inner.length + 1) by omega, hc]
    rw [validateFrom_append cfg _ table _ 1 (offset + 1 + inner.length) sb sc e3]
    rw [show offset + 1 + inner.length + 1 = offset + (inner.length + 1) + 1 by omega]
    exact hd

/-- Claim C25: with thread column 0 (or none) and the markers `{entry:` and
`}exit:`, for every table whose final cells form a properly nested sequence
(an entry line is `{entry: ` followed by a label without `{`, its exit line is
`}exit: ` followed by the same label), the validation without cancel ends
with a report in which `inconsistentExitLines` is empty, and the block stack
is empty at the end. -/
theorem validate_wellNested (cfg : TConfig) (table : Table) (lines : List QString)
    (he : cfg.blockEntry = "\x7bentry:".toList) (hx : cfg.blockExit = "\x7dexit:".toList)
    (ht : cfg.columnThreadID ≤ 0) (hlen : table.length = lines.length)
    (hcells : ∀ i, i < lines.length → itemText table i ((cfg.columns : Int) - 1) = lines[i]?)
    (hw : WellNested lines) :
    ∃ st, validate cfg (fun _ => false) table = Outcome.done st ∧
      inconsistentExitLines st = [] ∧ st.stack = [] := by
  obtain ⟨st, h1, h2, h3⟩ := validateFrom_wellNested cfg table he hx ht lines hw 0 VState.init
    (by intro i hi; rw [Nat.zero_add]; exact hcells i hi)
  refine ⟨st, ?_, h3, h2⟩
  unfold validate
  rw [hlen]
  exact h1

/-- Claim C25 on the table of two blocks, one inside the other. -/
theorem validate_wellNested_witness :
    ∃ st, validate blockSchema (fun _ => false) nestedTable = Outcome.done st ∧
      inconsistentExitLines st = [] ∧ st.stack = [] :=
  validate_wellNested blockSchema nestedTable
    ["\x7bentry: run".toList, "\x7bentry: A::f".toList, "working".toList,
     "\x7dexit: A::f".toList, "\x7dexit: run".toList]
    rfl rfl (by decide) rfl (by decide)
    (WellNested.block "run".toList
      ["\x7bentry: A::f".toList, "working".toList, "\x7dexit: A::f".toList] []
      (by decide)
      (WellNested.block "A::f".toList ["working".toList] [] (by decide)
        (WellNested.plain "working".toList [] (by decide) (by decide) WellNested.nil)
        WellNested.nil)
      WellNested.nil)

end LogViewer
